import Mathlib

/-!
# QuadcastRGB: the colour-scheme encoder of `modules/rgbmodes.c`

A shallow embedding of `rgbmodes.c` and theorems about it.

Conventions of the embedding.

* The packet array (`datpack *`, a contiguous block of `pck_cnt` packets of
  `DATA_PACKET_SIZE` bytes) is a flat list of byte values; a `byte_t *` is an
  integer offset from the start of that block.  A load or store outside the
  block makes the embedded function return `none`.
* `int` values are mathematical integers.  The signed arithmetic of the file
  stays far inside the 32-bit range whenever speed, delay and brightness lie
  in `[0,100]`, which every statement below assumes.  Where the C types make a
  difference the wrap-around is explicit: `u32` for the `unsigned int`
  arithmetic of `count_cycle_data`, `toShort` for the `short` counter of
  `count_color_commands`, `% 256` for a store through a `byte_t *`.
* The header `rgbmodes.h` is not part of the sources at hand, so its
  constants are the fields of a `Header` and every theorem says which facts
  about them it relies on.
* Loops whose trip count is not syntactically bounded carry a fuel argument;
  running out of fuel yields `none`, and the theorems show that the fuel
  supplied by the callers is enough.
-/

namespace QuadcastRGB

/-! ## Constants of the missing header -/

/-- Modelled from the spec: the constants that `rgbmodes.c` takes from
`rgbmodes.h` (and, for `nocolor` and `black`, from the argument parser's
header).  None of these files is among the sources; the names are the ones
used in `rgbmodes.c`. -/
structure Header where
  BYTE_STEP : Int
  DATA_PACKET_SIZE : Int
  RGB_CODE : Int
  MAX_COLPAIR_COUNT : Int
  MAX_PCT_COUNT : Int
  COLPAIR_PER_PCT : Int
  MIN_CYCL_TR : Int
  MAX_CYCL_TR : Int
  RAND_COL_SEG_MIN : Int
  RAND_COL_SEG_MAX : Int
  RAND_DLY_SEG_MIN : Int
  RAND_DLY_SEG_MAX : Int
  MAX_SPD : Int
  MAX_DLY : Int
  nocolor : Int
  black : Int
deriving DecidableEq

/-- Modelled from the spec: the packet layout of section 6.  A command is a
marker byte followed by three colour bytes and occupies `BYTE_STEP` bytes, a
packet holds 8 commands of each ring (`DATA_PACKET_SIZE / (2*BYTE_STEP) = 8`,
the literal `8` of `count_color_commands`), the marker is a non-zero byte
value (a zeroed slot is "no command"), and `black` is the colour 0. -/
def Header.Layout (H : Header) : Prop :=
  H.BYTE_STEP = 4 ∧ H.DATA_PACKET_SIZE = 64 ∧ 0 < H.RGB_CODE ∧ H.RGB_CODE < 256 ∧ H.black = 0

instance (H : Header) : Decidable H.Layout := by
  unfold Header.Layout; infer_instance

/-- Modelled from the spec: a concrete header with the layout of section 6,
the limit of 720 colour pairs named in the comment of `count_cycle_data`,
8 colour pairs per packet and 90 packets; the remaining values are sample
values used to evaluate the functions on concrete inputs. -/
def quadcast : Header where
  BYTE_STEP := 4
  DATA_PACKET_SIZE := 64
  RGB_CODE := 0x81
  MAX_COLPAIR_COUNT := 720
  MAX_PCT_COUNT := 90
  COLPAIR_PER_PCT := 8
  MIN_CYCL_TR := 12
  MAX_CYCL_TR := 128
  RAND_COL_SEG_MIN := 2
  RAND_COL_SEG_MAX := 12
  RAND_DLY_SEG_MIN := 0
  RAND_DLY_SEG_MAX := 10
  MAX_SPD := 100
  MAX_DLY := 100
  nocolor := -1
  black := 0

/-- Modelled from the spec: the macro `DIV_CEIL` of the missing header,
"ceiling(total / COLPAIR_PER_PCT)", written the way a C macro computes it on
non-negative operands: the truncated quotient, plus one when there is a
remainder. -/
def DIV_CEIL (a b : Int) : Int :=
  a.tdiv b + (if a.tmod b ≠ 0 then 1 else 0)

/-- Modelled from the spec: `strequ` of the missing header, the test that two
mode tags are the same string. -/
def strequ (a b : String) : Bool := a == b

/-! ## Machine integers -/

/-- Value of an integer after conversion to `unsigned int` (32 bits). -/
def u32 (x : Int) : Int := x % 4294967296

/-- Value of an integer after conversion to `int` (32 bits, two's complement). -/
def toInt32 (x : Int) : Int := (x + 2147483648) % 4294967296 - 2147483648

/-- Value of an integer after conversion to `short` (16 bits, two's complement). -/
def toShort (x : Int) : Int := (x + 32768) % 65536 - 32768

/-! ## Data model -/

/-- The struct `colscheme`: mode tag, the colour array (terminated by
`nocolor`), brightness, speed and delay. -/
structure colscheme where
  mode : String
  colors : List Int
  br : Int
  spd : Int
  dly : Int
deriving DecidableEq, Repr

/-- The struct `colschemes`: the schemes of the upper and the lower ring. -/
structure colschemes where
  upper : colscheme
  lower : colscheme
deriving DecidableEq, Repr

/-- Bytes of the packet array, in address order. -/
abbrev Mem := List Int

/-- Load of the byte at offset `p`; `none` outside the block. -/
def readByte (m : Mem) (p : Int) : Option Int :=
  if 0 ≤ p then m[p.toNat]? else none

/-- Store of `v` through a `byte_t *`, that is of `v` converted to `byte_t`,
at offset `p`; `none` outside the block. -/
def writeByte (m : Mem) (p : Int) (v : Int) : Option Mem :=
  if 0 ≤ p ∧ p.toNat < m.length then some (m.set p.toNat (v % 256)) else none

/-- Store of the byte value `v` at offset `p`, as it is; `none` outside the
block. -/
def storeByte (m : Mem) (p : Int) (v : Int) : Option Mem :=
  if 0 ≤ p ∧ p.toNat < m.length then some (m.set p.toNat v) else none

/-- The library call `memcpy(dst, src, n)`, byte by byte in ascending order. -/
def memcpy (dst src : Int) : Nat → Mem → Option Mem
  | 0, m => some m
  | n + 1, m =>
    match readByte m src with
    | none => none
    | some v =>
      match storeByte m dst v with
      | none => none
      | some m1 => memcpy (dst + 1) (src + 1) n m1

/-! ## Shared: `write_hexcolor` -/

/-- The value `(((color >> n) & 0xff)*bright) / 100` of `write_hexcolor`. -/
def hex_channel (color bright : Int) (n : Nat) : Int :=
  (Int.land (color >>> n) 0xff * bright).tdiv 100

/-- The function `write_hexcolor`: the loop `for(n = 16; n >= 0; n -= 8)`
runs for `n = 16, 8, 0` and stores one byte per round at `mem`, `mem+1`,
`mem+2`. -/
def write_hexcolor (color bright : Int) (m : Mem) (mem : Int) : Option Mem :=
  match writeByte m mem (hex_channel color bright 16) with
  | none => none
  | some m1 =>
    match writeByte m1 (mem + 1) (hex_channel color bright 8) with
    | none => none
    | some m2 => writeByte m2 (mem + 2) (hex_channel color bright 0)

/-! ## Solid -/

/-- The function `sequence_solid`: the marker at `da`, then the colour
`*colors` at `da+1`. -/
def sequence_solid (H : Header) (colors : List Int) (bright : Int) (m : Mem) (da : Int) :
    Option Mem :=
  match writeByte m da H.RGB_CODE with
  | none => none
  | some m1 =>
    match colors[0]? with
    | none => none
    | some c => write_hexcolor c bright m1 (da + 1)

/-! ## Blink -/

/-- The loop of `count_blink_data` over the colour array, from the element at
`col` on: returns the final `cnt` and the array as the loop leaves it.  Running
off the array without meeting `nocolor` is `none`. -/
def count_blink_loop (H : Header) (spd dly : Int) : List Int → Int → Option (Int × List Int)
  | [], _ => none
  | c :: rest, cnt =>
    if c = H.nocolor then some (cnt, c :: rest)
    else
      let cnt1 := cnt + (101 - spd + dly)
      if cnt1 > H.MAX_COLPAIR_COUNT then
        some (cnt1 - (101 - spd + dly), H.nocolor :: rest)
      else
        match count_blink_loop H spd dly rest cnt1 with
        | none => none
        | some (r, rest1) => some (r, c :: rest1)

/-- The function `count_blink_data`: the packet count and the scheme with
its colour array as `count_blink_data` leaves it.  The seeding of the random
generator in the random sub-mode is not part of the state of the model. -/
def count_blink_data (H : Header) (colsch : colscheme) : Option (Int × colscheme) :=
  match colsch.colors[0]? with
  | none => none
  | some c0 =>
    if c0 = H.nocolor then some (H.MAX_PCT_COUNT, colsch)
    else
      match count_blink_loop H colsch.spd colsch.dly colsch.colors 0 with
      | none => none
      | some (cnt, cols) => some (DIV_CEIL cnt H.COLPAIR_PER_PCT, { colsch with colors := cols })

/-- The loop of `blink_color_fill`: `k` commands of the same colour, one every
`2*BYTE_STEP` bytes from `da` on. -/
def blink_color_loop (H : Header) (color bright : Int) : Nat → Mem → Int → Option Mem
  | 0, m, _ => some m
  | k + 1, m, da =>
    match writeByte m da H.RGB_CODE with
    | none => none
    | some m1 =>
      match write_hexcolor color bright m1 (da + 1) with
      | none => none
      | some m2 => blink_color_loop H color bright k m2 (da + 2 * H.BYTE_STEP)

/-- The function `blink_color_fill`: the loop `for(; i < size; i++)` from
`i = 0` runs `size` times, and not at all when `size <= 0`. -/
def blink_color_fill (H : Header) (color size bright : Int) (m : Mem) (da : Int) : Option Mem :=
  blink_color_loop H color bright size.toNat m da

/-- The function `blink_segment_fill`: a colour segment, then a delay segment
in `black`; returns the memory and the advanced cursor `*da`. -/
def blink_segment_fill (H : Header) (col col_seg dly_seg bright : Int) (m : Mem) (da : Int) :
    Option (Mem × Int) :=
  match blink_color_fill H col col_seg bright m da with
  | none => none
  | some m1 =>
    let da1 := da + 2 * H.BYTE_STEP * col_seg
    match blink_color_fill H H.black dly_seg bright m1 da1 with
    | none => none
    | some m2 => some (m2, da1 + 2 * H.BYTE_STEP * dly_seg)

/-- The loop of `sequence_blink` over the colour array. -/
def sequence_blink_loop (H : Header) (col_seg dly br : Int) : List Int → Mem → Int → Option Mem
  | [], _, _ => none
  | c :: rest, m, da =>
    if c = H.nocolor then some m
    else
      match blink_segment_fill H c col_seg dly br m da with
      | none => none
      | some (m1, da1) => sequence_blink_loop H col_seg dly br rest m1 da1

/-- The function `sequence_blink` (its local `colpair` is never read and
`pckcnt` is unused). -/
def sequence_blink (H : Header) (colsch : colscheme) (m : Mem) (da : Int) (_pckcnt : Int) :
    Option Mem :=
  sequence_blink_loop H (101 - colsch.spd) colsch.dly colsch.br colsch.colors m da

/-- The loop `while(colpair < MAX_COLPAIR_COUNT)` of `sequence_blink_random`.
The colours returned by `random_color()` are the values `rnd ri`, `rnd (ri+1)`,
... of an explicit source; the result is the memory, the final cursor and the
index of the next unused random value. -/
def sequence_blink_random_loop (H : Header) (bright dly_seg : Int) (rnd : Nat → Int) :
    Nat → Int → Int → Nat → Mem → Int → Option (Mem × Int × Nat)
  | 0, colpair, _, ri, m, da =>
    if colpair < H.MAX_COLPAIR_COUNT then none else some (m, da, ri)
  | fuel + 1, colpair, col_seg, ri, m, da =>
    if colpair < H.MAX_COLPAIR_COUNT then
      let colpair1 := colpair + (col_seg + dly_seg)
      let col_seg1 :=
        if colpair1 > H.MAX_COLPAIR_COUNT then col_seg - (colpair1 - H.MAX_COLPAIR_COUNT)
        else col_seg
      match blink_segment_fill H (rnd ri) col_seg1 dly_seg bright m da with
      | none => none
      | some (m1, da1) =>
        sequence_blink_random_loop H bright dly_seg rnd fuel colpair1 col_seg1 (ri + 1) m1 da1
    else some (m, da, ri)

/-- The function `sequence_blink_random`. -/
def sequence_blink_random (H : Header) (rnd : Nat → Int) (ri : Nat) (bright speed delay : Int)
    (m : Mem) (da : Int) : Option (Mem × Int × Nat) :=
  let col_seg := H.RAND_COL_SEG_MIN +
    (speed * (H.RAND_COL_SEG_MAX - H.RAND_COL_SEG_MIN)).tdiv H.MAX_SPD
  let dly_seg := H.RAND_DLY_SEG_MIN +
    (delay * (H.RAND_DLY_SEG_MAX - H.RAND_DLY_SEG_MIN)).tdiv H.MAX_DLY
  sequence_blink_random_loop H bright dly_seg rnd (H.MAX_COLPAIR_COUNT.toNat + 1) 0 col_seg ri m da

/-! ## Cycle -/

/-- The counting loop of `count_cycle_data`: the index of the first `nocolor`
of the array. -/
def color_count (H : Header) : List Int → Option Int
  | [] => none
  | c :: rest =>
    if c = H.nocolor then some 0
    else
      match color_count H rest with
      | none => none
      | some k => some (k + 1)

/-- The total size of `count_cycle_data` for `color_cnt` colours, in
`unsigned int` arithmetic: the value of `size` at the final `DIV_CEIL`. -/
def cycle_size (H : Header) (spd color_cnt : Int) : Int :=
  let tr_size := u32 (100 - spd)
  let size := u32 (H.MIN_CYCL_TR + u32 ((H.MAX_CYCL_TR - H.MIN_CYCL_TR) * tr_size) / 100)
  let size := u32 (size * color_cnt)
  if size > u32 H.MAX_COLPAIR_COUNT then
    u32 (u32 (H.MIN_CYCL_TR +
      u32 (u32 (u32 H.MAX_COLPAIR_COUNT / color_cnt - H.MIN_CYCL_TR) * tr_size) / 100) * color_cnt)
  else size

/-- The function `count_cycle_data`. -/
def count_cycle_data (H : Header) (colsch : colscheme) : Option Int :=
  match color_count H colsch.colors with
  | none => none
  | some color_cnt =>
    some (toInt32 (DIV_CEIL (cycle_size H colsch.spd (u32 color_cnt)) (u32 H.COLPAIR_PER_PCT)))

/-! ## Counting, filling, equalizing -/

/-- The function `count_data`: the packet count (`-1` for an unsupported mode)
and the scheme as the counter leaves it. -/
def count_data (H : Header) (colsch : colscheme) : Option (Int × colscheme) :=
  if strequ colsch.mode "solid" then some (1, colsch)
  else if strequ colsch.mode "blink" then count_blink_data H colsch
  else if strequ colsch.mode "cycle" then
    match count_cycle_data H colsch with
    | none => none
    | some r => some (r, colsch)
  else some (-1, colsch)

/-- The function `fill_data`; `ri` is the index of the next unused random
colour and is returned advanced. -/
def fill_data (H : Header) (rnd : Nat → Int) (ri : Nat) (colsch : colscheme) (m : Mem) (da : Int)
    (pckcnt : Int) : Option (Mem × Nat) :=
  if strequ colsch.mode "solid" then
    match sequence_solid H colsch.colors colsch.br m da with
    | none => none
    | some m1 => some (m1, ri)
  else if strequ colsch.mode "blink" then
    match colsch.colors[0]? with
    | none => none
    | some c0 =>
      if c0 = H.nocolor then
        match sequence_blink_random H rnd ri colsch.br colsch.spd colsch.dly m da with
        | none => none
        | some (m1, _, ri1) =>
          match sequence_blink H colsch m1 da pckcnt with
          | none => none
          | some m2 => some (m2, ri1)
      else
        match sequence_blink H colsch m da pckcnt with
        | none => none
        | some m1 => some (m1, ri)
  else some (m, ri)

/-- The scanning loop of `count_color_commands`: `b` runs from the start of
the last packet in steps of `2*BYTE_STEP` while `b < stop`. -/
def count_scan (H : Header) (m : Mem) (stop step : Int) : Nat → Int → Int → Option Int
  | 0, b, cnt => if b < stop then none else some cnt
  | fuel + 1, b, cnt =>
    if b < stop then
      match readByte m (b + step) with
      | none => none
      | some v =>
        if v ≠ H.RGB_CODE then some cnt
        else count_scan H m stop step fuel (b + 2 * H.BYTE_STEP) (toShort (cnt + 1))
    else some cnt

/-- The function `count_color_commands`; `data_arr[pck_cnt-1]` is the offset
`(pck_cnt-1)*DATA_PACKET_SIZE`. -/
def count_color_commands (H : Header) (m : Mem) (pck_cnt colgroup : Int) : Option Int :=
  let step := if colgroup ≠ 0 then toShort H.BYTE_STEP else 0
  let cnt := toShort ((pck_cnt - 1) * 8)
  let b := (pck_cnt - 1) * H.DATA_PACKET_SIZE
  count_scan H m (b + H.DATA_PACKET_SIZE) step H.DATA_PACKET_SIZE.toNat b cnt

/-- The loop of `fillup_to`. -/
def fillup_loop (H : Header) (copy_size finish : Int) : Nat → Int → Mem → Option Mem
  | 0, curr, m => if curr ≤ finish then none else some m
  | fuel + 1, curr, m =>
    if curr ≤ finish then
      match memcpy curr (curr - 2 * H.BYTE_STEP * copy_size) H.BYTE_STEP.toNat m with
      | none => none
      | some m1 => fillup_loop H copy_size finish fuel (curr + 2 * H.BYTE_STEP) m1
    else some m

/-- The function `fillup_to`.  A negative `copy_size` (which the conversion to
`size_t` would turn into a huge offset) is outside the model. -/
def fillup_to (H : Header) (copy_size curr finish : Int) (m : Mem) : Option Mem :=
  if copy_size < 0 then none
  else fillup_loop H copy_size finish m.length curr m

/-- The function `equalize`. -/
def equalize (H : Header) (upper_size lower_size : Int) (da : Mem) : Option Mem :=
  match count_color_commands H da upper_size 0 with
  | none => none
  | some upper_size =>
    match count_color_commands H da lower_size 1 with
    | none => none
    | some lower_size =>
      let upper_end := 2 * H.BYTE_STEP * (upper_size - 1)
      let lower_end := 2 * H.BYTE_STEP * (lower_size - 1) + H.BYTE_STEP
      if upper_size < lower_size then
        fillup_to H upper_size (upper_end + 2 * H.BYTE_STEP) (lower_end - H.BYTE_STEP) da
      else if lower_size < upper_size then
        fillup_to H lower_size (lower_end + 2 * H.BYTE_STEP) (upper_end + H.BYTE_STEP) da
      else some da

/-- What a call of `parse_colorscheme` ends in: `exit(status)`, or the return
of the packet array together with `*pck_cnt`. -/
inductive Outcome where
  | exit (status : Int)
  | ret (data_arr : Mem) (pck_cnt : Int)
deriving DecidableEq, Repr

/-- The function `parse_colorscheme`; `calloc` yields a zeroed block of
`pck_cnt` packets. -/
def parse_colorscheme (H : Header) (rnd : Nat → Int) (cs : colschemes) : Option Outcome :=
  match count_data H cs.upper with
  | none => none
  | some (seq_upper, upper) =>
    match count_data H cs.lower with
    | none => none
    | some (seq_lower, lower) =>
      if seq_upper < 1 ∨ seq_lower < 1 then some (Outcome.exit 254)
      else
        let pck_cnt := if seq_upper ≥ seq_lower then seq_upper else seq_lower
        let data_arr : Mem := List.replicate (H.DATA_PACKET_SIZE * pck_cnt).toNat 0
        match fill_data H rnd 0 upper data_arr 0 pck_cnt with
        | none => none
        | some (m1, ri) =>
          match fill_data H rnd ri lower m1 H.BYTE_STEP pck_cnt with
          | none => none
          | some (m2, _) =>
            match equalize H seq_upper seq_lower m2 with
            | none => none
            | some m3 => some (Outcome.ret m3 pck_cnt)

/-! ## Vocabulary of the statements -/

/-- The byte `write_hexcolor` stores for the channel at bit `n`. -/
def hex_byte (color bright : Int) (n : Nat) : Int := hex_channel color bright n % 256

/-- The colours of a colour array up to its first `nocolor`. -/
def live_colors (H : Header) (colors : List Int) : List Int :=
  colors.takeWhile (fun c => decide (c ≠ H.nocolor))

/-- The byte number `r` (0 to 3) of a command of colour `color` at brightness
`bright`: the marker, then the three bytes `write_hexcolor` stores. -/
def cmd_byte (H : Header) (color bright : Int) (r : Nat) : Int :=
  if r = 0 then H.RGB_CODE
  else if r = 1 then hex_byte color bright 16
  else if r = 2 then hex_byte color bright 8
  else hex_byte color bright 0

/-- The four bytes of a command of colour `color` at brightness `bright`. -/
def command (H : Header) (color bright : Int) : List Int :=
  [H.RGB_CODE, hex_byte color bright 16, hex_byte color bright 8, hex_byte color bright 0]

/-- Byte index `i` lies in one of the command slots `0 .. n-1` of the ring
whose slot 0 starts at byte `p`: slot `j` is the four bytes from `p + 8*j`. -/
def in_slots (p n i : Nat) : Prop := p ≤ i ∧ (i - p) / 8 < n ∧ (i - p) % 8 < 4

instance (p n i : Nat) : Decidable (in_slots p n i) := by
  unfold in_slots; infer_instance

/-- The `BYTE_STEP` bytes of slot `j` of the ring whose slot 0 starts at byte
`cursor`: slot `j` starts `2*BYTE_STEP*j` bytes after the cursor. -/
def command_at (H : Header) (m : Mem) (cursor j : Nat) : List Int :=
  (m.drop (cursor + 2 * H.BYTE_STEP.toNat * j)).take H.BYTE_STEP.toNat

/-- The colour of slot `j` of an explicit blink sequence over `cols` with
colour segments of `s` slots inside periods of `w` slots: colour number
`j / w` during the first `s` slots of its period, `black` during the rest. -/
def blink_color (H : Header) (cols : List Int) (s w j : Nat) : Int :=
  if j % w < s then cols.getD (j / w) H.black else H.black

/-- The ring whose slot 0 starts at byte `cursor` holds exactly `n` commands:
the slots `0 .. n-1` carry the marker `RGB_CODE` as their first byte, and no
slot from `n` on does. -/
def holds_commands (H : Header) (m : Mem) (cursor n : Nat) : Prop :=
  (∀ j : Nat, j < n → m[cursor + 2 * H.BYTE_STEP.toNat * j]? = some H.RGB_CODE) ∧
  (∀ j : Nat, j < m.length → n ≤ j → m[cursor + 2 * H.BYTE_STEP.toNat * j]? ≠ some H.RGB_CODE)

instance (H : Header) (m : Mem) (cursor n : Nat) : Decidable (holds_commands H m cursor n) := by
  unfold holds_commands; infer_instance

/-- Modelled from the spec: the relations between the remaining constants of
the missing header that the encoder relies on.  A packet holds
`COLPAIR_PER_PCT <= 8` colour pairs of a ring; one blink colour with its delay
(at most 201 colour pairs) fits into `MAX_COLPAIR_COUNT`; `MAX_COLPAIR_COUNT`
colour pairs fit into `MAX_PCT_COUNT` packets; the packet counts stay in the
range of the `short` counter of `count_color_commands`; the transition sizes
of the cycle mode are ordered and small; speed and delay are scaled by
`MAX_SPD, MAX_DLY >= 100`; the random colour segments are at least one slot
long and the random delay segments between 0 and `MAX_COLPAIR_COUNT` slots. -/
def Header.Capacities (H : Header) : Prop :=
  0 < H.COLPAIR_PER_PCT ∧ H.COLPAIR_PER_PCT ≤ 8 ∧
  201 ≤ H.MAX_COLPAIR_COUNT ∧ H.MAX_COLPAIR_COUNT ≤ 4095 ∧
  H.MAX_COLPAIR_COUNT ≤ 8 * H.MAX_PCT_COUNT ∧ H.MAX_PCT_COUNT ≤ 4095 ∧
  1 ≤ H.MIN_CYCL_TR ∧ H.MIN_CYCL_TR ≤ H.MAX_CYCL_TR ∧ H.MAX_CYCL_TR ≤ 1000000 ∧
  100 ≤ H.MAX_SPD ∧ 100 ≤ H.MAX_DLY ∧
  1 ≤ H.RAND_COL_SEG_MIN ∧ 1 ≤ H.RAND_COL_SEG_MAX ∧
  0 ≤ H.RAND_DLY_SEG_MIN ∧ 0 ≤ H.RAND_DLY_SEG_MAX ∧
  H.RAND_DLY_SEG_MIN ≤ H.MAX_COLPAIR_COUNT ∧ H.RAND_DLY_SEG_MAX ≤ H.MAX_COLPAIR_COUNT

instance (H : Header) : Decidable H.Capacities := by
  unfold Header.Capacities; infer_instance

/-- A scheme as the argument parser hands it over: one of the three supported
modes, brightness, speed and delay in `[0,100]`, a colour array that holds
`nocolor`; in the cycle mode, at least one colour, and no more colours than
transitions of the minimal size `MIN_CYCL_TR` fit into `MAX_COLPAIR_COUNT`. -/
def supported_scheme (H : Header) (colsch : colscheme) : Prop :=
  (colsch.mode = "solid" ∨ colsch.mode = "blink" ∨ colsch.mode = "cycle") ∧
  0 ≤ colsch.br ∧ colsch.br ≤ 100 ∧ 0 ≤ colsch.spd ∧ colsch.spd ≤ 100 ∧
  0 ≤ colsch.dly ∧ colsch.dly ≤ 100 ∧ H.nocolor ∈ colsch.colors ∧
  (colsch.mode = "cycle" → 1 ≤ (live_colors H colsch.colors).length ∧
    ((live_colors H colsch.colors).length : Int) * H.MIN_CYCL_TR ≤ H.MAX_COLPAIR_COUNT)

instance (H : Header) (colsch : colscheme) : Decidable (supported_scheme H colsch) := by
  unfold supported_scheme; infer_instance

/-- The number of consecutive slots of one packet, counted from the slot that
starts at byte `start`, whose first byte is the marker `RGB_CODE`, up to the
first slot whose first byte is not: the slots are `2*BYTE_STEP` bytes apart and
a packet holds `DATA_PACKET_SIZE / (2*BYTE_STEP)` of them. -/
def marker_run (H : Header) (m : Mem) (start : Nat) : Nat :=
  ((List.range (H.DATA_PACKET_SIZE / (2 * H.BYTE_STEP)).toNat).takeWhile
    (fun t => decide (m[start + 2 * H.BYTE_STEP.toNat * t]? = some H.RGB_CODE))).length

/-- The test `size > MAX_COLPAIR_COUNT` of `count_cycle_data` for `color_cnt`
colours at speed `spd`: whether the rescaling branch is taken. -/
def cycle_rescales (H : Header) (spd color_cnt : Int) : Prop :=
  u32 (u32 (H.MIN_CYCL_TR + u32 ((H.MAX_CYCL_TR - H.MIN_CYCL_TR) * u32 (100 - spd)) / 100) *
    color_cnt) > u32 H.MAX_COLPAIR_COUNT

instance (H : Header) (spd color_cnt : Int) : Decidable (cycle_rescales H spd color_cnt) := by
  unfold cycle_rescales; infer_instance

/-! # Theorems -/

set_option maxRecDepth 100000

/-! ## Basic facts -/

theorem writeByte_nat (m : Mem) (p : Nat) (v : Int) (h : p < m.length) :
    writeByte m (p : Int) v = some (m.set p (v % 256)) := by
  simp [writeByte, h]

theorem writeByte_at (m : Mem) (q : Int) (n : Nat) (v : Int) (hq : q = (n : Int))
    (h : n < m.length) : writeByte m q v = some (m.set n (v % 256)) := by
  subst hq; exact writeByte_nat m n v h

theorem land_255_of_nonneg (x : Int) (hx : 0 ≤ x) : Int.land x 0xff = x % 256 := by
  obtain ⟨n, rfl⟩ := Int.eq_ofNat_of_zero_le hx
  have h := Nat.and_pow_two_sub_one_eq_mod n 8
  simp only [Int.land]
  norm_num at h ⊢
  exact_mod_cast h

theorem hex_channel_eq (c b : Int) (n : Nat) (hc : 0 ≤ c) (hb : 0 ≤ b) :
    hex_channel c b n = (c / 2 ^ n % 256 * b) / 100 := by
  unfold hex_channel
  have h1 : c >>> n = c / 2 ^ n := by
    rw [Int.shiftRight_eq_div_pow]; norm_cast
  have h2 : 0 ≤ c / 2 ^ n := Int.ediv_nonneg hc (by positivity)
  rw [h1, land_255_of_nonneg _ h2]
  have h3 : 0 ≤ c / 2 ^ n % 256 := Int.emod_nonneg _ (by norm_num)
  rw [Int.tdiv_eq_ediv (mul_nonneg h3 hb) (by norm_num)]

theorem scaled_lt (x b : Int) (hx0 : 0 ≤ x) (hx : x < 256) (hb0 : 0 ≤ b) (hb : b ≤ 100) :
    0 ≤ x * b / 100 ∧ x * b / 100 < 256 := by
  constructor
  · exact Int.ediv_nonneg (mul_nonneg hx0 hb0) (by norm_num)
  · have : x * b ≤ 255 * 100 := by nlinarith
    omega

/-- One command written at the natural offset `p`: the memory afterwards. -/
theorem write_command (H : Header) (c b : Int) (m : Mem) (p : Nat) (hp : p + 3 < m.length) :
    (match writeByte m (p : Int) H.RGB_CODE with
      | none => none
      | some m1 => write_hexcolor c b m1 ((p : Int) + 1)) =
    some ((((m.set p (H.RGB_CODE % 256)).set (p + 1) (hex_byte c b 16)).set (p + 2)
      (hex_byte c b 8)).set (p + 3) (hex_byte c b 0)) := by
  rw [writeByte_nat _ _ _ (by omega)]
  simp only [write_hexcolor]
  rw [writeByte_at _ _ (p + 1) _ (by push_cast; ring) (by simp; omega)]
  simp only []
  rw [writeByte_at _ _ (p + 2) _ (by push_cast; ring) (by simp; omega)]
  simp only []
  rw [writeByte_at _ _ (p + 3) _ (by push_cast; ring) (by simp; omega)]
  rfl

/-- C1. Solid mode: `count_data` returns 1 (and leaves the scheme alone), and
`sequence_solid` at a cursor `p` with four bytes of room succeeds and changes
exactly the four bytes at `p .. p+3`: the marker `RGB_CODE`, then
`floor(((c>>16)&0xff)*b/100)`, `floor(((c>>8)&0xff)*b/100)`,
`floor((c&0xff)*b/100)` (channel `x` of `c` written as `c / 2^x % 256`); every
other byte keeps its value and the length of the block is unchanged.  This
holds for every non-negative colour, the 24-bit ones among them. -/
theorem C1_solid (H : Header) (hR0 : 0 ≤ H.RGB_CODE) (hR : H.RGB_CODE < 256)
    (colsch : colscheme) (c : Int) (rest : List Int)
    (hmode : colsch.mode = "solid") (hcol : colsch.colors = c :: rest)
    (hc0 : 0 ≤ c) (b : Int) (hb0 : 0 ≤ b) (hb : b ≤ 100)
    (m : Mem) (p : Nat) (hp : p + 3 < m.length) :
    count_data H colsch = some (1, colsch) ∧
    ∃ m1, sequence_solid H colsch.colors b m (p : Int) = some m1 ∧
      m1.length = m.length ∧
      ∀ i : Nat, m1[i]? =
        if i = p then some H.RGB_CODE
        else if i = p + 1 then some ((c / 2 ^ 16 % 256 * b) / 100)
        else if i = p + 2 then some ((c / 2 ^ 8 % 256 * b) / 100)
        else if i = p + 3 then some ((c % 256 * b) / 100)
        else m[i]? := by
  refine ⟨by simp [count_data, strequ, hmode], ?_⟩
  have hw := write_command H c b m p hp
  have hs : sequence_solid H colsch.colors b m (p : Int) =
      some ((((m.set p (H.RGB_CODE % 256)).set (p + 1) (hex_byte c b 16)).set (p + 2)
        (hex_byte c b 8)).set (p + 3) (hex_byte c b 0)) := by
    rw [← hw]
    unfold sequence_solid
    rw [hcol]
    cases writeByte m (p : Int) H.RGB_CODE <;> simp
  refine ⟨_, hs, by simp, ?_⟩
  have hbyte : ∀ n : Nat, hex_byte c b n = (c / 2 ^ n % 256 * b) / 100 := by
    intro n
    unfold hex_byte
    rw [hex_channel_eq c b n hc0 hb0]
    have h3 : 0 ≤ c / 2 ^ n % 256 := Int.emod_nonneg _ (by norm_num)
    have h4 : c / 2 ^ n % 256 < 256 := Int.emod_lt_of_pos _ (by norm_num)
    have := scaled_lt _ b h3 h4 hb0 hb
    omega
  have h0 : hex_byte c b 0 = (c % 256 * b) / 100 := by
    rw [hbyte 0]; simp
  have hm : H.RGB_CODE % 256 = H.RGB_CODE := Int.emod_eq_of_lt hR0 hR
  intro i
  rw [hbyte 16, hbyte 8, h0, hm]
  simp only [List.getElem?_set, List.length_set]
  by_cases h3 : i = p + 3
  · subst h3; simp; omega
  by_cases h2 : i = p + 2
  · subst h2; simp; omega
  by_cases h1 : i = p + 1
  · subst h1; simp; omega
  by_cases h0 : i = p
  · subst h0; simp; omega
  · have e3 : ¬ p + 3 = i := fun h => h3 h.symm
    have e2 : ¬ p + 2 = i := fun h => h2 h.symm
    have e1 : ¬ p + 1 = i := fun h => h1 h.symm
    have e0 : ¬ p = i := fun h => h0 h.symm
    simp [h3, h2, h1, h0, e3, e2, e1, e0]

/-- C1, at a concrete input: colour `0x804020` at brightness 50 written at
offset 4 of a zeroed packet. -/
theorem C1_solid_witness :
    count_data quadcast ⟨"solid", [0x804020, -1], 50, 0, 0⟩ =
      some (1, ⟨"solid", [0x804020, -1], 50, 0, 0⟩) ∧
    ∃ m1, sequence_solid quadcast [0x804020, -1] 50 (List.replicate 64 0) ((4 : Nat) : Int) =
        some m1 ∧
      m1.length = (List.replicate 64 (0 : Int)).length ∧
      ∀ i : Nat, m1[i]? =
        if i = 4 then some quadcast.RGB_CODE
        else if i = 4 + 1 then some (((0x804020 : Int) / 2 ^ 16 % 256 * 50) / 100)
        else if i = 4 + 2 then some (((0x804020 : Int) / 2 ^ 8 % 256 * 50) / 100)
        else if i = 4 + 3 then some (((0x804020 : Int) % 256 * 50) / 100)
        else (List.replicate 64 (0 : Int))[i]? :=
  C1_solid quadcast (by decide) (by decide) ⟨"solid", [0x804020, -1], 50, 0, 0⟩ 0x804020 [-1]
    rfl rfl (by decide) 50 (by decide) (by decide) (List.replicate 64 0) 4
    (by decide)

/-! ## The capacity counter of the blink mode -/

theorem DIV_CEIL_eq_ceil (a b : Int) (ha : 0 ≤ a) (hb : 0 < b) :
    DIV_CEIL a b = ⌈(a : ℚ) / (b : ℚ)⌉ := by
  unfold DIV_CEIL
  rw [Int.tdiv_eq_ediv ha hb.le, Int.tmod_eq_emod ha hb.le]
  symm
  rw [Int.ceil_eq_iff]
  have hbq : (0 : ℚ) < (b : ℚ) := by exact_mod_cast hb
  have hdm : b * (a / b) + a % b = a := Int.ediv_add_emod a b
  have hm0 : 0 ≤ a % b := Int.emod_nonneg _ hb.ne'
  have hm1 : a % b < b := Int.emod_lt_of_pos _ hb
  have hq : (a : ℚ) = (b : ℚ) * ((a / b : Int) : ℚ) + ((a % b : Int) : ℚ) := by
    exact_mod_cast hdm.symm
  have hm0q : (0 : ℚ) ≤ ((a % b : Int) : ℚ) := by exact_mod_cast hm0
  have hm1q : ((a % b : Int) : ℚ) < (b : ℚ) := by exact_mod_cast hm1
  by_cases hz : a % b = 0
  · have hzq : ((a % b : Int) : ℚ) = 0 := by exact_mod_cast hz
    simp only [hz, ne_eq, not_true_eq_false, if_false, add_zero]
    constructor
    · rw [lt_div_iff₀ hbq]; rw [hq, hzq]; nlinarith
    · rw [div_le_iff₀ hbq]; rw [hq, hzq]; nlinarith
  · have hpos : 0 < a % b := lt_of_le_of_ne hm0 (Ne.symm hz)
    have hposq : (0 : ℚ) < ((a % b : Int) : ℚ) := by exact_mod_cast hpos
    simp only [hz, ne_eq, not_false_eq_true, if_true]
    push_cast
    constructor
    · rw [lt_div_iff₀ hbq]; rw [hq]; nlinarith
    · rw [div_le_iff₀ hbq]; rw [hq]; nlinarith

/-- The loop of `count_blink_data` on an array `cols ++ nocolor :: tail`: it
keeps the first `k` colours, where `k` is the number of colours whose weight
fits, and puts `nocolor` at index `k`. -/
theorem count_blink_loop_spec (H : Header) (spd dly : Int) (hw : 1 ≤ 101 - spd + dly)
    (tail : List Int) :
    ∀ (cols : List Int) (cnt : Int) (k : Nat), (∀ c ∈ cols, c ≠ H.nocolor) →
      k ≤ cols.length → cnt + k * (101 - spd + dly) ≤ H.MAX_COLPAIR_COUNT →
      (k < cols.length → H.MAX_COLPAIR_COUNT < cnt + (k + 1) * (101 - spd + dly)) →
      count_blink_loop H spd dly (cols ++ H.nocolor :: tail) cnt =
        some (cnt + k * (101 - spd + dly), (cols ++ H.nocolor :: tail).set k H.nocolor) := by
  intro cols
  induction cols with
  | nil =>
    intro cnt k _ hk _ _
    have hk0 : k = 0 := by simpa using hk
    subst hk0
    simp [count_blink_loop]
  | cons c cs ih =>
    intro cnt k hne hk hfit hstop
    have hc : c ≠ H.nocolor := hne c (by simp)
    have hcs : ∀ x ∈ cs, x ≠ H.nocolor := fun x hx => hne x (by simp [hx])
    cases k with
    | zero =>
      have h := hstop (by simp)
      simp only [Nat.cast_zero, zero_add, one_mul] at h
      simp [count_blink_loop, hc, h]
    | succ k =>
      have hk1 : k ≤ cs.length := by simpa using hk
      push_cast at hfit hstop
      have hkw : 0 ≤ (k : Int) * (101 - spd + dly) := by positivity
      have h1 : ¬ cnt + (101 - spd + dly) > H.MAX_COLPAIR_COUNT := by nlinarith
      have hrec := ih (cnt + (101 - spd + dly)) k hcs hk1 (by nlinarith)
        (fun hlt => by
          have := hstop (by simpa using hlt)
          nlinarith)
      rw [List.cons_append, count_blink_loop]
      simp only [hc, if_false, h1]
      rw [hrec, List.set_cons_succ]
      have e : cnt + (101 - spd + dly) + (k : Int) * (101 - spd + dly) =
          cnt + (((k + 1 : Nat) : Int)) * (101 - spd + dly) := by push_cast; ring
      rw [e]

theorem live_colors_set (H : Header) (tail : List Int) :
    ∀ (cols : List Int) (k : Nat), (∀ c ∈ cols, c ≠ H.nocolor) → k ≤ cols.length →
      live_colors H ((cols ++ H.nocolor :: tail).set k H.nocolor) = cols.take k := by
  intro cols
  induction cols with
  | nil =>
    intro k _ hk
    have hk0 : k = 0 := by simpa using hk
    subst hk0
    simp [live_colors]
  | cons c cs ih =>
    intro k hne hk
    have hc : c ≠ H.nocolor := hne c (by simp)
    have hcs : ∀ x ∈ cs, x ≠ H.nocolor := fun x hx => hne x (by simp [hx])
    cases k with
    | zero => simp [live_colors]
    | succ k =>
      have := ih k hcs (by simpa using hk)
      simpa [live_colors, hc] using this

theorem set_sentinel_self (H : Header) (cols tail : List Int) :
    (cols ++ H.nocolor :: tail).set cols.length H.nocolor = cols ++ H.nocolor :: tail := by
  induction cols with
  | nil => simp
  | cons c cs ih => simp [ih]

/-- What `count_blink_data` returns on an explicit colour list, in terms of the
number `k` of colours that fit. -/
theorem count_blink_data_spec (H : Header) (colsch : colscheme) (cols tail : List Int)
    (hcols : cols ≠ []) (hne : ∀ c ∈ cols, c ≠ H.nocolor)
    (harr : colsch.colors = cols ++ H.nocolor :: tail)
    (hw : 1 ≤ 101 - colsch.spd + colsch.dly) (k : Nat) (hk : k ≤ cols.length)
    (hfit : (k : Int) * (101 - colsch.spd + colsch.dly) ≤ H.MAX_COLPAIR_COUNT)
    (hstop : k < cols.length →
      H.MAX_COLPAIR_COUNT < ((k : Int) + 1) * (101 - colsch.spd + colsch.dly)) :
    count_blink_data H colsch =
      some (DIV_CEIL ((k : Int) * (101 - colsch.spd + colsch.dly)) H.COLPAIR_PER_PCT,
        { colsch with colors := (cols ++ H.nocolor :: tail).set k H.nocolor }) := by
  obtain ⟨c, cs, rfl⟩ := List.exists_cons_of_ne_nil hcols
  have hc : c ≠ H.nocolor := hne c (by simp)
  have hloop := count_blink_loop_spec H colsch.spd colsch.dly hw tail (c :: cs) 0 k hne hk
    (by simpa using hfit) (fun h => by simpa using hstop h)
  unfold count_blink_data
  rw [harr] at *
  simp only [List.cons_append, List.getElem?_cons_zero, hc, if_false]
  simp only [List.cons_append] at hloop
  rw [hloop]
  simp

/-- C2. Blink-explicit packet count: on an array holding `n >= 1` colours
(none of them `nocolor`) followed by `nocolor`, with speed and delay in
`[0,100]` and `n*((101-speed)+delay) <= MAX_COLPAIR_COUNT`, `count_blink_data`
returns `ceiling(n*((101-speed)+delay) / COLPAIR_PER_PCT)` and leaves the
scheme, its colour array included, unchanged. -/
theorem C2_blink_count (H : Header) (hC : 0 < H.COLPAIR_PER_PCT)
    (colsch : colscheme) (cols tail : List Int)
    (hcols : cols ≠ []) (hne : ∀ c ∈ cols, c ≠ H.nocolor)
    (harr : colsch.colors = cols ++ H.nocolor :: tail)
    (hs0 : 0 ≤ colsch.spd) (hs : colsch.spd ≤ 100) (hd0 : 0 ≤ colsch.dly) (hd : colsch.dly ≤ 100)
    (hfit : (cols.length : Int) * ((101 - colsch.spd) + colsch.dly) ≤ H.MAX_COLPAIR_COUNT) :
    count_blink_data H colsch =
      some (⌈(((cols.length : Int) * ((101 - colsch.spd) + colsch.dly) : Int) : ℚ) /
          ((H.COLPAIR_PER_PCT : Int) : ℚ)⌉, colsch) := by
  have hw : 1 ≤ 101 - colsch.spd + colsch.dly := by omega
  have h := count_blink_data_spec H colsch cols tail hcols hne harr hw cols.length le_rfl hfit
    (fun h => absurd h (lt_irrefl _))
  rw [h, set_sentinel_self, ← harr]
  rw [DIV_CEIL_eq_ceil _ _ (by positivity) hC]

/-- C2, at the input of the spec: `colors = [0xFF0000]`, `speed = 50`,
`delay = 10`; the total weight is 61. -/
theorem C2_blink_count_witness :
    ((([0xFF0000] : List Int).length : Int) * ((101 - 50) + 10) = 61) ∧
    count_blink_data quadcast ⟨"blink", [0xFF0000] ++ quadcast.nocolor :: [], 100, 50, 10⟩ =
      some (⌈((((([0xFF0000] : List Int).length : Int) * ((101 - 50) + 10) : Int)) : ℚ) /
          ((quadcast.COLPAIR_PER_PCT : Int) : ℚ)⌉,
        ⟨"blink", [0xFF0000] ++ quadcast.nocolor :: [], 100, 50, 10⟩) :=
  ⟨by decide,
   C2_blink_count quadcast (by decide) ⟨"blink", [0xFF0000] ++ quadcast.nocolor :: [], 100, 50, 10⟩
    [0xFF0000] [] (by decide) (by decide) rfl (by decide) (by decide) (by decide) (by decide)
    (by decide)⟩

/-- C3. Blink-explicit truncation: on an array holding `n >= 1` colours
followed by `nocolor`, with speed and delay in `[0,100]` and
`w = (101-speed)+delay`, `count_blink_data` returns, and afterwards the colours
up to the first `nocolor` are the first `k = min(n, floor(MAX_COLPAIR_COUNT/w))`
colours of the input; their weight `k*w` is at most `MAX_COLPAIR_COUNT`; when
`n*w` exceeds `MAX_COLPAIR_COUNT` fewer than `n` colours are kept (a strict
prefix); the packet count returned is `ceiling(k*w / COLPAIR_PER_PCT)`; the
other fields of the scheme are untouched. -/
theorem C3_blink_truncation (H : Header) (hM : 0 ≤ H.MAX_COLPAIR_COUNT)
    (hC : 0 < H.COLPAIR_PER_PCT) (colsch : colscheme) (cols tail : List Int)
    (hcols : cols ≠ []) (hne : ∀ c ∈ cols, c ≠ H.nocolor)
    (harr : colsch.colors = cols ++ H.nocolor :: tail)
    (hs0 : 0 ≤ colsch.spd) (hs : colsch.spd ≤ 100) (hd0 : 0 ≤ colsch.dly) (hd : colsch.dly ≤ 100) :
    ∃ (cnt : Int) (cols1 : List Int),
      count_blink_data H colsch = some (cnt, { colsch with colors := cols1 }) ∧
      live_colors H cols1 =
        cols.take (min cols.length (H.MAX_COLPAIR_COUNT / ((101 - colsch.spd) + colsch.dly)).toNat) ∧
      live_colors H cols1 <+: cols ∧
      ((live_colors H cols1).length : Int) * ((101 - colsch.spd) + colsch.dly) ≤
        H.MAX_COLPAIR_COUNT ∧
      (H.MAX_COLPAIR_COUNT < (cols.length : Int) * ((101 - colsch.spd) + colsch.dly) →
        (live_colors H cols1).length < cols.length) ∧
      cnt = ⌈((((live_colors H cols1).length : Int) * ((101 - colsch.spd) + colsch.dly) : Int) : ℚ) /
          ((H.COLPAIR_PER_PCT : Int) : ℚ)⌉ := by
  have hw : 1 ≤ 101 - colsch.spd + colsch.dly := by omega
  have hw0 : 0 < 101 - colsch.spd + colsch.dly := by omega
  have hq0 : 0 ≤ H.MAX_COLPAIR_COUNT / (101 - colsch.spd + colsch.dly) :=
    Int.ediv_nonneg hM hw0.le
  have hk : min cols.length (H.MAX_COLPAIR_COUNT / (101 - colsch.spd + colsch.dly)).toNat ≤
      cols.length := min_le_left _ _
  have hkq : ((min cols.length (H.MAX_COLPAIR_COUNT / (101 - colsch.spd + colsch.dly)).toNat : Nat) :
      Int) ≤ H.MAX_COLPAIR_COUNT / (101 - colsch.spd + colsch.dly) := by
    have := min_le_right cols.length (H.MAX_COLPAIR_COUNT / (101 - colsch.spd + colsch.dly)).toNat
    omega
  have hfit : ((min cols.length (H.MAX_COLPAIR_COUNT / (101 - colsch.spd + colsch.dly)).toNat : Nat) :
      Int) * (101 - colsch.spd + colsch.dly) ≤ H.MAX_COLPAIR_COUNT := by
    have h1 := Int.ediv_mul_le H.MAX_COLPAIR_COUNT hw0.ne'
    have h2 := mul_le_mul_of_nonneg_right hkq hw0.le
    exact le_trans h2 h1
  have hstop : min cols.length (H.MAX_COLPAIR_COUNT / (101 - colsch.spd + colsch.dly)).toNat <
      cols.length → H.MAX_COLPAIR_COUNT <
        (((min cols.length (H.MAX_COLPAIR_COUNT / (101 - colsch.spd + colsch.dly)).toNat : Nat) :
          Int) + 1) * (101 - colsch.spd + colsch.dly) := by
    intro hlt
    have hm : min cols.length (H.MAX_COLPAIR_COUNT / (101 - colsch.spd + colsch.dly)).toNat =
        (H.MAX_COLPAIR_COUNT / (101 - colsch.spd + colsch.dly)).toNat := by
      rcases min_choice cols.length
        (H.MAX_COLPAIR_COUNT / (101 - colsch.spd + colsch.dly)).toNat with h | h
      · omega
      · exact h
    rw [hm, Int.toNat_of_nonneg hq0]
    exact Int.lt_ediv_add_one_mul_self _ hw0
  have hlen : (cols.take (min cols.length
      (H.MAX_COLPAIR_COUNT / (101 - colsch.spd + colsch.dly)).toNat)).length =
      min cols.length (H.MAX_COLPAIR_COUNT / (101 - colsch.spd + colsch.dly)).toNat := by
    rw [List.length_take]; omega
  have hlive := live_colors_set H tail cols _ hne hk
  refine ⟨_, _, count_blink_data_spec H colsch cols tail hcols hne harr hw _ hk hfit hstop,
    hlive, ?_, ?_, ?_, ?_⟩
  · rw [hlive]; exact List.take_prefix _ _
  · rw [hlive, hlen]; exact hfit
  · intro hbig
    rw [hlive, hlen]
    by_contra hcon
    have hge : cols.length ≤ min cols.length
        (H.MAX_COLPAIR_COUNT / (101 - colsch.spd + colsch.dly)).toNat := by omega
    have hcast : (cols.length : Int) ≤ ((min cols.length
        (H.MAX_COLPAIR_COUNT / (101 - colsch.spd + colsch.dly)).toNat : Nat) : Int) := by
      exact_mod_cast hge
    have := mul_le_mul_of_nonneg_right hcast hw0.le
    omega
  · rw [hlive, hlen]
    exact DIV_CEIL_eq_ceil _ _ (by positivity) hC

/-- C3, at a concrete input: ten colours at speed 0 and delay 100 (weight 201
each); three of them fit into 720 colour pairs. -/
theorem C3_blink_truncation_witness :
    ∃ (cnt : Int) (cols1 : List Int),
      count_blink_data quadcast
        ⟨"blink", List.replicate 10 0xFF0000 ++ quadcast.nocolor :: [], 100, 0, 100⟩ =
        some (cnt, { (⟨"blink", List.replicate 10 0xFF0000 ++ quadcast.nocolor :: [], 100, 0, 100⟩ :
          colscheme) with colors := cols1 }) ∧
      live_colors quadcast cols1 =
        (List.replicate 10 (0xFF0000 : Int)).take (min (List.replicate 10 (0xFF0000 : Int)).length
          (quadcast.MAX_COLPAIR_COUNT / ((101 - 0) + 100)).toNat) ∧
      live_colors quadcast cols1 <+: List.replicate 10 (0xFF0000 : Int) ∧
      ((live_colors quadcast cols1).length : Int) * ((101 - 0) + 100) ≤
        quadcast.MAX_COLPAIR_COUNT ∧
      (quadcast.MAX_COLPAIR_COUNT <
          ((List.replicate 10 (0xFF0000 : Int)).length : Int) * ((101 - 0) + 100) →
        (live_colors quadcast cols1).length < (List.replicate 10 (0xFF0000 : Int)).length) ∧
      cnt = ⌈((((live_colors quadcast cols1).length : Int) * ((101 - 0) + 100) : Int) : ℚ) /
          ((quadcast.COLPAIR_PER_PCT : Int) : ℚ)⌉ :=
  C3_blink_truncation quadcast (by decide) (by decide)
    ⟨"blink", List.replicate 10 0xFF0000 ++ quadcast.nocolor :: [], 100, 0, 100⟩
    (List.replicate 10 0xFF0000) [] (by decide) (by decide) rfl
    (by decide) (by decide) (by decide) (by decide)

/-! ## The capacity counter of the cycle mode -/

theorem u32_of_range (x : Int) (h0 : 0 ≤ x) (h1 : x < 4294967296) : u32 x = x :=
  Int.emod_eq_of_lt h0 h1

theorem u32_nonneg (x : Int) : 0 ≤ u32 x := Int.emod_nonneg _ (by norm_num)

theorem toInt32_of_range (x : Int) (h0 : -2147483648 ≤ x) (h1 : x < 2147483648) :
    toInt32 x = x := by
  unfold toInt32; omega

theorem color_count_spec (H : Header) (tail : List Int) :
    ∀ cols : List Int, (∀ c ∈ cols, c ≠ H.nocolor) →
      color_count H (cols ++ H.nocolor :: tail) = some (cols.length : Int) := by
  intro cols
  induction cols with
  | nil => intro _; simp [color_count]
  | cons c cs ih =>
    intro hne
    have hc : c ≠ H.nocolor := hne c (by simp)
    have hcs : ∀ x ∈ cs, x ≠ H.nocolor := fun x hx => hne x (by simp [hx])
    rw [List.cons_append, color_count]
    simp only [hc, if_false, ih hcs]
    simp

/-- The rescaled total of `count_cycle_data` fits whenever `n` transitions of
the minimal size fit. -/
theorem cycle_size_le (H : Header) (hmin : 1 ≤ H.MIN_CYCL_TR)
    (hmax : H.MAX_COLPAIR_COUNT * 100 < 4294967296) (spd n : Int)
    (hs0 : 0 ≤ spd) (hs : spd ≤ 100) (hn : 1 ≤ n)
    (hfit : n * H.MIN_CYCL_TR ≤ H.MAX_COLPAIR_COUNT) :
    0 ≤ cycle_size H spd n ∧ cycle_size H spd n ≤ H.MAX_COLPAIR_COUNT := by
  have hM0 : 0 ≤ H.MAX_COLPAIR_COUNT := by nlinarith
  have hMu : u32 H.MAX_COLPAIR_COUNT = H.MAX_COLPAIR_COUNT := u32_of_range _ hM0 (by omega)
  have htr : u32 (100 - spd) = 100 - spd := u32_of_range _ (by omega) (by omega)
  unfold cycle_size
  simp only [hMu, htr]
  split
  · -- the rescaling branch
    have hn0 : 0 < n := by omega
    have hq : H.MIN_CYCL_TR ≤ H.MAX_COLPAIR_COUNT / n :=
      Int.le_ediv_of_mul_le hn0 (by rw [mul_comm]; exact hfit)
    have hqM : H.MAX_COLPAIR_COUNT / n ≤ H.MAX_COLPAIR_COUNT :=
      Int.ediv_le_self _ hM0
    have hqn : H.MAX_COLPAIR_COUNT / n * n ≤ H.MAX_COLPAIR_COUNT := Int.ediv_mul_le _ hn0.ne'
    have he : u32 (H.MAX_COLPAIR_COUNT / n - H.MIN_CYCL_TR) =
        H.MAX_COLPAIR_COUNT / n - H.MIN_CYCL_TR := u32_of_range _ (by omega) (by omega)
    have het0 : 0 ≤ (H.MAX_COLPAIR_COUNT / n - H.MIN_CYCL_TR) * (100 - spd) :=
      mul_nonneg (by omega) (by omega)
    have het1 : (H.MAX_COLPAIR_COUNT / n - H.MIN_CYCL_TR) * (100 - spd) ≤
        (H.MAX_COLPAIR_COUNT / n - H.MIN_CYCL_TR) * 100 :=
      mul_le_mul_of_nonneg_left (by omega) (by omega)
    have het : u32 ((H.MAX_COLPAIR_COUNT / n - H.MIN_CYCL_TR) * (100 - spd)) =
        (H.MAX_COLPAIR_COUNT / n - H.MIN_CYCL_TR) * (100 - spd) :=
      u32_of_range _ het0 (by omega)
    have hf0 : 0 ≤ (H.MAX_COLPAIR_COUNT / n - H.MIN_CYCL_TR) * (100 - spd) / 100 :=
      Int.ediv_nonneg het0 (by norm_num)
    have hf1 : (H.MAX_COLPAIR_COUNT / n - H.MIN_CYCL_TR) * (100 - spd) / 100 ≤
        H.MAX_COLPAIR_COUNT / n - H.MIN_CYCL_TR := by omega
    have ht : u32 (H.MIN_CYCL_TR +
        (H.MAX_COLPAIR_COUNT / n - H.MIN_CYCL_TR) * (100 - spd) / 100) =
        H.MIN_CYCL_TR + (H.MAX_COLPAIR_COUNT / n - H.MIN_CYCL_TR) * (100 - spd) / 100 :=
      u32_of_range _ (by omega) (by omega)
    have hp0 : 0 ≤ (H.MIN_CYCL_TR +
        (H.MAX_COLPAIR_COUNT / n - H.MIN_CYCL_TR) * (100 - spd) / 100) * n :=
      mul_nonneg (by omega) (by omega)
    have hp1 : (H.MIN_CYCL_TR +
        (H.MAX_COLPAIR_COUNT / n - H.MIN_CYCL_TR) * (100 - spd) / 100) * n ≤
        H.MAX_COLPAIR_COUNT / n * n :=
      mul_le_mul_of_nonneg_right (by omega) (by omega)
    rw [he, het, ht, u32_of_range _ hp0 (by omega)]
    exact ⟨hp0, by omega⟩
  · rename_i hle
    exact ⟨u32_nonneg _, not_lt.mp hle⟩
/-- At top speed with one colour more than `MAX_COLPAIR_COUNT`, the total of
`count_cycle_data` exceeds `MAX_COLPAIR_COUNT` for every header whose minimal
transition size is at least 1. -/
theorem cycle_size_exceeds (H : Header) (hmin : 1 ≤ H.MIN_CYCL_TR) (hM0 : 0 ≤ H.MAX_COLPAIR_COUNT)
    (hprod : H.MIN_CYCL_TR * (H.MAX_COLPAIR_COUNT + 1) < 4294967296) :
    H.MAX_COLPAIR_COUNT < cycle_size H 100 (H.MAX_COLPAIR_COUNT + 1) := by
  have hminlt : H.MIN_CYCL_TR < 4294967296 := by nlinarith
  have hMu : u32 H.MAX_COLPAIR_COUNT = H.MAX_COLPAIR_COUNT := u32_of_range _ hM0 (by nlinarith)
  have hbig : H.MAX_COLPAIR_COUNT < H.MIN_CYCL_TR * (H.MAX_COLPAIR_COUNT + 1) := by nlinarith
  have h0 : u32 (100 - 100) = 0 := by decide
  have hz : u32 0 = 0 := by decide
  unfold cycle_size
  simp only [h0, mul_zero, hz, Int.zero_ediv, add_zero, hMu]
  rw [u32_of_range H.MIN_CYCL_TR (by omega) hminlt,
    u32_of_range (H.MIN_CYCL_TR * (H.MAX_COLPAIR_COUNT + 1)) (by nlinarith) hprod]
  simp [hbig]

/-- C4 (amended). Cycle capacity bound: for every speed in `[0,100]` and every
colour count `n >= 1` with `n * MIN_CYCL_TR <= MAX_COLPAIR_COUNT` (the minimal
transitions fit), the total colour-pair size that `count_cycle_data` computes
in `unsigned int` arithmetic is at most `MAX_COLPAIR_COUNT`, and the packet
count it returns is at most `ceiling(MAX_COLPAIR_COUNT / COLPAIR_PER_PCT)`. -/
theorem C4_cycle_capacity (H : Header) (hmin : 1 ≤ H.MIN_CYCL_TR)
    (hmax : H.MAX_COLPAIR_COUNT * 100 < 4294967296)
    (hC0 : 0 < H.COLPAIR_PER_PCT) (hC1 : H.COLPAIR_PER_PCT < 4294967296)
    (colsch : colscheme) (cols tail : List Int)
    (hcols : cols ≠ []) (hne : ∀ c ∈ cols, c ≠ H.nocolor)
    (harr : colsch.colors = cols ++ H.nocolor :: tail)
    (hs0 : 0 ≤ colsch.spd) (hs : colsch.spd ≤ 100)
    (hfit : (cols.length : Int) * H.MIN_CYCL_TR ≤ H.MAX_COLPAIR_COUNT) :
    cycle_size H colsch.spd (cols.length : Int) ≤ H.MAX_COLPAIR_COUNT ∧
    ∃ r : Int, count_cycle_data H colsch = some r ∧
      r ≤ ⌈((H.MAX_COLPAIR_COUNT : Int) : ℚ) / ((H.COLPAIR_PER_PCT : Int) : ℚ)⌉ := by
  have hlen : 1 ≤ (cols.length : Int) := by
    have : 0 < cols.length := List.length_pos.mpr hcols
    omega
  have hM0 : 0 ≤ H.MAX_COLPAIR_COUNT := by nlinarith
  have hnM : (cols.length : Int) ≤ H.MAX_COLPAIR_COUNT := by nlinarith
  obtain ⟨hsz0, hsz⟩ := cycle_size_le H hmin hmax colsch.spd cols.length hs0 hs hlen hfit
  refine ⟨hsz, ?_⟩
  have hnu : u32 (cols.length : Int) = cols.length := u32_of_range _ (by omega) (by omega)
  have hCu : u32 H.COLPAIR_PER_PCT = H.COLPAIR_PER_PCT := u32_of_range _ hC0.le hC1
  have hceil := DIV_CEIL_eq_ceil _ _ hsz0 hC0
  have hmono : ⌈((cycle_size H colsch.spd (cols.length : Int) : Int) : ℚ) /
      ((H.COLPAIR_PER_PCT : Int) : ℚ)⌉ ≤
      ⌈((H.MAX_COLPAIR_COUNT : Int) : ℚ) / ((H.COLPAIR_PER_PCT : Int) : ℚ)⌉ := by
    apply Int.ceil_mono
    apply div_le_div_of_nonneg_right
    · exact_mod_cast hsz
    · exact_mod_cast hC0.le
  have hub : DIV_CEIL (cycle_size H colsch.spd (cols.length : Int)) H.COLPAIR_PER_PCT ≤
      cycle_size H colsch.spd (cols.length : Int) + 1 := by
    unfold DIV_CEIL
    rw [Int.tdiv_eq_ediv hsz0 hC0.le]
    have h1 := Int.ediv_le_self H.COLPAIR_PER_PCT hsz0
    split <;> omega
  have hlb : 0 ≤ DIV_CEIL (cycle_size H colsch.spd (cols.length : Int)) H.COLPAIR_PER_PCT := by
    rw [hceil]
    apply Int.ceil_nonneg
    apply div_nonneg
    · exact_mod_cast hsz0
    · exact_mod_cast hC0.le
  refine ⟨_, ?_, hmono⟩
  unfold count_cycle_data
  rw [harr, color_count_spec H tail cols hne]
  simp only [hnu, hCu]
  rw [toInt32_of_range _ (by omega) (by omega), hceil]

/-- C4 (amended), at a concrete input: seven colours at speed 30. -/
theorem C4_cycle_capacity_witness :
    cycle_size quadcast (30 : Int) ((List.replicate 7 (0x00FF00 : Int)).length : Int) ≤
      quadcast.MAX_COLPAIR_COUNT ∧
    ∃ r : Int, count_cycle_data quadcast
        ⟨"cycle", List.replicate 7 0x00FF00 ++ quadcast.nocolor :: [], 100, 30, 0⟩ = some r ∧
      r ≤ ⌈((quadcast.MAX_COLPAIR_COUNT : Int) : ℚ) / ((quadcast.COLPAIR_PER_PCT : Int) : ℚ)⌉ :=
  C4_cycle_capacity quadcast (by decide) (by decide) (by decide) (by decide)
    ⟨"cycle", List.replicate 7 0x00FF00 ++ quadcast.nocolor :: [], 100, 30, 0⟩
    (List.replicate 7 0x00FF00) [] (by decide) (by decide) rfl (by decide) (by decide) (by decide)

/-- C4 as stated fails: at speed 100 with 721 colours the total computed by
`count_cycle_data` is 8652, above `MAX_COLPAIR_COUNT = 720`, and the packet
count returned is 1082, above `ceiling(720/8) = 90`. -/
theorem C4_counterexample :
    (0 : Int) ≤ 100 ∧ (100 : Int) ≤ 100 ∧ (1 : Int) ≤ 721 ∧
    ¬ (cycle_size quadcast 100 721 ≤ quadcast.MAX_COLPAIR_COUNT) ∧
    count_cycle_data quadcast
      ⟨"cycle", List.replicate 721 0x00FF00 ++ quadcast.nocolor :: [], 100, 100, 0⟩ = some 1082 ∧
    ¬ ((1082 : Int) ≤
      ⌈((quadcast.MAX_COLPAIR_COUNT : Int) : ℚ) / ((quadcast.COLPAIR_PER_PCT : Int) : ℚ)⌉) := by
  refine ⟨by decide, by decide, by decide, by decide, ?_, ?_⟩
  · unfold count_cycle_data
    rw [color_count_spec quadcast [] (List.replicate 721 0x00FF00) (by
      intro c hc
      rw [List.eq_of_mem_replicate hc]
      decide)]
    simp only [List.length_replicate]
    decide
  · rw [← DIV_CEIL_eq_ceil _ _ (by decide) (by decide)]
    decide

/-! ## Unsupported modes -/

theorem count_blink_loop_isSome (H : Header) (spd dly : Int) :
    ∀ (l : List Int) (cnt : Int), H.nocolor ∈ l →
      ∃ r, count_blink_loop H spd dly l cnt = some r := by
  intro l
  induction l with
  | nil => intro _ h; simp at h
  | cons c cs ih =>
    intro cnt hmem
    rw [count_blink_loop]
    by_cases hc : c = H.nocolor
    · simp [hc]
    · have hcs : H.nocolor ∈ cs := by
        rcases List.mem_cons.mp hmem with h | h
        · exact absurd h.symm hc
        · exact h
      simp only [hc, if_false]
      split
      · exact ⟨_, rfl⟩
      · obtain ⟨r, hr⟩ := ih (cnt + (101 - spd + dly)) hcs
        rw [hr]
        exact ⟨_, rfl⟩

theorem color_count_isSome (H : Header) :
    ∀ l : List Int, H.nocolor ∈ l → ∃ r, color_count H l = some r := by
  intro l
  induction l with
  | nil => intro h; simp at h
  | cons c cs ih =>
    intro hmem
    rw [color_count]
    by_cases hc : c = H.nocolor
    · simp [hc]
    · have hcs : H.nocolor ∈ cs := by
        rcases List.mem_cons.mp hmem with h | h
        · exact absurd h.symm hc
        · exact h
      obtain ⟨r, hr⟩ := ih hcs
      simp [hc, hr]

/-- On a colour array that holds `nocolor`, `count_data` returns a count and
a scheme that differs from the input in its colour array at most. -/
theorem count_data_isSome (H : Header) (colsch : colscheme) (h : H.nocolor ∈ colsch.colors) :
    ∃ (r : Int) (cols1 : List Int),
      count_data H colsch = some (r, { colsch with colors := cols1 }) := by
  unfold count_data
  by_cases h1 : strequ colsch.mode "solid" = true
  · exact ⟨1, colsch.colors, by simp [h1]⟩
  by_cases h2 : strequ colsch.mode "blink" = true
  · simp only [h1, h2, if_true]
    unfold count_blink_data
    obtain ⟨c, cs, hcs⟩ := List.exists_cons_of_ne_nil (List.ne_nil_of_mem h)
    rw [hcs] at h ⊢
    simp only [List.getElem?_cons_zero]
    by_cases hc : c = H.nocolor
    · refine ⟨H.MAX_PCT_COUNT, c :: cs, ?_⟩
      simp only [hc, if_true]
      rw [← hc, ← hcs]
      simp
    · obtain ⟨⟨r, l⟩, hr⟩ := count_blink_loop_isSome H colsch.spd colsch.dly (c :: cs) 0 h
      exact ⟨DIV_CEIL r H.COLPAIR_PER_PCT, l, by simp [hc, hr]⟩
  by_cases h3 : strequ colsch.mode "cycle" = true
  · obtain ⟨r, hr⟩ := color_count_isSome H colsch.colors h
    refine ⟨toInt32 (DIV_CEIL (cycle_size H colsch.spd (u32 r)) (u32 H.COLPAIR_PER_PCT)),
      colsch.colors, ?_⟩
    simp [h1, h2, h3, count_cycle_data, hr]
  · exact ⟨-1, colsch.colors, by simp [h1, h2, h3]⟩

/-- C7. Unsupported mode: for a scheme whose mode tag is none of "solid",
"blink", "cycle", `count_data` returns `-1`, a value below 1, and leaves the
scheme alone; and `parse_colorscheme`, given a pair of schemes with
`nocolor`-terminated colour arrays in which the upper or the lower ring has
such a mode, ends in `exit(254)`: no packet array is returned. -/
theorem C7_unsupported_mode (H : Header) (rnd : Nat → Int) (cs : colschemes)
    (hu : H.nocolor ∈ cs.upper.colors) (hl : H.nocolor ∈ cs.lower.colors)
    (hbad : (cs.upper.mode ≠ "solid" ∧ cs.upper.mode ≠ "blink" ∧ cs.upper.mode ≠ "cycle") ∨
      (cs.lower.mode ≠ "solid" ∧ cs.lower.mode ≠ "blink" ∧ cs.lower.mode ≠ "cycle")) :
    (∀ colsch : colscheme,
      colsch.mode ≠ "solid" ∧ colsch.mode ≠ "blink" ∧ colsch.mode ≠ "cycle" →
      count_data H colsch = some (-1, colsch) ∧ (-1 : Int) < 1) ∧
    parse_colorscheme H rnd cs = some (Outcome.exit 254) := by
  have hcd : ∀ colsch : colscheme,
      colsch.mode ≠ "solid" ∧ colsch.mode ≠ "blink" ∧ colsch.mode ≠ "cycle" →
      count_data H colsch = some (-1, colsch) := by
    intro colsch ⟨h1, h2, h3⟩
    simp [count_data, strequ, h1, h2, h3]
  refine ⟨fun colsch h => ⟨hcd colsch h, by decide⟩, ?_⟩
  obtain ⟨ru, cu, hru⟩ := count_data_isSome H cs.upper hu
  obtain ⟨rl, cl, hrl⟩ := count_data_isSome H cs.lower hl
  unfold parse_colorscheme
  rcases hbad with hb | hb
  · rw [hcd _ hb, hrl]
    simp
  · rw [hru, hcd _ hb]
    simp

/-- C7, at a concrete input: the lower ring asks for the mode "wave". -/
theorem C7_unsupported_mode_witness :
    (∀ colsch : colscheme,
      colsch.mode ≠ "solid" ∧ colsch.mode ≠ "blink" ∧ colsch.mode ≠ "cycle" →
      count_data quadcast colsch = some (-1, colsch) ∧ (-1 : Int) < 1) ∧
    parse_colorscheme quadcast (fun _ => 0x123456)
      ⟨⟨"blink", [0xFF0000, 0x00FF00, -1], 80, 40, 10⟩, ⟨"wave", [0x0000FF, -1], 80, 40, 10⟩⟩ =
      some (Outcome.exit 254) :=
  C7_unsupported_mode quadcast (fun _ => 0x123456)
    ⟨⟨"blink", [0xFF0000, 0x00FF00, -1], 80, 40, 10⟩, ⟨"wave", [0x0000FF, -1], 80, 40, 10⟩⟩
    (by decide) (by decide) (Or.inr (by decide))

/-! ## Writing commands -/

/-- One command written at the natural offset `p`, byte by byte. -/
theorem write_command_get (H : Header) (hL : H.Layout) (c b : Int) (m : Mem) (p : Nat)
    (hp : p + 3 < m.length) :
    ∃ m1, (match writeByte m (p : Int) H.RGB_CODE with
        | none => none
        | some m0 => write_hexcolor c b m0 ((p : Int) + 1)) = some m1 ∧
      m1.length = m.length ∧
      ∀ i : Nat, m1[i]? =
        if p ≤ i ∧ i < p + 4 then some (cmd_byte H c b (i - p)) else m[i]? := by
  refine ⟨_, write_command H c b m p hp, by simp, ?_⟩
  have hm : H.RGB_CODE % 256 = H.RGB_CODE := Int.emod_eq_of_lt hL.2.2.1.le hL.2.2.2.1
  intro i
  rw [hm]
  simp only [List.getElem?_set, List.length_set]
  by_cases h3 : i = p + 3
  · subst h3
    have : p + 3 - p = 3 := by omega
    simp [cmd_byte, this]; omega
  by_cases h2 : i = p + 2
  · subst h2
    have : p + 2 - p = 2 := by omega
    simp [cmd_byte, this]; omega
  by_cases h1 : i = p + 1
  · subst h1
    have : p + 1 - p = 1 := by omega
    simp [cmd_byte, this]; omega
  by_cases h0 : i = p
  · subst h0; simp [cmd_byte]; omega
  · have e3 : ¬ p + 3 = i := fun h => h3 h.symm
    have e2 : ¬ p + 2 = i := fun h => h2 h.symm
    have e1 : ¬ p + 1 = i := fun h => h1 h.symm
    have e0 : ¬ p = i := fun h => h0 h.symm
    have hr : ¬ (p ≤ i ∧ i < p + 4) := by omega
    simp [e3, e2, e1, e0, hr]

/-- A run of `n` commands of one colour from the natural offset `p` on. -/
theorem blink_color_loop_spec (H : Header) (hL : H.Layout) (c b : Int) :
    ∀ (n : Nat) (m : Mem) (p : Nat) (da : Int), da = (p : Int) →
      (n = 0 ∨ p + 8 * n ≤ m.length + 4) →
      ∃ m1, blink_color_loop H c b n m da = some m1 ∧ m1.length = m.length ∧
        ∀ i : Nat, m1[i]? =
          if in_slots p n i then some (cmd_byte H c b ((i - p) % 8)) else m[i]? := by
  intro n
  induction n with
  | zero =>
    intro m p da _ _
    exact ⟨m, rfl, rfl, fun i => by simp [in_slots]⟩
  | succ n ih =>
    intro m p da hda hroom
    subst hda
    have hroom1 : p + 8 * (n + 1) ≤ m.length + 4 := by omega
    obtain ⟨m1, hw, hlen1, hget1⟩ := write_command_get H hL c b m p (by omega)
    have hstep : (p : Int) + 2 * H.BYTE_STEP = ((p + 8 : Nat) : Int) := by
      rw [hL.1]; push_cast; ring
    obtain ⟨m2, hloop, hlen2, hget2⟩ := ih m1 (p + 8) ((p : Int) + 2 * H.BYTE_STEP) hstep
      (by rw [hlen1]; omega)
    refine ⟨m2, ?_, by rw [hlen2, hlen1], ?_⟩
    · rw [blink_color_loop]
      cases hwb : writeByte m (p : Int) H.RGB_CODE with
      | none => rw [hwb] at hw; simp at hw
      | some m0 =>
        rw [hwb] at hw
        simp only [] at hw ⊢
        rw [hw]
        exact hloop
    · intro i
      rw [hget2 i, hget1 i]
      unfold in_slots
      by_cases hA : p + 8 ≤ i ∧ (i - (p + 8)) / 8 < n ∧ (i - (p + 8)) % 8 < 4
      · have hB : p ≤ i ∧ (i - p) / 8 < n + 1 ∧ (i - p) % 8 < 4 := by omega
        have hmod : (i - (p + 8)) % 8 = (i - p) % 8 := by omega
        rw [if_pos hA, if_pos hB, hmod]
      · rw [if_neg hA]
        by_cases hC : p ≤ i ∧ i < p + 4
        · have hB : p ≤ i ∧ (i - p) / 8 < n + 1 ∧ (i - p) % 8 < 4 := by omega
          have hmod : (i - p) % 8 = i - p := by omega
          rw [if_pos hC, if_pos hB, hmod]
        · have hB : ¬ (p ≤ i ∧ (i - p) / 8 < n + 1 ∧ (i - p) % 8 < 4) := by omega
          rw [if_neg hC, if_neg hB]

/-- A colour segment of `s` slots followed by a delay segment of `d` slots. -/
theorem blink_segment_fill_spec (H : Header) (hL : H.Layout) (col b : Int) (s d : Nat)
    (m : Mem) (p : Nat) (da : Int) (hda : da = (p : Int))
    (hroom : s + d = 0 ∨ p + 8 * (s + d) ≤ m.length + 4) :
    ∃ m1, blink_segment_fill H col (s : Int) (d : Int) b m da =
        some (m1, ((p + 8 * (s + d) : Nat) : Int)) ∧ m1.length = m.length ∧
      ∀ i : Nat, m1[i]? =
        if in_slots p (s + d) i then
          some (cmd_byte H (if (i - p) / 8 < s then col else H.black) b ((i - p) % 8))
        else m[i]? := by
  obtain ⟨m1, h1, hlen1, hget1⟩ := blink_color_loop_spec H hL col b s m p da hda (by omega)
  have hda1 : da + 2 * H.BYTE_STEP * (s : Int) = ((p + 8 * s : Nat) : Int) := by
    rw [hda, hL.1]; push_cast; ring
  obtain ⟨m2, h2, hlen2, hget2⟩ := blink_color_loop_spec H hL H.black b d m1 (p + 8 * s)
    (da + 2 * H.BYTE_STEP * (s : Int)) hda1 (by rw [hlen1]; omega)
  have hda2 : da + 2 * H.BYTE_STEP * (s : Int) + 2 * H.BYTE_STEP * (d : Int) =
      ((p + 8 * (s + d) : Nat) : Int) := by
    rw [hda, hL.1]; push_cast; ring
  refine ⟨m2, ?_, by rw [hlen2, hlen1], ?_⟩
  · unfold blink_segment_fill blink_color_fill
    simp only [Int.toNat_ofNat, h1, h2, hda2]
  · intro i
    rw [hget2 i, hget1 i]
    unfold in_slots
    by_cases hA : p + 8 * s ≤ i ∧ (i - (p + 8 * s)) / 8 < d ∧ (i - (p + 8 * s)) % 8 < 4
    · have hB : p ≤ i ∧ (i - p) / 8 < s + d ∧ (i - p) % 8 < 4 := by omega
      have hmod : (i - (p + 8 * s)) % 8 = (i - p) % 8 := by omega
      have hs : ¬ (i - p) / 8 < s := by omega
      rw [if_pos hA, if_pos hB, hmod, if_neg hs]
    · rw [if_neg hA]
      by_cases hC : p ≤ i ∧ (i - p) / 8 < s ∧ (i - p) % 8 < 4
      · have hB : p ≤ i ∧ (i - p) / 8 < s + d ∧ (i - p) % 8 < 4 := by omega
        rw [if_pos hC, if_pos hB, if_pos hC.2.1]
      · have hB : ¬ (p ≤ i ∧ (i - p) / 8 < s + d ∧ (i - p) % 8 < 4) := by omega
        rw [if_neg hC, if_neg hB]

theorem blink_color_cons (H : Header) (c : Int) (cs : List Int) (s w j : Nat) (hw : 0 < w) :
    blink_color H (c :: cs) s w j =
      if j < w then (if j < s then c else H.black) else blink_color H cs s w (j - w) := by
  unfold blink_color
  by_cases hj : j < w
  · rw [if_pos hj, Nat.mod_eq_of_lt hj, Nat.div_eq_of_lt hj]
    simp
  · rw [if_neg hj]
    have hle : w ≤ j := not_lt.mp hj
    have hmod : (j - w) % w = j % w := (Nat.mod_eq_sub_mod hle).symm
    have hdiv : j / w = (j - w) / w + 1 := by
      rw [Nat.div_eq_sub_div hw hle]
    rw [hmod, hdiv]
    simp

/-- The loop of `sequence_blink` over `cols ++ nocolor :: tail`. -/
theorem sequence_blink_loop_spec (H : Header) (hL : H.Layout) (br : Int) (s d : Nat)
    (tail : List Int) :
    ∀ (cols : List Int) (m : Mem) (p : Nat) (da : Int), da = (p : Int) →
      (∀ c ∈ cols, c ≠ H.nocolor) →
      (cols.length * (s + d) = 0 ∨ p + 8 * (cols.length * (s + d)) ≤ m.length + 4) →
      ∃ m1, sequence_blink_loop H (s : Int) (d : Int) br (cols ++ H.nocolor :: tail) m da =
          some m1 ∧ m1.length = m.length ∧
        ∀ i : Nat, m1[i]? =
          if in_slots p (cols.length * (s + d)) i then
            some (cmd_byte H (blink_color H cols s (s + d) ((i - p) / 8)) br ((i - p) % 8))
          else m[i]? := by
  intro cols
  induction cols with
  | nil =>
    intro m p da _ _ _
    exact ⟨m, by simp [sequence_blink_loop], rfl, fun i => by simp [in_slots]⟩
  | cons c cs ih =>
    intro m p da hda hne hroom
    have hc : c ≠ H.nocolor := hne c (by simp)
    have hcs : ∀ x ∈ cs, x ≠ H.nocolor := fun x hx => hne x (by simp [hx])
    have hlen : (c :: cs).length * (s + d) = (s + d) + cs.length * (s + d) := by
      simp only [List.length_cons]; ring
    rw [hlen] at hroom
    obtain ⟨m1, h1, hlen1, hget1⟩ := blink_segment_fill_spec H hL c br s d m p da hda (by omega)
    obtain ⟨m2, h2, hlen2, hget2⟩ := ih m1 (p + 8 * (s + d)) _ rfl hcs (by rw [hlen1]; omega)
    refine ⟨m2, ?_, by rw [hlen2, hlen1], ?_⟩
    · rw [List.cons_append, sequence_blink_loop]
      simp only [hc, if_false, h1]
      exact h2
    · intro i
      rw [hget2 i, hget1 i, hlen]
      by_cases hw : s + d = 0
      · have hA : ¬ in_slots (p + 8 * (s + d)) (cs.length * (s + d)) i := by
          unfold in_slots; rw [hw]; omega
        have hB : ¬ in_slots p (s + d) i := by unfold in_slots; omega
        have hC : ¬ in_slots p (s + d + cs.length * (s + d)) i := by
          unfold in_slots; rw [hw]; omega
        rw [if_neg hA, if_neg hB, if_neg hC]
      · have hwpos : 0 < s + d := Nat.pos_of_ne_zero hw
        unfold in_slots
        by_cases hA : p + 8 * (s + d) ≤ i ∧ (i - (p + 8 * (s + d))) / 8 < cs.length * (s + d) ∧
            (i - (p + 8 * (s + d))) % 8 < 4
        · have hB : p ≤ i ∧ (i - p) / 8 < s + d + cs.length * (s + d) ∧ (i - p) % 8 < 4 := by
            omega
          have hmod : (i - (p + 8 * (s + d))) % 8 = (i - p) % 8 := by omega
          have hdiv : (i - (p + 8 * (s + d))) / 8 = (i - p) / 8 - (s + d) := by omega
          have hj : ¬ (i - p) / 8 < s + d := by omega
          rw [if_pos hA, if_pos hB, hmod, hdiv, blink_color_cons H c cs s (s + d) _ hwpos,
            if_neg hj]
        · rw [if_neg hA]
          by_cases hC : p ≤ i ∧ (i - p) / 8 < s + d ∧ (i - p) % 8 < 4
          · have hB : p ≤ i ∧ (i - p) / 8 < s + d + cs.length * (s + d) ∧ (i - p) % 8 < 4 := by
              omega
            rw [if_pos hC, if_pos hB, blink_color_cons H c cs s (s + d) _ hwpos, if_pos hC.2.1]
          · have hB : ¬ (p ≤ i ∧ (i - p) / 8 < s + d + cs.length * (s + d) ∧ (i - p) % 8 < 4) := by
              omega
            rw [if_neg hC, if_neg hB]

theorem hex_byte_zero (b : Int) (n : Nat) : hex_byte 0 b n = 0 := by
  unfold hex_byte hex_channel
  have h : Int.land ((0 : Int) >>> n) 0xff = 0 := by
    rw [Int.zero_shiftRight]; rfl
  rw [h]; simp

theorem drop_take_four (m : List Int) (a : Nat) (x0 x1 x2 x3 : Int)
    (h0 : m[a]? = some x0) (h1 : m[a + 1]? = some x1) (h2 : m[a + 2]? = some x2)
    (h3 : m[a + 3]? = some x3) : (m.drop a).take 4 = [x0, x1, x2, x3] := by
  apply List.ext_getElem?
  intro n
  rw [List.getElem?_take]
  by_cases hn : n < 4
  · rw [if_pos hn, List.getElem?_drop]
    interval_cases n
    · simpa using h0
    · simpa using h1
    · simpa using h2
    · simpa using h3
  · rw [if_neg hn]
    have : [x0, x1, x2, x3].length ≤ n := by simp; omega
    rw [List.getElem?_eq_none this]

/-- The slot `j` of a ring, read through `command_at`, from its four bytes. -/
theorem command_at_eq (H : Header) (hL : H.Layout) (m : Mem) (p j : Nat) (x0 x1 x2 x3 : Int)
    (h0 : m[p + 8 * j]? = some x0) (h1 : m[p + 8 * j + 1]? = some x1)
    (h2 : m[p + 8 * j + 2]? = some x2) (h3 : m[p + 8 * j + 3]? = some x3) :
    command_at H m p j = [x0, x1, x2, x3] := by
  unfold command_at
  rw [hL.1]
  have e : p + 2 * (4 : Int).toNat * j = p + 8 * j := by
    have : (4 : Int).toNat = 4 := rfl
    rw [this]
  have e4 : (4 : Int).toNat = 4 := rfl
  rw [e, e4]
  exact drop_take_four m _ x0 x1 x2 x3 h0 h1 h2 h3

/-- C9. Blink-explicit layout: for a colour array `c_0 .. c_(k-1), nocolor, ...`,
with `s = 101 - speed`, `w = s + delay` and a ring cursor `p` that leaves room
for `k*w` slots, `sequence_blink` returns, and afterwards every slot `j < k*w`
of the ring (the `BYTE_STEP` bytes at `2*BYTE_STEP*j` from the cursor) holds
the marker `RGB_CODE` followed by the brightness-scaled bytes of `c_(j div w)`
when `j mod w < s`, and by `0,0,0` otherwise; every byte outside those slots,
so every slot at or beyond `k*w` and every slot of the other ring, keeps its
value.  This holds for every speed up to 101 and every delay from 0 on, the
values of `[0,100]` among them, and for every brightness. -/
theorem C9_blink_layout (H : Header) (hL : H.Layout) (colsch : colscheme) (cols tail : List Int)
    (hne : ∀ c ∈ cols, c ≠ H.nocolor) (harr : colsch.colors = cols ++ H.nocolor :: tail)
    (s d : Nat) (hs : (s : Int) = 101 - colsch.spd) (hd : (d : Int) = colsch.dly)
    (m : Mem) (p : Nat) (pckcnt : Int)
    (hroom : cols.length * (s + d) = 0 ∨ p + 8 * (cols.length * (s + d)) ≤ m.length + 4) :
    ∃ m1, sequence_blink H colsch m (p : Int) pckcnt = some m1 ∧ m1.length = m.length ∧
      (∀ j : Nat, j < cols.length * (s + d) → ∀ c : Int, cols[j / (s + d)]? = some c →
        command_at H m1 p j =
          if j % (s + d) < s then command H c colsch.br else [H.RGB_CODE, 0, 0, 0]) ∧
      (∀ i : Nat, ¬ in_slots p (cols.length * (s + d)) i → m1[i]? = m[i]?) := by
  obtain ⟨m1, h1, hlen1, hget1⟩ := sequence_blink_loop_spec H hL colsch.br s d tail cols m p
    (p : Int) rfl hne hroom
  refine ⟨m1, ?_, hlen1, ?_, ?_⟩
  · unfold sequence_blink
    rw [← hs, ← hd, harr]
    exact h1
  · intro j hj c hc
    have hbyte : ∀ r : Nat, r < 4 → m1[p + 8 * j + r]? =
        some (cmd_byte H (blink_color H cols s (s + d) j) colsch.br r) := by
      intro r hr
      have hin : in_slots p (cols.length * (s + d)) (p + 8 * j + r) := by
        unfold in_slots; omega
      have e1 : (p + 8 * j + r - p) / 8 = j := by omega
      have e2 : (p + 8 * j + r - p) % 8 = r := by omega
      rw [hget1, if_pos hin, e1, e2]
    have hcol : blink_color H cols s (s + d) j = if j % (s + d) < s then c else 0 := by
      unfold blink_color
      rw [List.getD_eq_getElem?_getD, hc, hL.2.2.2.2]
      rfl
    have h0 := hbyte 0 (by omega)
    have h1 := hbyte 1 (by omega)
    have h2 := hbyte 2 (by omega)
    have h3 := hbyte 3 (by omega)
    rw [command_at_eq H hL m1 p j _ _ _ _ h0 h1 h2 h3, hcol]
    by_cases hseg : j % (s + d) < s
    · simp only [if_pos hseg]
      simp [cmd_byte, command]
    · simp only [if_neg hseg]
      simp [cmd_byte, hex_byte_zero]
  · intro i hi
    rw [hget1, if_neg hi]

/-- C9, at a concrete input: two colours at speed 99 and delay 1 (two colour
slots, one delay slot each), brightness 50, on the lower ring of one zeroed
packet. -/
theorem C9_blink_layout_witness :
    ∃ m1, sequence_blink quadcast ⟨"blink", [0xFF8000, 0x0040FF] ++ quadcast.nocolor :: [], 50, 99, 1⟩
        (List.replicate 64 0) ((4 : Nat) : Int) 1 = some m1 ∧
      m1.length = (List.replicate 64 (0 : Int)).length ∧
      (∀ j : Nat, j < ([0xFF8000, 0x0040FF] : List Int).length * (2 + 1) →
        ∀ c : Int, ([0xFF8000, 0x0040FF] : List Int)[j / (2 + 1)]? = some c →
        command_at quadcast m1 4 j =
          if j % (2 + 1) < 2 then command quadcast c 50 else [quadcast.RGB_CODE, 0, 0, 0]) ∧
      (∀ i : Nat, ¬ in_slots 4 (([0xFF8000, 0x0040FF] : List Int).length * (2 + 1)) i →
        m1[i]? = (List.replicate 64 (0 : Int))[i]?) :=
  C9_blink_layout quadcast (by decide)
    ⟨"blink", [0xFF8000, 0x0040FF] ++ quadcast.nocolor :: [], 50, 99, 1⟩
    [0xFF8000, 0x0040FF] [] (by decide) rfl 2 1 (by decide) (by decide)
    (List.replicate 64 0) 4 1 (by decide)

/-! ## Counting the commands of a ring -/

theorem toShort_of_range (x : Int) (h0 : -32768 ≤ x) (h1 : x < 32768) : toShort x = x := by
  unfold toShort; omega

theorem readByte_nat (m : Mem) (q : Int) (n : Nat) (hq : q = (n : Int)) :
    readByte m q = m[n]? := by
  subst hq; simp [readByte]

/-- The scan of `count_color_commands` from slot `g` of the ring on, when the
counter equals `g`: it stops at the first slot `n` without marker, or at the
end of the packet. -/
theorem count_scan_spec (H : Header) (hL : H.Layout) (m : Mem) (off pck : Nat)
    (hlen : 64 * pck ≤ m.length) (hoff : off < 8) (hshort : 8 * pck < 32768) :
    ∀ (d g fuel : Nat), g + d = 8 * pck → d ≤ fuel →
      ∃ n : Nat, count_scan H m ((64 * pck : Nat) : Int) (off : Int) fuel ((8 * g : Nat) : Int)
          (g : Int) = some (n : Int) ∧ g ≤ n ∧ n ≤ 8 * pck ∧
        (∀ x : Nat, g ≤ x → x < n → m[off + 8 * x]? = some H.RGB_CODE) ∧
        (n < 8 * pck → m[off + 8 * n]? ≠ some H.RGB_CODE) := by
  intro d
  induction d with
  | zero =>
    intro g fuel hg _
    have hstop : ¬ (((8 * g : Nat) : Int) < ((64 * pck : Nat) : Int)) := by omega
    refine ⟨g, ?_, le_rfl, by omega, fun x h1 h2 => by omega, fun h => by omega⟩
    cases fuel with
    | zero => rw [count_scan, if_neg hstop]
    | succ f => rw [count_scan, if_neg hstop]
  | succ d ih =>
    intro g fuel hg hfuel
    obtain ⟨f, rfl⟩ : ∃ f, fuel = f + 1 := ⟨fuel - 1, by omega⟩
    have hgo : ((8 * g : Nat) : Int) < ((64 * pck : Nat) : Int) := by omega
    have hrd : readByte m (((8 * g : Nat) : Int) + (off : Int)) = m[off + 8 * g]? :=
      readByte_nat m _ _ (by push_cast; ring)
    have hin : off + 8 * g < m.length := by omega
    obtain ⟨v, hv⟩ : ∃ v, m[off + 8 * g]? = some v := ⟨m[off + 8 * g], by simp [hin]⟩
    rw [count_scan]
    simp only [hgo, if_true, hrd, hv]
    by_cases hmark : v = H.RGB_CODE
    · have hb : ((8 * g : Nat) : Int) + 2 * H.BYTE_STEP = ((8 * (g + 1) : Nat) : Int) := by
        rw [hL.1]; push_cast; ring
      have hc : toShort ((g : Int) + 1) = ((g + 1 : Nat) : Int) := by
        rw [toShort_of_range _ (by omega) (by omega)]; push_cast; ring
      obtain ⟨n, hn, h1, h2, h3, h4⟩ := ih (g + 1) f (by omega) (by omega)
      refine ⟨n, ?_, by omega, h2, ?_, h4⟩
      · simp only [hmark, ne_eq, not_true_eq_false, if_false, hb, hc]
        exact hn
      · intro x hx1 hx2
        by_cases hxg : x = g
        · subst hxg; rw [hv, hmark]
        · exact h3 x (by omega) hx2
    · refine ⟨g, by simp [hmark], le_rfl, by omega, fun x h1 h2 => by omega, ?_⟩
      intro _
      rw [hv]
      simpa using hmark

/-- What `count_color_commands` returns for packet count `pck` on the ring
that starts at byte `off` (`off = 0` for colour group 0, `off = 4` otherwise). -/
theorem count_color_commands_spec (H : Header) (hL : H.Layout) (m : Mem) (pck : Nat)
    (colgroup : Int) (hpck : 1 ≤ pck) (hlen : 64 * pck ≤ m.length) (hshort : 8 * pck < 32768) :
    ∃ n : Nat, count_color_commands H m (pck : Int) colgroup = some (n : Int) ∧
      8 * (pck - 1) ≤ n ∧ n ≤ 8 * pck ∧
      (∀ x : Nat, 8 * (pck - 1) ≤ x → x < n →
        m[(if colgroup ≠ 0 then 4 else 0) + 8 * x]? = some H.RGB_CODE) ∧
      (n < 8 * pck → m[(if colgroup ≠ 0 then 4 else 0) + 8 * n]? ≠ some H.RGB_CODE) := by
  have hstep : (if colgroup ≠ 0 then toShort H.BYTE_STEP else 0) =
      (((if colgroup ≠ 0 then 4 else 0 : Nat)) : Int) := by
    rw [hL.1]
    split
    · rfl
    · rfl
  have hcnt : toShort (((pck : Int) - 1) * 8) = ((8 * (pck - 1) : Nat) : Int) := by
    rw [toShort_of_range _ (by omega) (by omega)]
    omega
  have hb : ((pck : Int) - 1) * H.DATA_PACKET_SIZE = ((8 * (8 * (pck - 1)) : Nat) : Int) := by
    rw [hL.2.1]; omega
  have hstop : ((pck : Int) - 1) * H.DATA_PACKET_SIZE + H.DATA_PACKET_SIZE =
      ((64 * pck : Nat) : Int) := by
    rw [hL.2.1]; omega
  have hfuel : H.DATA_PACKET_SIZE.toNat = 64 := by rw [hL.2.1]; rfl
  have hoff : (if colgroup ≠ 0 then 4 else 0 : Nat) < 8 := by split <;> omega
  obtain ⟨n, hn, h1, h2, h3, h4⟩ := count_scan_spec H hL m _ pck hlen hoff hshort 8
    (8 * (pck - 1)) 64 (by omega) (by omega)
  refine ⟨n, ?_, h1, h2, h3, h4⟩
  unfold count_color_commands
  simp only [hstep, hcnt]
  rw [hstop, hb, hfuel]
  exact hn

/-- The count is determined by the markers: a ring whose slots below `n` carry
the marker and whose slot `n` does not is counted as `n`, for the packet count
of the packet that holds its last command. -/
theorem count_color_commands_eq (H : Header) (hL : H.Layout) (m : Mem) (pck : Nat)
    (colgroup : Int) (n : Nat) (hpck : 1 ≤ pck) (hlen : 64 * pck ≤ m.length)
    (hshort : 8 * pck < 32768) (hn1 : 8 * (pck - 1) ≤ n) (hn2 : n ≤ 8 * pck)
    (hmark : ∀ x : Nat, 8 * (pck - 1) ≤ x → x < n →
      m[(if colgroup ≠ 0 then 4 else 0) + 8 * x]? = some H.RGB_CODE)
    (hend : n < 8 * pck → m[(if colgroup ≠ 0 then 4 else 0) + 8 * n]? ≠ some H.RGB_CODE) :
    count_color_commands H m (pck : Int) colgroup = some (n : Int) := by
  obtain ⟨k, hk, h1, h2, h3, h4⟩ := count_color_commands_spec H hL m pck colgroup hpck hlen hshort
  have hkn : k = n := by
    rcases Nat.lt_trichotomy k n with h | h | h
    · exact absurd (hmark k h1 h) (h4 (by omega))
    · exact h
    · exact absurd (h3 n hn1 h) (hend (by omega))
  rw [hk, hkn]

/-! ## Copying commands: `memcpy` and `fillup_to` -/

theorem storeByte_nat (m : Mem) (q : Int) (n : Nat) (v : Int) (hq : q = (n : Int))
    (h : n < m.length) : storeByte m q v = some (m.set n v) := by
  subst hq; simp [storeByte, h]

/-- The call `memcpy(dst, src, n)` on regions inside the block that are
disjoint or identical. -/
theorem memcpy_spec :
    ∀ (n : Nat) (m : Mem) (a s : Nat) (dst src : Int), dst = (a : Int) → src = (s : Int) →
      a + n ≤ m.length → s + n ≤ m.length → (s + n ≤ a ∨ a + n ≤ s ∨ s = a) →
      ∃ m1, memcpy dst src n m = some m1 ∧ m1.length = m.length ∧
        ∀ x : Nat, m1[x]? = if a ≤ x ∧ x < a + n then m[s + (x - a)]? else m[x]? := by
  intro n
  induction n with
  | zero =>
    intro m a s dst src _ _ _ _ _
    refine ⟨m, rfl, rfl, fun x => ?_⟩
    have : ¬ (a ≤ x ∧ x < a + 0) := by omega
    rw [if_neg this]
  | succ n ih =>
    intro m a s dst src hd hs ha hsl hsep
    have hrd : readByte m src = some m[s] := by
      rw [readByte_nat m src s hs]
      exact List.getElem?_eq_getElem (by omega)
    have hst : storeByte m dst m[s] = some (m.set a m[s]) := storeByte_nat m dst a _ hd (by omega)
    obtain ⟨m1, h1, hlen1, hget1⟩ := ih (m.set a m[s]) (a + 1) (s + 1) (dst + 1) (src + 1)
      (by rw [hd]; push_cast; ring) (by rw [hs]; push_cast; ring)
      (by rw [List.length_set]; omega) (by rw [List.length_set]; omega) (by omega)
    refine ⟨m1, ?_, by rw [hlen1, List.length_set], ?_⟩
    · rw [memcpy]
      simp only [hrd, hst]
      exact h1
    · intro x
      rw [hget1 x]
      by_cases hA : a + 1 ≤ x ∧ x < a + 1 + n
      · have hB : a ≤ x ∧ x < a + (n + 1) := by omega
        have hidx : s + 1 + (x - (a + 1)) = s + (x - a) := by omega
        have hne : ¬ a = s + (x - a) := by omega
        rw [if_pos hA, if_pos hB, hidx, List.getElem?_set, if_neg hne]
      · rw [if_neg hA, List.getElem?_set]
        by_cases hx : a = x
        · subst hx
          have hB : a ≤ a ∧ a < a + (n + 1) := by omega
          have hlt : a < m.length := by omega
          rw [if_pos rfl, if_pos hlt, if_pos hB]
          simp only [Nat.sub_self, Nat.add_zero]
          exact (List.getElem?_eq_getElem (by omega)).symm
        · have hB : ¬ (a ≤ x ∧ x < a + (n + 1)) := by omega
          rw [if_neg hx, if_neg hB]

/-- The loop of `fillup_to` on the ring that starts at byte `off`, from slot
`i0` up to slot `e - 1`, copying each slot from the slot `n` places before. -/
theorem fillup_loop_spec (H : Header) (hL : H.Layout) (off n e : Nat) :
    ∀ (d i0 fuel : Nat) (M : Mem), i0 + d = e → n ≤ i0 →
      (d = 0 ∨ off + 8 * e ≤ M.length + 4) → d ≤ fuel →
      ∃ m1, fillup_loop H (n : Int) (((off + 8 * e : Nat) : Int) - 8) fuel
          ((off + 8 * i0 : Nat) : Int) M = some m1 ∧ m1.length = M.length ∧
        (∀ x : Nat, ¬ (in_slots off e x ∧ i0 ≤ (x - off) / 8) → m1[x]? = M[x]?) ∧
        (∀ x : Nat, in_slots off e x → i0 ≤ (x - off) / 8 → m1[x]? = m1[x - 8 * n]?) := by
  intro d
  induction d with
  | zero =>
    intro i0 fuel M hi _ _ _
    have hstop : ¬ (((off + 8 * i0 : Nat) : Int) ≤ ((off + 8 * e : Nat) : Int) - 8) := by omega
    refine ⟨M, ?_, rfl, fun _ _ => rfl, ?_⟩
    · cases fuel with
      | zero => rw [fillup_loop, if_neg hstop]
      | succ f => rw [fillup_loop, if_neg hstop]
    · intro x hx hi0
      unfold in_slots at hx
      omega
  | succ d ih =>
    intro i0 fuel M hi hn hroom hfuel
    obtain ⟨f, rfl⟩ : ∃ f, fuel = f + 1 := ⟨fuel - 1, by omega⟩
    have hgo : ((off + 8 * i0 : Nat) : Int) ≤ ((off + 8 * e : Nat) : Int) - 8 := by omega
    have hsrc : ((off + 8 * i0 : Nat) : Int) - 2 * H.BYTE_STEP * (n : Int) =
        ((off + 8 * (i0 - n) : Nat) : Int) := by
      rw [hL.1]; omega
    have hnext : ((off + 8 * i0 : Nat) : Int) + 2 * H.BYTE_STEP = ((off + 8 * (i0 + 1) : Nat) : Int) := by
      rw [hL.1]; omega
    have hbs : H.BYTE_STEP.toNat = 4 := by rw [hL.1]; rfl
    obtain ⟨M1, hcp, hlen1, hget1⟩ := memcpy_spec 4 M (off + 8 * i0) (off + 8 * (i0 - n)) _ _
      rfl hsrc (by omega) (by omega) (by omega)
    obtain ⟨m1, hloop, hlen2, hframe, hcopy⟩ := ih (i0 + 1) f M1 (by omega) (by omega)
      (by rw [hlen1]; omega) (by omega)
    have hM1 : ∀ x : Nat, ¬ (in_slots off e x ∧ (x - off) / 8 = i0) → M1[x]? = M[x]? := by
      intro x hx
      unfold in_slots at hx
      rw [hget1 x, if_neg (by omega)]
    refine ⟨m1, ?_, by rw [hlen2, hlen1], ?_, ?_⟩
    · rw [fillup_loop, if_pos hgo, hbs, hcp]
      simp only [hnext]
      exact hloop
    · intro x hx
      rw [hframe x (by unfold in_slots at hx ⊢; omega), hM1 x (by unfold in_slots at hx ⊢; omega)]
    · intro x hx hi0
      by_cases hlast : (x - off) / 8 = i0
      · have hin : off + 8 * i0 ≤ x ∧ x < off + 8 * i0 + 4 := by
          unfold in_slots at hx; omega
        have e1 : m1[x]? = M1[x]? := hframe x (by omega)
        have e2 : M1[x]? = M[x - 8 * n]? := by
          rw [hget1 x, if_pos hin]
          congr 1
          omega
        have e3 : m1[x - 8 * n]? = M1[x - 8 * n]? :=
          hframe (x - 8 * n) (by unfold in_slots at hx ⊢; omega)
        have e4 : M1[x - 8 * n]? = M[x - 8 * n]? := by
          rw [hget1 (x - 8 * n)]
          by_cases hz : n = 0
          · subst hz
            simp only [Nat.mul_zero, Nat.sub_zero] at hin ⊢
            rw [if_pos hin]
            congr 1
            omega
          · rw [if_neg (by omega)]
        rw [e1, e2, e3, e4]
      · exact hcopy x hx (by omega)

/-- After the loop of `fillup_to`, started on slot `n` of a ring with the
memory `M`: slot `i` with `n <= i < e` holds what slot `i mod n` held in `M`. -/
theorem fillup_closed (off n e : Nat) (hn : 1 ≤ n) (M m1 : Mem)
    (hframe : ∀ x : Nat, ¬ (in_slots off e x ∧ n ≤ (x - off) / 8) → m1[x]? = M[x]?)
    (hcopy : ∀ x : Nat, in_slots off e x → n ≤ (x - off) / 8 → m1[x]? = m1[x - 8 * n]?) :
    ∀ (i r : Nat), i < e → r < 4 → m1[off + 8 * i + r]? = M[off + 8 * (i % n) + r]? := by
  intro i
  induction i using Nat.strong_induction_on with
  | _ i ih =>
    intro r hi hr
    by_cases hlt : i < n
    · rw [Nat.mod_eq_of_lt hlt]
      exact hframe _ (by omega)
    · have hle : n ≤ i := not_lt.mp hlt
      have hin : in_slots off e (off + 8 * i + r) := by unfold in_slots; omega
      have hidx : off + 8 * i + r - 8 * n = off + 8 * (i - n) + r := by omega
      rw [hcopy _ hin (by omega), hidx, ih (i - n) (by omega) r (by omega) hr,
        ← Nat.mod_eq_sub_mod hle]

/-! ## The equalizer -/

/-- The call `fillup_to(n, curr, finish)` of `equalize` for the ring that
starts at byte `off`, with `n` commands, padded up to `e` commands. -/
theorem fillup_to_spec (H : Header) (hL : H.Layout) (off n e : Nat) (m : Mem)
    (hne : n < e) (hroom : off + 8 * e ≤ m.length + 4) :
    ∃ m1, fillup_to H (n : Int) ((off + 8 * n : Nat) : Int) (((off + 8 * e : Nat) : Int) - 8) m =
        some m1 ∧ m1.length = m.length ∧
      (∀ x : Nat, ¬ (in_slots off e x ∧ n ≤ (x - off) / 8) → m1[x]? = m[x]?) ∧
      (1 ≤ n → ∀ (i r : Nat), i < e → r < 4 → m1[off + 8 * i + r]? = m[off + 8 * (i % n) + r]?) := by
  obtain ⟨m1, h1, hlen, hframe, hcopy⟩ := fillup_loop_spec H hL off n e (e - n) n m.length m
    (by omega) le_rfl (Or.inr hroom) (by omega)
  refine ⟨m1, ?_, hlen, hframe, fun hn => fillup_closed off n e hn m m1 hframe hcopy⟩
  unfold fillup_to
  rw [if_neg (by omega)]
  exact h1

/-- The function `equalize`, given the two recounted command counts `cu` (upper
ring) and `cl` (lower ring): the shorter ring is padded up to the longer one by
repeating its own commands, everything else is left alone. -/
theorem equalize_spec (H : Header) (hL : H.Layout) (m : Mem) (su sl : Int) (cu cl : Nat)
    (hcu : count_color_commands H m su 0 = some (cu : Int))
    (hcl : count_color_commands H m sl 1 = some (cl : Int))
    (hroomu : 8 * cu ≤ m.length) (hrooml : 8 * cl ≤ m.length) :
    ∃ m1, equalize H su sl m = some m1 ∧ m1.length = m.length ∧
      (cu < cl →
        (∀ x : Nat, ¬ (in_slots 0 cl x ∧ cu ≤ x / 8) → m1[x]? = m[x]?) ∧
        (1 ≤ cu → ∀ (i r : Nat), i < cl → r < 4 → m1[8 * i + r]? = m[8 * (i % cu) + r]?)) ∧
      (cl < cu →
        (∀ x : Nat, ¬ (in_slots 4 cu x ∧ cl ≤ (x - 4) / 8) → m1[x]? = m[x]?) ∧
        (1 ≤ cl → ∀ (i r : Nat), i < cu → r < 4 →
          m1[4 + 8 * i + r]? = m[4 + 8 * (i % cl) + r]?)) ∧
      (cu = cl → m1 = m) := by
  unfold equalize
  rw [hcu, hcl]
  simp only []
  rcases Nat.lt_trichotomy cu cl with h | h | h
  · have hc : (cu : Int) < (cl : Int) := by omega
    have e1 : 2 * H.BYTE_STEP * ((cu : Int) - 1) + 2 * H.BYTE_STEP = ((0 + 8 * cu : Nat) : Int) := by
      rw [hL.1]; omega
    have e2 : 2 * H.BYTE_STEP * ((cl : Int) - 1) + H.BYTE_STEP - H.BYTE_STEP =
        ((0 + 8 * cl : Nat) : Int) - 8 := by
      rw [hL.1]; omega
    obtain ⟨m1, h1, hlen, hframe, hcopy⟩ := fillup_to_spec H hL 0 cu cl m h (by omega)
    rw [if_pos hc, e1, e2]
    refine ⟨m1, h1, hlen, fun _ => ⟨?_, ?_⟩, fun h' => absurd h' (by omega),
      fun h' => absurd h' (by omega)⟩
    · intro x hx
      exact hframe x (by simpa using hx)
    · intro hn i r hi hr
      simpa using hcopy hn i r hi hr
  · have hc1 : ¬ (cu : Int) < (cl : Int) := by omega
    have hc2 : ¬ (cl : Int) < (cu : Int) := by omega
    rw [if_neg hc1, if_neg hc2]
    exact ⟨m, rfl, rfl, fun h' => absurd h' (by omega), fun h' => absurd h' (by omega),
      fun _ => rfl⟩
  · have hc1 : ¬ (cu : Int) < (cl : Int) := by omega
    have hc2 : (cl : Int) < (cu : Int) := by omega
    have e1 : 2 * H.BYTE_STEP * ((cl : Int) - 1) + H.BYTE_STEP + 2 * H.BYTE_STEP =
        ((4 + 8 * cl : Nat) : Int) := by
      rw [hL.1]; omega
    have e2 : 2 * H.BYTE_STEP * ((cu : Int) - 1) + H.BYTE_STEP = ((4 + 8 * cu : Nat) : Int) - 8 := by
      rw [hL.1]; omega
    obtain ⟨m1, h1, hlen, hframe, hcopy⟩ := fillup_to_spec H hL 4 cl cu m h (by omega)
    rw [if_neg hc1, if_pos hc2, e1, e2]
    exact ⟨m1, h1, hlen, fun h' => absurd h' (by omega), fun _ => ⟨hframe, hcopy⟩,
      fun h' => absurd h' (by omega)⟩

theorem holds_commands_iff (H : Header) (hL : H.Layout) (m : Mem) (off n : Nat) :
    holds_commands H m off n ↔
      (∀ j : Nat, j < n → m[off + 8 * j]? = some H.RGB_CODE) ∧
      (∀ j : Nat, n ≤ j → m[off + 8 * j]? ≠ some H.RGB_CODE) := by
  have hbs : H.BYTE_STEP.toNat = 4 := by rw [hL.1]; rfl
  have he : ∀ j : Nat, off + 2 * H.BYTE_STEP.toNat * j = off + 8 * j := by
    intro j; rw [hbs]
  unfold holds_commands
  simp only [he]
  constructor
  · rintro ⟨h1, h2⟩
    refine ⟨h1, fun j hj => ?_⟩
    by_cases hlt : j < m.length
    · exact h2 j hlt hj
    · rw [List.getElem?_eq_none (by omega)]
      simp
  · rintro ⟨h1, h2⟩
    exact ⟨h1, fun j _ hj => h2 j hj⟩

/-- A ring that holds exactly `n >= 1` commands is counted as `n` for every
packet count `pck` whose last packet holds command `n - 1`. -/
theorem count_of_holds (H : Header) (hL : H.Layout) (m : Mem) (colgroup : Int) (pck n : Nat)
    (hn : 1 ≤ n) (hpck : pck = (n + 7) / 8) (hlen : 64 * pck ≤ m.length) (hshort : n ≤ 32760)
    (hh : holds_commands H m (if colgroup ≠ 0 then 4 else 0) n) :
    count_color_commands H m (pck : Int) colgroup = some (n : Int) := by
  obtain ⟨h1, h2⟩ := (holds_commands_iff H hL m _ n).mp hh
  exact count_color_commands_eq H hL m pck colgroup n (by omega) hlen (by omega) (by omega)
    (by omega) (fun x _ hx => h1 x hx) (fun _ => h2 n le_rfl)

/-- The equalizer on two rings that hold `nu` and `nl` commands, called with the
packet counts of their last commands: it returns; both rings hold
`max nu nl` commands afterwards; every slot of the shorter ring holds what
slot `i mod min nu nl` of that ring held before; and nothing changes outside
the slots `min nu nl .. max nu nl - 1` of the shorter ring. -/
theorem equalize_rings (H : Header) (hL : H.Layout) (m : Mem) (nu nl : Nat)
    (hnu : 1 ≤ nu) (hnl : 1 ≤ nl) (hsu : nu ≤ 32760) (hsl : nl ≤ 32760)
    (hu : holds_commands H m 0 nu) (hl : holds_commands H m 4 nl)
    (hlen : 64 * ((max nu nl + 7) / 8) ≤ m.length) :
    ∃ m1, equalize H (((nu + 7) / 8 : Nat) : Int) (((nl + 7) / 8 : Nat) : Int) m = some m1 ∧
      m1.length = m.length ∧
      holds_commands H m1 0 (max nu nl) ∧ holds_commands H m1 4 (max nu nl) ∧
      (∀ (i r : Nat), i < max nu nl → r < 4 →
        m1[(if nu < nl then 0 else 4) + 8 * i + r]? =
          m[(if nu < nl then 0 else 4) + 8 * (i % min nu nl) + r]?) ∧
      (∀ x : Nat, ¬ (in_slots (if nu < nl then 0 else 4) (max nu nl) x ∧
          min nu nl ≤ (x - (if nu < nl then 0 else 4)) / 8) → m1[x]? = m[x]?) := by
  have hcu := count_of_holds H hL m 0 ((nu + 7) / 8) nu hnu rfl
    (by rcases le_total nu nl with h | h <;> simp [h] at hlen <;> omega) hsu (by simpa using hu)
  have hcl := count_of_holds H hL m 1 ((nl + 7) / 8) nl hnl rfl
    (by rcases le_total nu nl with h | h <;> simp [h] at hlen <;> omega) hsl (by simpa using hl)
  have hmaxlen : 8 * max nu nl ≤ m.length := by omega
  obtain ⟨m1, he, hlen1, hlt, hgt, heq⟩ := equalize_spec H hL m _ _ nu nl hcu hcl
    (by rcases le_total nu nl with h | h <;> simp [h] at hmaxlen <;> omega)
    (by rcases le_total nu nl with h | h <;> simp [h] at hmaxlen <;> omega)
  obtain ⟨hu1, hu2⟩ := (holds_commands_iff H hL m 0 nu).mp hu
  obtain ⟨hl1, hl2⟩ := (holds_commands_iff H hL m 4 nl).mp hl
  refine ⟨m1, he, hlen1, ?_⟩
  rcases Nat.lt_trichotomy nu nl with h | h | h
  · -- the upper ring is the shorter one
    obtain ⟨hframe, hcopy⟩ := hlt h
    have hcopy := hcopy hnu
    have hmax : max nu nl = nl := max_eq_right h.le
    have hmin : min nu nl = nu := min_eq_left h.le
    rw [hmax, hmin, if_pos h]
    refine ⟨?_, ?_, ?_, ?_⟩
    · rw [holds_commands_iff H hL]
      constructor
      · intro j hj
        have := hcopy j 0 hj (by omega)
        simp only [Nat.add_zero] at this
        rw [Nat.zero_add, this]
        have := hu1 (j % nu) (Nat.mod_lt _ hnu)
        simpa using this
      · intro j hj
        rw [hframe _ (by unfold in_slots; omega)]
        exact hu2 j (by omega)
    · rw [holds_commands_iff H hL]
      constructor
      · intro j hj
        rw [hframe _ (by unfold in_slots; omega)]
        exact hl1 j hj
      · intro j hj
        rw [hframe _ (by unfold in_slots; omega)]
        exact hl2 j hj
    · intro i r hi hr
      simpa using hcopy i r hi hr
    · intro x hx
      exact hframe x (by simpa using hx)
  · -- equal counts: nothing to do
    subst h
    have hm := heq rfl
    subst hm
    simp only [max_self, min_self, lt_irrefl, if_false]
    refine ⟨hu, hl, ?_, ?_⟩
    · intro i r hi _
      rw [Nat.mod_eq_of_lt hi]
    · intro x _
      trivial
  · -- the lower ring is the shorter one
    obtain ⟨hframe, hcopy⟩ := hgt h
    have hcopy := hcopy hnl
    have hmax : max nu nl = nu := max_eq_left h.le
    have hmin : min nu nl = nl := min_eq_right h.le
    have hnlt : ¬ nu < nl := by omega
    rw [hmax, hmin, if_neg hnlt]
    refine ⟨?_, ?_, hcopy, hframe⟩
    · rw [holds_commands_iff H hL]
      constructor
      · intro j hj
        rw [hframe _ (by unfold in_slots; omega)]
        exact hu1 j hj
      · intro j hj
        rw [hframe _ (by unfold in_slots; omega)]
        exact hu2 j hj
    · rw [holds_commands_iff H hL]
      constructor
      · intro j hj
        have := hcopy j 0 hj (by omega)
        simp only [Nat.add_zero] at this
        rw [this]
        exact hl1 (j % nl) (Nat.mod_lt _ hnl)
      · intro j hj
        rw [hframe _ (by unfold in_slots; omega)]
        exact hl2 j (by omega)

theorem command_at_congr (H : Header) (m1 m : Mem) (a b : Nat)
    (h : ∀ r : Nat, r < H.BYTE_STEP.toNat → m1[a + r]? = m[b + r]?) :
    (m1.drop a).take H.BYTE_STEP.toNat = (m.drop b).take H.BYTE_STEP.toNat := by
  apply List.ext_getElem?
  intro n
  rw [List.getElem?_take, List.getElem?_take]
  by_cases hn : n < H.BYTE_STEP.toNat
  · rw [if_pos hn, if_pos hn, List.getElem?_drop, List.getElem?_drop]
    exact h n hn
  · rw [if_neg hn, if_neg hn]

/-- C5. Equalizer correctness: on a packet array of `pck_cnt` packets in which
the upper ring holds exactly `n_u >= 1` and the lower ring exactly `n_l >= 1`
commands from slot 0 on, `equalize` called with the packet counts
`ceil(n_u/8)` and `ceil(n_l/8)` (written `(n+7)/8`) returns, and afterwards
`count_color_commands` over the whole array, with `pck_cnt` the larger of the
two packet counts, returns `max(n_u, n_l)` for the upper ring (colour group 0)
and for the lower ring (colour group 1).  The counts are taken within the
range of the `short` counter of `count_color_commands`; the generators write
at most `MAX_COLPAIR_COUNT` commands. -/
theorem C5_equalizer_counts (H : Header) (hL : H.Layout) (m : Mem) (nu nl : Nat)
    (hnu : 1 ≤ nu) (hnl : 1 ≤ nl) (hsu : nu ≤ 32760) (hsl : nl ≤ 32760)
    (hu : holds_commands H m 0 nu) (hl : holds_commands H m H.BYTE_STEP.toNat nl)
    (hlen : m.length = H.DATA_PACKET_SIZE.toNat * max ((nu + 7) / 8) ((nl + 7) / 8)) :
    ∃ m1, equalize H (((nu + 7) / 8 : Nat) : Int) (((nl + 7) / 8 : Nat) : Int) m = some m1 ∧
      count_color_commands H m1 ((max ((nu + 7) / 8) ((nl + 7) / 8) : Nat) : Int) 0 =
        some ((max nu nl : Nat) : Int) ∧
      count_color_commands H m1 ((max ((nu + 7) / 8) ((nl + 7) / 8) : Nat) : Int) 1 =
        some ((max nu nl : Nat) : Int) := by
  have hbs : H.BYTE_STEP.toNat = 4 := by rw [hL.1]; rfl
  have hds : H.DATA_PACKET_SIZE.toNat = 64 := by rw [hL.2.1]; rfl
  have hP : max ((nu + 7) / 8) ((nl + 7) / 8) = (max nu nl + 7) / 8 := by
    rcases le_total nu nl with h | h
    · rw [max_eq_right h, max_eq_right (by omega)]
    · rw [max_eq_left h, max_eq_left (by omega)]
  rw [hbs] at hl
  rw [hds, hP] at hlen
  obtain ⟨m1, he, hlen1, hu1, hl1, _, _⟩ := equalize_rings H hL m nu nl hnu hnl hsu hsl hu hl
    (by omega)
  have hmax1 : 1 ≤ max nu nl := le_trans hnu (le_max_left _ _)
  have hmax2 : max nu nl ≤ 32760 := max_le hsu hsl
  refine ⟨m1, he, ?_, ?_⟩
  · rw [hP]
    exact count_of_holds H hL m1 0 _ _ hmax1 rfl (by omega) hmax2 (by simpa using hu1)
  · rw [hP]
    exact count_of_holds H hL m1 1 _ _ hmax1 rfl (by omega) hmax2 (by simpa using hl1)

/-- C5, at a concrete input: three commands on the upper ring, nine on the
lower ring, in an array of two packets. -/
theorem C5_equalizer_counts_witness :
    ∃ m1, equalize quadcast (((3 + 7) / 8 : Nat) : Int) (((9 + 7) / 8 : Nat) : Int)
        [129, 255, 0, 0, 129, 0, 0, 255, 129, 0, 0, 0, 129, 0, 0, 0, 129, 0, 0, 0, 129, 0, 0, 0, 0, 0, 0, 0, 129, 0, 0, 0,
      0, 0, 0, 0, 129, 0, 0, 0, 0, 0, 0, 0, 129, 0, 0, 0, 0, 0, 0, 0, 129, 0, 0, 0, 0, 0, 0, 0, 129, 0, 0, 0,
      0, 0, 0, 0, 129, 0, 0, 0, 0, 0, 0, 0, 0, 0, 0, 0, 0, 0, 0, 0, 0, 0, 0, 0, 0, 0, 0, 0, 0, 0, 0, 0,
      0, 0, 0, 0, 0, 0, 0, 0, 0, 0, 0, 0, 0, 0, 0, 0, 0, 0, 0, 0, 0, 0, 0, 0, 0, 0, 0, 0, 0, 0, 0, 0] = some m1 ∧
      count_color_commands quadcast m1 ((max ((3 + 7) / 8) ((9 + 7) / 8) : Nat) : Int) 0 =
        some ((max 3 9 : Nat) : Int) ∧
      count_color_commands quadcast m1 ((max ((3 + 7) / 8) ((9 + 7) / 8) : Nat) : Int) 1 =
        some ((max 3 9 : Nat) : Int) :=
  C5_equalizer_counts quadcast (by decide)
    [129, 255, 0, 0, 129, 0, 0, 255, 129, 0, 0, 0, 129, 0, 0, 0, 129, 0, 0, 0, 129, 0, 0, 0, 0, 0, 0, 0, 129, 0, 0, 0,
      0, 0, 0, 0, 129, 0, 0, 0, 0, 0, 0, 0, 129, 0, 0, 0, 0, 0, 0, 0, 129, 0, 0, 0, 0, 0, 0, 0, 129, 0, 0, 0,
      0, 0, 0, 0, 129, 0, 0, 0, 0, 0, 0, 0, 0, 0, 0, 0, 0, 0, 0, 0, 0, 0, 0, 0, 0, 0, 0, 0, 0, 0, 0, 0,
      0, 0, 0, 0, 0, 0, 0, 0, 0, 0, 0, 0, 0, 0, 0, 0, 0, 0, 0, 0, 0, 0, 0, 0, 0, 0, 0, 0, 0, 0, 0, 0] 3 9
    (by decide) (by decide) (by decide) (by decide) (by decide) (by decide) (by decide)

/-- C10. Equalizer cyclic padding: on a packet array in which the upper ring
holds exactly `n_u >= 1` and the lower ring exactly `n_l >= 1` commands, after
`equalize` every slot `i` of the shorter ring with `n <= i < m`, where
`n = min(n_u, n_l)` and `m = max(n_u, n_l)`, holds the `BYTE_STEP` bytes that
slot `i mod n` of that ring held before the call. -/
theorem C10_cyclic_padding (H : Header) (hL : H.Layout) (m : Mem) (nu nl : Nat)
    (hnu : 1 ≤ nu) (hnl : 1 ≤ nl) (hsu : nu ≤ 32760) (hsl : nl ≤ 32760)
    (hu : holds_commands H m 0 nu) (hl : holds_commands H m H.BYTE_STEP.toNat nl)
    (hlen : m.length = H.DATA_PACKET_SIZE.toNat * max ((nu + 7) / 8) ((nl + 7) / 8)) :
    ∃ m1, equalize H (((nu + 7) / 8 : Nat) : Int) (((nl + 7) / 8 : Nat) : Int) m = some m1 ∧
      ∀ i : Nat, min nu nl ≤ i → i < max nu nl →
        command_at H m1 (if nu < nl then 0 else H.BYTE_STEP.toNat) i =
          command_at H m (if nu < nl then 0 else H.BYTE_STEP.toNat) (i % min nu nl) := by
  have hbs : H.BYTE_STEP.toNat = 4 := by rw [hL.1]; rfl
  have hds : H.DATA_PACKET_SIZE.toNat = 64 := by rw [hL.2.1]; rfl
  have hP : max ((nu + 7) / 8) ((nl + 7) / 8) = (max nu nl + 7) / 8 := by
    rcases le_total nu nl with h | h
    · rw [max_eq_right h, max_eq_right (by omega)]
    · rw [max_eq_left h, max_eq_left (by omega)]
  rw [hbs] at hl
  rw [hds, hP] at hlen
  obtain ⟨m1, he, _, _, _, hcopy, _⟩ := equalize_rings H hL m nu nl hnu hnl hsu hsl hu hl
    (by omega)
  refine ⟨m1, he, ?_⟩
  intro i _ hi
  unfold command_at
  apply command_at_congr
  intro r hr
  rw [hbs] at hr ⊢
  have := hcopy i r hi hr
  have e1 : (if nu < nl then 0 else 4) + 2 * 4 * i + r = (if nu < nl then 0 else 4) + 8 * i + r := by
    omega
  have e2 : (if nu < nl then 0 else 4) + 2 * 4 * (i % min nu nl) + r =
      (if nu < nl then 0 else 4) + 8 * (i % min nu nl) + r := by omega
  rw [e1, e2]
  exact this

/-- C10, at a concrete input: three commands on the upper ring, nine on the
lower ring, in an array of two packets. -/
theorem C10_cyclic_padding_witness :
    ∃ m1, equalize quadcast (((3 + 7) / 8 : Nat) : Int) (((9 + 7) / 8 : Nat) : Int)
        [129, 255, 0, 0, 129, 0, 0, 255, 129, 0, 0, 0, 129, 0, 0, 0, 129, 0, 0, 0, 129, 0, 0, 0, 0, 0, 0, 0, 129, 0, 0, 0,
      0, 0, 0, 0, 129, 0, 0, 0, 0, 0, 0, 0, 129, 0, 0, 0, 0, 0, 0, 0, 129, 0, 0, 0, 0, 0, 0, 0, 129, 0, 0, 0,
      0, 0, 0, 0, 129, 0, 0, 0, 0, 0, 0, 0, 0, 0, 0, 0, 0, 0, 0, 0, 0, 0, 0, 0, 0, 0, 0, 0, 0, 0, 0, 0,
      0, 0, 0, 0, 0, 0, 0, 0, 0, 0, 0, 0, 0, 0, 0, 0, 0, 0, 0, 0, 0, 0, 0, 0, 0, 0, 0, 0, 0, 0, 0, 0] = some m1 ∧
      ∀ i : Nat, min 3 9 ≤ i → i < max 3 9 →
        command_at quadcast m1 (if 3 < 9 then 0 else quadcast.BYTE_STEP.toNat) i =
          command_at quadcast
            [129, 255, 0, 0, 129, 0, 0, 255, 129, 0, 0, 0, 129, 0, 0, 0, 129, 0, 0, 0, 129, 0, 0, 0, 0, 0, 0, 0, 129, 0, 0, 0,
      0, 0, 0, 0, 129, 0, 0, 0, 0, 0, 0, 0, 129, 0, 0, 0, 0, 0, 0, 0, 129, 0, 0, 0, 0, 0, 0, 0, 129, 0, 0, 0,
      0, 0, 0, 0, 129, 0, 0, 0, 0, 0, 0, 0, 0, 0, 0, 0, 0, 0, 0, 0, 0, 0, 0, 0, 0, 0, 0, 0, 0, 0, 0, 0,
      0, 0, 0, 0, 0, 0, 0, 0, 0, 0, 0, 0, 0, 0, 0, 0, 0, 0, 0, 0, 0, 0, 0, 0, 0, 0, 0, 0, 0, 0, 0, 0] (if 3 < 9 then 0 else quadcast.BYTE_STEP.toNat) (i % min 3 9) :=
  C10_cyclic_padding quadcast (by decide)
    [129, 255, 0, 0, 129, 0, 0, 255, 129, 0, 0, 0, 129, 0, 0, 0, 129, 0, 0, 0, 129, 0, 0, 0, 0, 0, 0, 0, 129, 0, 0, 0,
      0, 0, 0, 0, 129, 0, 0, 0, 0, 0, 0, 0, 129, 0, 0, 0, 0, 0, 0, 0, 129, 0, 0, 0, 0, 0, 0, 0, 129, 0, 0, 0,
      0, 0, 0, 0, 129, 0, 0, 0, 0, 0, 0, 0, 0, 0, 0, 0, 0, 0, 0, 0, 0, 0, 0, 0, 0, 0, 0, 0, 0, 0, 0, 0,
      0, 0, 0, 0, 0, 0, 0, 0, 0, 0, 0, 0, 0, 0, 0, 0, 0, 0, 0, 0, 0, 0, 0, 0, 0, 0, 0, 0, 0, 0, 0, 0] 3 9
    (by decide) (by decide) (by decide) (by decide) (by decide) (by decide) (by decide)

/-- C6 (amended). Equalizer idempotence: on a packet array in which the upper
ring holds exactly `n_u >= 1` and the lower ring exactly `n_l >= 1` commands,
after `equalize` with the packet counts `ceil(n_u/8)` and `ceil(n_l/8)`, a
second run of `equalize` with the packet counts of the now equal rings (both
are `pck_cnt`, the larger of the two counts) returns the array unchanged, byte
for byte. -/
theorem C6_equalizer_rerun (H : Header) (hL : H.Layout) (m : Mem) (nu nl : Nat)
    (hnu : 1 ≤ nu) (hnl : 1 ≤ nl) (hsu : nu ≤ 32760) (hsl : nl ≤ 32760)
    (hu : holds_commands H m 0 nu) (hl : holds_commands H m H.BYTE_STEP.toNat nl)
    (hlen : m.length = H.DATA_PACKET_SIZE.toNat * max ((nu + 7) / 8) ((nl + 7) / 8)) :
    ∃ m1, equalize H (((nu + 7) / 8 : Nat) : Int) (((nl + 7) / 8 : Nat) : Int) m = some m1 ∧
      equalize H ((max ((nu + 7) / 8) ((nl + 7) / 8) : Nat) : Int)
        ((max ((nu + 7) / 8) ((nl + 7) / 8) : Nat) : Int) m1 = some m1 := by
  have hbs : H.BYTE_STEP.toNat = 4 := by rw [hL.1]; rfl
  have hds : H.DATA_PACKET_SIZE.toNat = 64 := by rw [hL.2.1]; rfl
  have hP : max ((nu + 7) / 8) ((nl + 7) / 8) = (max nu nl + 7) / 8 := by
    rcases le_total nu nl with h | h
    · rw [max_eq_right h, max_eq_right (by omega)]
    · rw [max_eq_left h, max_eq_left (by omega)]
  rw [hbs] at hl
  rw [hds, hP] at hlen
  obtain ⟨m1, he, hlen1, hu1, hl1, _, _⟩ := equalize_rings H hL m nu nl hnu hnl hsu hsl hu hl
    (by omega)
  have hmax1 : 1 ≤ max nu nl := le_trans hnu (le_max_left _ _)
  have hmax2 : max nu nl ≤ 32760 := max_le hsu hsl
  have hcu := count_of_holds H hL m1 0 _ _ hmax1 rfl (by omega) hmax2 (by simpa using hu1)
  have hcl := count_of_holds H hL m1 1 _ _ hmax1 rfl (by omega) hmax2 (by simpa using hl1)
  obtain ⟨m2, he2, _, _, _, heq⟩ := equalize_spec H hL m1 _ _ _ _ hcu hcl (by omega) (by omega)
  refine ⟨m1, he, ?_⟩
  rw [hP, he2, heq rfl]

/-- C6 (amended), at a concrete input: three commands on the upper ring, nine
on the lower ring, in an array of two packets. -/
theorem C6_equalizer_rerun_witness :
    ∃ m1, equalize quadcast (((3 + 7) / 8 : Nat) : Int) (((9 + 7) / 8 : Nat) : Int)
        [129, 255, 0, 0, 129, 0, 0, 255, 129, 0, 0, 0, 129, 0, 0, 0, 129, 0, 0, 0, 129, 0, 0, 0, 0, 0, 0, 0, 129, 0, 0, 0,
      0, 0, 0, 0, 129, 0, 0, 0, 0, 0, 0, 0, 129, 0, 0, 0, 0, 0, 0, 0, 129, 0, 0, 0, 0, 0, 0, 0, 129, 0, 0, 0,
      0, 0, 0, 0, 129, 0, 0, 0, 0, 0, 0, 0, 0, 0, 0, 0, 0, 0, 0, 0, 0, 0, 0, 0, 0, 0, 0, 0, 0, 0, 0, 0,
      0, 0, 0, 0, 0, 0, 0, 0, 0, 0, 0, 0, 0, 0, 0, 0, 0, 0, 0, 0, 0, 0, 0, 0, 0, 0, 0, 0, 0, 0, 0, 0] = some m1 ∧
      equalize quadcast ((max ((3 + 7) / 8) ((9 + 7) / 8) : Nat) : Int)
        ((max ((3 + 7) / 8) ((9 + 7) / 8) : Nat) : Int) m1 = some m1 :=
  C6_equalizer_rerun quadcast (by decide)
    [129, 255, 0, 0, 129, 0, 0, 255, 129, 0, 0, 0, 129, 0, 0, 0, 129, 0, 0, 0, 129, 0, 0, 0, 0, 0, 0, 0, 129, 0, 0, 0,
      0, 0, 0, 0, 129, 0, 0, 0, 0, 0, 0, 0, 129, 0, 0, 0, 0, 0, 0, 0, 129, 0, 0, 0, 0, 0, 0, 0, 129, 0, 0, 0,
      0, 0, 0, 0, 129, 0, 0, 0, 0, 0, 0, 0, 0, 0, 0, 0, 0, 0, 0, 0, 0, 0, 0, 0, 0, 0, 0, 0, 0, 0, 0, 0,
      0, 0, 0, 0, 0, 0, 0, 0, 0, 0, 0, 0, 0, 0, 0, 0, 0, 0, 0, 0, 0, 0, 0, 0, 0, 0, 0, 0, 0, 0, 0, 0] 3 9
    (by decide) (by decide) (by decide) (by decide) (by decide) (by decide) (by decide)

/-- C6 as stated fails.  The upper ring blinks one colour at speed 100 and
delay 2 (three commands, `count_data` gives 1 packet), the lower ring one
colour at speed 100 and delay 8 (nine commands, 2 packets); `da` is the zeroed
array of two packets after both calls of `fill_data`.  The first
`equalize(1, 2, da)` pads the upper ring to nine commands; the second
`equalize(1, 2, ...)` recounts the upper ring in packet 0 only, finds 8, and
overwrites slot 8 of the upper ring with slot 0: the red byte at offset 65
changes from 0 to 255. -/
theorem C6_counterexample :
    ∃ (da0 da m1 m2 : Mem),
      count_data quadcast ⟨"blink", [0xFF0000, -1], 100, 100, 2⟩ =
        some (1, ⟨"blink", [0xFF0000, -1], 100, 100, 2⟩) ∧
      count_data quadcast ⟨"blink", [0x0000FF, -1], 100, 100, 8⟩ =
        some (2, ⟨"blink", [0x0000FF, -1], 100, 100, 8⟩) ∧
      fill_data quadcast (fun _ => 0) 0 ⟨"blink", [0xFF0000, -1], 100, 100, 2⟩
        (List.replicate 128 0) 0 2 = some (da0, 0) ∧
      fill_data quadcast (fun _ => 0) 0 ⟨"blink", [0x0000FF, -1], 100, 100, 8⟩
        da0 quadcast.BYTE_STEP 2 = some (da, 0) ∧
      equalize quadcast 1 2 da = some m1 ∧
      equalize quadcast 1 2 m1 = some m2 ∧
      m1[65]? = some 0 ∧ m2[65]? = some 255 ∧ m2 ≠ m1 :=
  ⟨[129, 255, 0, 0, 0, 0, 0, 0, 129, 0, 0, 0, 0, 0, 0, 0, 129, 0, 0, 0, 0, 0, 0, 0, 0, 0, 0, 0, 0, 0, 0, 0,
      0, 0, 0, 0, 0, 0, 0, 0, 0, 0, 0, 0, 0, 0, 0, 0, 0, 0, 0, 0, 0, 0, 0, 0, 0, 0, 0, 0, 0, 0, 0, 0,
      0, 0, 0, 0, 0, 0, 0, 0, 0, 0, 0, 0, 0, 0, 0, 0, 0, 0, 0, 0, 0, 0, 0, 0, 0, 0, 0, 0, 0, 0, 0, 0,
      0, 0, 0, 0, 0, 0, 0, 0, 0, 0, 0, 0, 0, 0, 0, 0, 0, 0, 0, 0, 0, 0, 0, 0, 0, 0, 0, 0, 0, 0, 0, 0],
    [129, 255, 0, 0, 129, 0, 0, 255, 129, 0, 0, 0, 129, 0, 0, 0, 129, 0, 0, 0, 129, 0, 0, 0, 0, 0, 0, 0, 129, 0, 0, 0,
      0, 0, 0, 0, 129, 0, 0, 0, 0, 0, 0, 0, 129, 0, 0, 0, 0, 0, 0, 0, 129, 0, 0, 0, 0, 0, 0, 0, 129, 0, 0, 0,
      0, 0, 0, 0, 129, 0, 0, 0, 0, 0, 0, 0, 0, 0, 0, 0, 0, 0, 0, 0, 0, 0, 0, 0, 0, 0, 0, 0, 0, 0, 0, 0,
      0, 0, 0, 0, 0, 0, 0, 0, 0, 0, 0, 0, 0, 0, 0, 0, 0, 0, 0, 0, 0, 0, 0, 0, 0, 0, 0, 0, 0, 0, 0, 0],
    [129, 255, 0, 0, 129, 0, 0, 255, 129, 0, 0, 0, 129, 0, 0, 0, 129, 0, 0, 0, 129, 0, 0, 0, 129, 255, 0, 0, 129, 0, 0, 0,
      129, 0, 0, 0, 129, 0, 0, 0, 129, 0, 0, 0, 129, 0, 0, 0, 129, 255, 0, 0, 129, 0, 0, 0, 129, 0, 0, 0, 129, 0, 0, 0,
      129, 0, 0, 0, 129, 0, 0, 0, 0, 0, 0, 0, 0, 0, 0, 0, 0, 0, 0, 0, 0, 0, 0, 0, 0, 0, 0, 0, 0, 0, 0, 0,
      0, 0, 0, 0, 0, 0, 0, 0, 0, 0, 0, 0, 0, 0, 0, 0, 0, 0, 0, 0, 0, 0, 0, 0, 0, 0, 0, 0, 0, 0, 0, 0],
    [129, 255, 0, 0, 129, 0, 0, 255, 129, 0, 0, 0, 129, 0, 0, 0, 129, 0, 0, 0, 129, 0, 0, 0, 129, 255, 0, 0, 129, 0, 0, 0,
      129, 0, 0, 0, 129, 0, 0, 0, 129, 0, 0, 0, 129, 0, 0, 0, 129, 255, 0, 0, 129, 0, 0, 0, 129, 0, 0, 0, 129, 0, 0, 0,
      129, 255, 0, 0, 129, 0, 0, 0, 0, 0, 0, 0, 0, 0, 0, 0, 0, 0, 0, 0, 0, 0, 0, 0, 0, 0, 0, 0, 0, 0, 0, 0,
      0, 0, 0, 0, 0, 0, 0, 0, 0, 0, 0, 0, 0, 0, 0, 0, 0, 0, 0, 0, 0, 0, 0, 0, 0, 0, 0, 0, 0, 0, 0, 0],
    by decide, by decide, by decide, by decide, by decide, by decide, by decide, by decide,
    by decide⟩

/-! ## The random blink sequence -/

/-- The interpolation `a + x*(b - a)/M` of `sequence_blink_random`, in C's
truncating division, stays between `a` and `b`. -/
theorem interp_bounds (a b x M : Int) (hx0 : 0 ≤ x) (hx : x ≤ M) (hM : 0 < M) :
    min a b ≤ a + (x * (b - a)).tdiv M ∧ a + (x * (b - a)).tdiv M ≤ max a b := by
  rcases le_total a b with hab | hab
  · have hp : 0 ≤ x * (b - a) := mul_nonneg hx0 (by omega)
    rw [Int.tdiv_eq_ediv hp hM.le, min_eq_left hab, max_eq_right hab]
    have h1 : 0 ≤ x * (b - a) / M := Int.ediv_nonneg hp hM.le
    have h2 : x * (b - a) / M ≤ b - a := by
      apply Int.ediv_le_of_le_mul hM
      nlinarith
    omega
  · have hp : 0 ≤ x * (a - b) := mul_nonneg hx0 (by omega)
    have hneg : x * (b - a) = -(x * (a - b)) := by ring
    rw [hneg, Int.neg_tdiv, Int.tdiv_eq_ediv hp hM.le, min_eq_right hab, max_eq_left hab]
    have h1 : 0 ≤ x * (a - b) / M := Int.ediv_nonneg hp hM.le
    have h2 : x * (a - b) / M ≤ a - b := by
      apply Int.ediv_le_of_le_mul hM
      nlinarith
    omega

/-- A call of `blink_segment_fill` whose colour segment has negative length:
no colour command is written, the cursor moves back, and the delay segment is
written from there. -/
theorem blink_segment_fill_neg (H : Header) (hL : H.Layout) (col b : Int) (k d : Nat)
    (m : Mem) (p : Nat) (da : Int) (hda : da = ((p + 8 * k : Nat) : Int))
    (hroom : d = 0 ∨ p + 8 * d ≤ m.length + 4) :
    ∃ m1, blink_segment_fill H col (-(k : Int)) (d : Int) b m da =
        some (m1, ((p + 8 * d : Nat) : Int)) ∧ m1.length = m.length := by
  have hda1 : da + 2 * H.BYTE_STEP * (-(k : Int)) = (p : Int) := by
    rw [hda, hL.1]; push_cast; ring
  obtain ⟨m2, h2, hlen2, _⟩ := blink_color_loop_spec H hL H.black b d m p
    (da + 2 * H.BYTE_STEP * (-(k : Int))) hda1 hroom
  have hda2 : da + 2 * H.BYTE_STEP * (-(k : Int)) + 2 * H.BYTE_STEP * (d : Int) =
      ((p + 8 * d : Nat) : Int) := by
    rw [hda, hL.1]; push_cast; ring
  have hz : (-(k : Int)).toNat = 0 := by omega
  refine ⟨m2, ?_, hlen2⟩
  unfold blink_segment_fill blink_color_fill
  simp only [hz, blink_color_loop, Int.toNat_ofNat, h2, hda2]

/-- The loop of `sequence_blink_random` from `c` colour pairs on, with segment
lengths `cs` and `ds`: it returns, within the fuel, with the cursor exactly
`N = MAX_COLPAIR_COUNT` slots past the start `p` of the ring. -/
theorem random_loop_safe (H : Header) (hL : H.Layout) (bright : Int) (rnd : Nat → Int)
    (N cs ds p : Nat) (hN : H.MAX_COLPAIR_COUNT = (N : Int)) (hseg : 1 ≤ cs + ds) (hds : ds ≤ N) :
    ∀ (fuel c ri : Nat) (m : Mem), c ≤ N → N - c ≤ fuel → p + 8 * N ≤ m.length + 4 →
      ∃ m1 ri1, sequence_blink_random_loop H bright (ds : Int) rnd fuel (c : Int) (cs : Int) ri m
          ((p + 8 * c : Nat) : Int) = some (m1, ((p + 8 * N : Nat) : Int), ri1) ∧
        m1.length = m.length := by
  intro fuel
  induction fuel with
  | zero =>
    intro c ri m hc hfuel _
    have hcN : c = N := by omega
    subst hcN
    refine ⟨m, ri, ?_, rfl⟩
    rw [sequence_blink_random_loop, hN, if_neg (lt_irrefl _)]
  | succ fuel ih =>
    intro c ri m hc hfuel hroom
    rw [sequence_blink_random_loop, hN]
    by_cases hlt : c < N
    · have hlt' : (c : Int) < (N : Int) := by omega
      rw [if_pos hlt']
      simp only []
      by_cases hover : (c : Int) + ((cs : Int) + (ds : Int)) > (N : Int)
      · -- the last round: the colour segment is cut
        rw [if_pos hover]
        have hexit : ∀ (f : Nat) (cseg : Int) (r : Nat) (mm : Mem) (dd : Int),
            sequence_blink_random_loop H bright (ds : Int) rnd f
              ((c : Int) + ((cs : Int) + (ds : Int))) cseg r mm dd = some (mm, dd, r) := by
          intro f cseg r mm dd
          have hnot : ¬ ((c : Int) + ((cs : Int) + (ds : Int)) < (N : Int)) := by omega
          cases f with
          | zero => rw [sequence_blink_random_loop, hN, if_neg hnot]
          | succ f => rw [sequence_blink_random_loop, hN, if_neg hnot]
        by_cases hneg : N < c + ds
        · obtain ⟨k, hk⟩ : ∃ k : Nat, c + ds = N + k := ⟨c + ds - N, by omega⟩
          have hcseg : (cs : Int) - ((c : Int) + ((cs : Int) + (ds : Int)) - (N : Int)) =
              -(k : Int) := by omega
          obtain ⟨m1, h1, hlen1⟩ := blink_segment_fill_neg H hL (rnd ri) bright k ds m
            (p + 8 * (N - ds)) ((p + 8 * c : Nat) : Int) (by omega) (by omega)
          have hend : ((p + 8 * (N - ds) + 8 * ds : Nat) : Int) = ((p + 8 * N : Nat) : Int) := by
            omega
          rw [hcseg, h1, hend]
          simp only []
          rw [hexit]
          exact ⟨m1, ri + 1, rfl, hlen1⟩
        · obtain ⟨k, hk⟩ : ∃ k : Nat, c + k + ds = N := ⟨N - c - ds, by omega⟩
          have hcseg : (cs : Int) - ((c : Int) + ((cs : Int) + (ds : Int)) - (N : Int)) =
              (k : Int) := by omega
          obtain ⟨m1, h1, hlen1, _⟩ := blink_segment_fill_spec H hL (rnd ri) bright k ds m
            (p + 8 * c) ((p + 8 * c : Nat) : Int) rfl (by omega)
          have hend : ((p + 8 * c + 8 * (k + ds) : Nat) : Int) = ((p + 8 * N : Nat) : Int) := by
            omega
          rw [hcseg, h1, hend]
          simp only []
          rw [hexit]
          exact ⟨m1, ri + 1, rfl, hlen1⟩
      · rw [if_neg hover]
        obtain ⟨m1, h1, hlen1, _⟩ := blink_segment_fill_spec H hL (rnd ri) bright cs ds m
          (p + 8 * c) ((p + 8 * c : Nat) : Int) rfl (by omega)
        have hend : ((p + 8 * c + 8 * (cs + ds) : Nat) : Int) =
            ((p + 8 * (c + cs + ds) : Nat) : Int) := by omega
        have hcp : (c : Int) + ((cs : Int) + (ds : Int)) = ((c + cs + ds : Nat) : Int) := by
          push_cast; ring
        rw [h1, hend, hcp]
        simp only []
        obtain ⟨m2, ri2, h2, hlen2⟩ := ih (c + cs + ds) (ri + 1) m1 (by omega) (by omega)
          (by rw [hlen1]; exact hroom)
        exact ⟨m2, ri2, h2, by rw [hlen2, hlen1]⟩
    · have hcN : c = N := by omega
      subst hcN
      rw [if_neg (lt_irrefl _)]
      exact ⟨m, ri, rfl, rfl⟩

/-- The function `sequence_blink_random` returns, leaves the length of the
block alone and ends with its cursor `MAX_COLPAIR_COUNT` slots past `p`. -/
theorem sequence_blink_random_safe (H : Header) (hL : H.Layout) (hK : H.Capacities)
    (rnd : Nat → Int) (ri : Nat) (bright speed delay : Int)
    (hs0 : 0 ≤ speed) (hs : speed ≤ 100) (hd0 : 0 ≤ delay) (hd : delay ≤ 100)
    (m : Mem) (p : Nat) (hroom : p + 8 * H.MAX_COLPAIR_COUNT.toNat ≤ m.length + 4) :
    ∃ m1 ri1, sequence_blink_random H rnd ri bright speed delay m (p : Int) =
        some (m1, ((p + 8 * H.MAX_COLPAIR_COUNT.toNat : Nat) : Int), ri1) ∧
      m1.length = m.length := by
  obtain ⟨_, _, hM0, _, _, _, _, _, _, hSPD, hDLY, hc1, hc2, hd1, hd2, hd3, hd4⟩ := hK
  obtain ⟨hcs1, _⟩ := interp_bounds H.RAND_COL_SEG_MIN H.RAND_COL_SEG_MAX speed H.MAX_SPD hs0
    (by omega) (by omega)
  obtain ⟨hds1, hds2⟩ := interp_bounds H.RAND_DLY_SEG_MIN H.RAND_DLY_SEG_MAX delay H.MAX_DLY hd0
    (by omega) (by omega)
  have hcs : 1 ≤ H.RAND_COL_SEG_MIN +
      (speed * (H.RAND_COL_SEG_MAX - H.RAND_COL_SEG_MIN)).tdiv H.MAX_SPD :=
    le_trans (le_min hc1 hc2) hcs1
  have hds0 : 0 ≤ H.RAND_DLY_SEG_MIN +
      (delay * (H.RAND_DLY_SEG_MAX - H.RAND_DLY_SEG_MIN)).tdiv H.MAX_DLY :=
    le_trans (le_min hd1 hd2) hds1
  have hdsN : H.RAND_DLY_SEG_MIN +
      (delay * (H.RAND_DLY_SEG_MAX - H.RAND_DLY_SEG_MIN)).tdiv H.MAX_DLY ≤ H.MAX_COLPAIR_COUNT :=
    le_trans hds2 (max_le hd3 hd4)
  obtain ⟨cs, hcsN⟩ := Int.eq_ofNat_of_zero_le (le_trans (by norm_num) hcs)
  obtain ⟨ds, hdsNat⟩ := Int.eq_ofNat_of_zero_le hds0
  obtain ⟨N, hN⟩ := Int.eq_ofNat_of_zero_le (le_trans (by norm_num) hM0)
  have hNt : H.MAX_COLPAIR_COUNT.toNat = N := by omega
  rw [hNt] at hroom ⊢
  obtain ⟨m1, ri1, h1, hlen1⟩ := random_loop_safe H hL bright rnd N cs ds p hN (by omega)
    (by omega) (N + 1) 0 ri m (by omega) (by omega) hroom
  refine ⟨m1, ri1, ?_, hlen1⟩
  unfold sequence_blink_random
  simp only [hcsN, hdsNat, hNt]
  exact h1

/-! ## Counting and filling one ring -/

theorem split_at_sentinel (H : Header) :
    ∀ l : List Int, H.nocolor ∈ l →
      ∃ cols tail, l = cols ++ H.nocolor :: tail ∧ (∀ c ∈ cols, c ≠ H.nocolor) ∧
        live_colors H l = cols := by
  intro l
  induction l with
  | nil => intro h; simp at h
  | cons c cs ih =>
    intro hmem
    by_cases hc : c = H.nocolor
    · exact ⟨[], cs, by simp [hc], by simp, by simp [live_colors, hc]⟩
    · have hcs : H.nocolor ∈ cs := by
        rcases List.mem_cons.mp hmem with h | h
        · exact absurd h.symm hc
        · exact h
      obtain ⟨cols, tail, h1, h2, h3⟩ := ih hcs
      refine ⟨c :: cols, tail, by simp [h1], ?_, ?_⟩
      · intro x hx
        rcases List.mem_cons.mp hx with h | h
        · rw [h]; exact hc
        · exact h2 x h
      · simp only [live_colors] at h3
        simp only [live_colors, List.takeWhile_cons]
        simp only [hc, ne_eq, not_false_eq_true, decide_True, if_true, h3]

theorem set_sentinel_split (H : Header) (tail : List Int) :
    ∀ (cols : List Int) (k : Nat), k ≤ cols.length →
      ∃ tail1, (cols ++ H.nocolor :: tail).set k H.nocolor = cols.take k ++ H.nocolor :: tail1 := by
  intro cols
  induction cols with
  | nil =>
    intro k hk
    have hk0 : k = 0 := by simpa using hk
    subst hk0
    exact ⟨tail, by simp⟩
  | cons c cs ih =>
    intro k hk
    cases k with
    | zero => exact ⟨cs ++ H.nocolor :: tail, by simp⟩
    | succ k =>
      obtain ⟨t1, ht1⟩ := ih k (by simpa using hk)
      exact ⟨t1, by simp [ht1]⟩

theorem DIV_CEIL_bounds (a b : Int) (ha : 1 ≤ a) (hb : 0 < b) :
    1 ≤ DIV_CEIL a b ∧ DIV_CEIL a b ≤ a ∧ a ≤ b * DIV_CEIL a b := by
  have ha0 : 0 ≤ a := by omega
  unfold DIV_CEIL
  rw [Int.tdiv_eq_ediv ha0 hb.le, Int.tmod_eq_emod ha0 hb.le]
  have h1 := Int.ediv_add_emod a b
  have h2 := Int.emod_nonneg a hb.ne'
  have h3 := Int.emod_lt_of_pos a hb
  have h4 : 0 ≤ a / b := Int.ediv_nonneg ha0 hb.le
  by_cases hr : a % b = 0
  · simp only [hr, ne_eq, not_true_eq_false, if_false, add_zero]
    rw [hr] at h1
    refine ⟨?_, ?_, by omega⟩
    · by_contra hcon
      have : a / b = 0 := by omega
      rw [this] at h1
      omega
    · have : 1 * (a / b) ≤ b * (a / b) := mul_le_mul_of_nonneg_right (by omega) h4
      omega
  · simp only [hr, ne_eq, not_false_eq_true, if_true]
    have hb2 : 2 ≤ b := by
      by_contra hcon
      have hb1 : b = 1 := by omega
      subst hb1
      omega
    have h5 : 2 * (a / b) ≤ b * (a / b) := mul_le_mul_of_nonneg_right hb2 h4
    have h6 : b * (a / b + 1) = b * (a / b) + b := by ring
    refine ⟨by omega, by omega, by omega⟩

/-- The total of `count_cycle_data` is at least 1 for a colour count `n` with
`n * MIN_CYCL_TR <= MAX_COLPAIR_COUNT`. -/
theorem cycle_size_pos (H : Header) (hK : H.Capacities) (spd n : Int)
    (hs0 : 0 ≤ spd) (hs : spd ≤ 100) (hn : 1 ≤ n)
    (hfit : n * H.MIN_CYCL_TR ≤ H.MAX_COLPAIR_COUNT) :
    1 ≤ cycle_size H spd n := by
  obtain ⟨_, _, hM0, hM1, _, _, hmin, hmm, hmax, _⟩ := hK
  have hMu : u32 H.MAX_COLPAIR_COUNT = H.MAX_COLPAIR_COUNT := u32_of_range _ (by omega) (by omega)
  have htr : u32 (100 - spd) = 100 - spd := u32_of_range _ (by omega) (by omega)
  have hnM : n ≤ H.MAX_COLPAIR_COUNT := by nlinarith
  have hd0 : 0 ≤ (H.MAX_CYCL_TR - H.MIN_CYCL_TR) * (100 - spd) :=
    mul_nonneg (by omega) (by omega)
  have hd1 : (H.MAX_CYCL_TR - H.MIN_CYCL_TR) * (100 - spd) ≤
      (H.MAX_CYCL_TR - H.MIN_CYCL_TR) * 100 :=
    mul_le_mul_of_nonneg_left (by omega) (by omega)
  have hdu : u32 ((H.MAX_CYCL_TR - H.MIN_CYCL_TR) * (100 - spd)) =
      (H.MAX_CYCL_TR - H.MIN_CYCL_TR) * (100 - spd) := u32_of_range _ hd0 (by omega)
  have hq0 : 0 ≤ (H.MAX_CYCL_TR - H.MIN_CYCL_TR) * (100 - spd) / 100 :=
    Int.ediv_nonneg hd0 (by norm_num)
  have hq1 : (H.MAX_CYCL_TR - H.MIN_CYCL_TR) * (100 - spd) / 100 ≤
      H.MAX_CYCL_TR - H.MIN_CYCL_TR := by omega
  have hT : u32 (H.MIN_CYCL_TR + (H.MAX_CYCL_TR - H.MIN_CYCL_TR) * (100 - spd) / 100) =
      H.MIN_CYCL_TR + (H.MAX_CYCL_TR - H.MIN_CYCL_TR) * (100 - spd) / 100 :=
    u32_of_range _ (by omega) (by omega)
  have hTn0 : 1 ≤ (H.MIN_CYCL_TR + (H.MAX_CYCL_TR - H.MIN_CYCL_TR) * (100 - spd) / 100) * n := by
    nlinarith
  have hTn1 : (H.MIN_CYCL_TR + (H.MAX_CYCL_TR - H.MIN_CYCL_TR) * (100 - spd) / 100) * n ≤
      1000000 * 4095 := by
    have h1 : (H.MIN_CYCL_TR + (H.MAX_CYCL_TR - H.MIN_CYCL_TR) * (100 - spd) / 100) * n ≤
        1000000 * n := mul_le_mul_of_nonneg_right (by omega) (by omega)
    omega
  have hsz : u32 ((H.MIN_CYCL_TR + (H.MAX_CYCL_TR - H.MIN_CYCL_TR) * (100 - spd) / 100) * n) =
      (H.MIN_CYCL_TR + (H.MAX_CYCL_TR - H.MIN_CYCL_TR) * (100 - spd) / 100) * n :=
    u32_of_range _ (by omega) (by omega)
  unfold cycle_size
  simp only [hMu, htr, hdu, hT, hsz]
  split
  · have hn0 : 0 < n := by omega
    have hq : H.MIN_CYCL_TR ≤ H.MAX_COLPAIR_COUNT / n :=
      Int.le_ediv_of_mul_le hn0 (by rw [mul_comm]; exact hfit)
    have hqM : H.MAX_COLPAIR_COUNT / n ≤ H.MAX_COLPAIR_COUNT := Int.ediv_le_self _ (by omega)
    have hqn : H.MAX_COLPAIR_COUNT / n * n ≤ H.MAX_COLPAIR_COUNT := Int.ediv_mul_le _ hn0.ne'
    have he : u32 (H.MAX_COLPAIR_COUNT / n - H.MIN_CYCL_TR) =
        H.MAX_COLPAIR_COUNT / n - H.MIN_CYCL_TR := u32_of_range _ (by omega) (by omega)
    have het0 : 0 ≤ (H.MAX_COLPAIR_COUNT / n - H.MIN_CYCL_TR) * (100 - spd) :=
      mul_nonneg (by omega) (by omega)
    have het1 : (H.MAX_COLPAIR_COUNT / n - H.MIN_CYCL_TR) * (100 - spd) ≤
        (H.MAX_COLPAIR_COUNT / n - H.MIN_CYCL_TR) * 100 :=
      mul_le_mul_of_nonneg_left (by omega) (by omega)
    have het : u32 ((H.MAX_COLPAIR_COUNT / n - H.MIN_CYCL_TR) * (100 - spd)) =
        (H.MAX_COLPAIR_COUNT / n - H.MIN_CYCL_TR) * (100 - spd) :=
      u32_of_range _ het0 (by omega)
    have hf0 : 0 ≤ (H.MAX_COLPAIR_COUNT / n - H.MIN_CYCL_TR) * (100 - spd) / 100 :=
      Int.ediv_nonneg het0 (by norm_num)
    have hf1 : (H.MAX_COLPAIR_COUNT / n - H.MIN_CYCL_TR) * (100 - spd) / 100 ≤
        H.MAX_COLPAIR_COUNT / n - H.MIN_CYCL_TR := by omega
    have ht : u32 (H.MIN_CYCL_TR +
        (H.MAX_COLPAIR_COUNT / n - H.MIN_CYCL_TR) * (100 - spd) / 100) =
        H.MIN_CYCL_TR + (H.MAX_COLPAIR_COUNT / n - H.MIN_CYCL_TR) * (100 - spd) / 100 :=
      u32_of_range _ (by omega) (by omega)
    have hp0 : 1 ≤ (H.MIN_CYCL_TR +
        (H.MAX_COLPAIR_COUNT / n - H.MIN_CYCL_TR) * (100 - spd) / 100) * n := by nlinarith
    have hp1 : (H.MIN_CYCL_TR +
        (H.MAX_COLPAIR_COUNT / n - H.MIN_CYCL_TR) * (100 - spd) / 100) * n ≤
        H.MAX_COLPAIR_COUNT / n * n :=
      mul_le_mul_of_nonneg_right (by omega) (by omega)
    rw [he, het, ht, u32_of_range _ (by omega) (by omega)]
    exact hp0
  · exact hTn0

/-- The number of blink colours that fit: `k = min(n, floor(M / w))` colours
fit, and the next one, if there is one, does not. -/
theorem kept_facts (M w : Int) (n : Nat) (hM : 0 ≤ M) (hw : 1 ≤ w) :
    min n (M / w).toNat ≤ n ∧ ((min n (M / w).toNat : Nat) : Int) * w ≤ M ∧
    (min n (M / w).toNat < n → M < (((min n (M / w).toNat : Nat) : Int) + 1) * w) := by
  have hw0 : 0 < w := by omega
  have hq0 : 0 ≤ M / w := Int.ediv_nonneg hM hw0.le
  have hkq : ((min n (M / w).toNat : Nat) : Int) ≤ M / w := by
    have := min_le_right n (M / w).toNat
    omega
  refine ⟨min_le_left _ _, ?_, ?_⟩
  · exact le_trans (mul_le_mul_of_nonneg_right hkq hw0.le) (Int.ediv_mul_le M hw0.ne')
  · intro hlt
    have hm : min n (M / w).toNat = (M / w).toNat := by
      rcases min_choice n (M / w).toNat with h | h
      · omega
      · exact h
    rw [hm, Int.toNat_of_nonneg hq0]
    exact Int.lt_ediv_add_one_mul_self _ hw0

/-- What `count_cycle_data` returns when the minimal transitions fit. -/
theorem count_cycle_data_eq (H : Header) (hK : H.Capacities) (colsch : colscheme)
    (cols tail : List Int) (hcols : 1 ≤ cols.length) (hne : ∀ c ∈ cols, c ≠ H.nocolor)
    (harr : colsch.colors = cols ++ H.nocolor :: tail)
    (hs0 : 0 ≤ colsch.spd) (hs : colsch.spd ≤ 100)
    (hfit : (cols.length : Int) * H.MIN_CYCL_TR ≤ H.MAX_COLPAIR_COUNT) :
    count_cycle_data H colsch =
      some (DIV_CEIL (cycle_size H colsch.spd (cols.length : Int)) H.COLPAIR_PER_PCT) ∧
    1 ≤ DIV_CEIL (cycle_size H colsch.spd (cols.length : Int)) H.COLPAIR_PER_PCT ∧
    DIV_CEIL (cycle_size H colsch.spd (cols.length : Int)) H.COLPAIR_PER_PCT ≤ 4095 := by
  have hpos := cycle_size_pos H hK colsch.spd cols.length hs0 hs (by omega) hfit
  obtain ⟨hC0, hC1, hM0, hM1, _, _, hmin, _⟩ := hK
  obtain ⟨_, hsz⟩ := cycle_size_le H hmin (by omega) colsch.spd cols.length hs0 hs (by omega) hfit
  have hnM : (cols.length : Int) ≤ H.MAX_COLPAIR_COUNT := by nlinarith
  have hnu : u32 (cols.length : Int) = cols.length := u32_of_range _ (by omega) (by omega)
  have hCu : u32 H.COLPAIR_PER_PCT = H.COLPAIR_PER_PCT := u32_of_range _ hC0.le (by omega)
  obtain ⟨hb1, hb2, _⟩ := DIV_CEIL_bounds _ _ hpos hC0
  refine ⟨?_, hb1, by omega⟩
  unfold count_cycle_data
  rw [harr, color_count_spec H tail cols hne]
  simp only [hnu, hCu]
  rw [toInt32_of_range _ (by omega) (by omega)]

/-- Counting one ring and then filling it: for a supported scheme,
`count_data` returns a packet count between 1 and 4095, and `fill_data`, on
the scheme as the counter leaves it, stays inside every block of at least
that many packets when started at the cursor of either ring. -/
theorem ring_ok (H : Header) (hL : H.Layout) (hK : H.Capacities) (colsch : colscheme)
    (hS : supported_scheme H colsch) :
    ∃ (r : Int) (colsch1 : colscheme),
      count_data H colsch = some (r, colsch1) ∧ 1 ≤ r ∧ r ≤ 4095 ∧
      ∀ (rnd : Nat → Int) (ri : Nat) (m : Mem) (p P : Nat) (pckcnt : Int), p ≤ 4 →
        r ≤ (P : Int) → m.length = 64 * P →
        ∃ m1 ri1, fill_data H rnd ri colsch1 m (p : Int) pckcnt =
          some (m1, ri1) ∧ m1.length = m.length := by
  obtain ⟨hmode, _, _, hs0, hs1, hd0, hd1, hmem, hcyc⟩ := hS
  obtain ⟨cols, tail, harr, hne, hlive⟩ := split_at_sentinel H _ hmem
  have hK' := hK
  obtain ⟨hC0, hC1, hM0, hM1, hMP, hP1, _⟩ := hK'
  rcases hmode with hm | hm | hm
  · -- solid
    have hso : strequ colsch.mode "solid" = true := by rw [hm]; decide
    refine ⟨1, colsch, by simp only [count_data, hso, if_true], le_rfl, by norm_num, ?_⟩
    intro rnd ri m p P pckcnt hp hr hlen
    obtain ⟨c, hc⟩ : ∃ c, colsch.colors[0]? = some c := by
      rw [harr]; cases cols <;> simp
    obtain ⟨m1, hw, hlen1, _⟩ := write_command_get H hL c colsch.br m p (by omega)
    refine ⟨m1, ri, ?_, hlen1⟩
    have hsol : sequence_solid H colsch.colors colsch.br m (p : Int) = some m1 := by
      rw [← hw]
      unfold sequence_solid
      rw [hc]
    simp only [fill_data, hso, if_true, hsol]
  · -- blink
    have hns : strequ colsch.mode "solid" = false := by rw [hm]; decide
    have hbl : strequ colsch.mode "blink" = true := by rw [hm]; decide
    by_cases h0 : cols = []
    · -- the random sub-mode
      subst h0
      simp only [List.nil_append] at harr
      have hc0 : colsch.colors[0]? = some H.nocolor := by rw [harr]; simp
      refine ⟨H.MAX_PCT_COUNT, colsch, ?_, by omega, by omega, ?_⟩
      · simp only [count_data, hns, hbl, count_blink_data, hc0]
        simp
      · intro rnd ri m p P pckcnt hp hr hlen
        obtain ⟨m1, ri1, h1, hlen1⟩ := sequence_blink_random_safe H hL hK rnd ri colsch.br
          colsch.spd colsch.dly hs0 hs1 hd0 hd1 m p (by omega)
        refine ⟨m1, ri1, ?_, hlen1⟩
        have hsb : sequence_blink H colsch m1 (p : Int) pckcnt = some m1 := by
          simp [sequence_blink, harr, sequence_blink_loop]
        simp only [fill_data, hns, hbl, hc0, h1, hsb]
        simp
    · -- the explicit sub-mode
      have hw : 1 ≤ 101 - colsch.spd + colsch.dly := by omega
      obtain ⟨hk, hfit, hstop⟩ := kept_facts H.MAX_COLPAIR_COUNT (101 - colsch.spd + colsch.dly)
        cols.length (by omega) hw
      have hq1 : 1 ≤ H.MAX_COLPAIR_COUNT / (101 - colsch.spd + colsch.dly) :=
        Int.le_ediv_of_mul_le (by omega) (by omega)
      have hn1 : 1 ≤ cols.length := List.length_pos.mpr h0
      have hk1 : 1 ≤ min cols.length
          (H.MAX_COLPAIR_COUNT / (101 - colsch.spd + colsch.dly)).toNat := by
        apply le_min hn1
        omega
      have hcnt := count_blink_data_spec H colsch cols tail h0 hne harr hw _ hk hfit hstop
      generalize min cols.length
        (H.MAX_COLPAIR_COUNT / (101 - colsch.spd + colsch.dly)).toNat = k at hk hfit hk1 hcnt
      have hkw1 : 1 ≤ (k : Int) * (101 - colsch.spd + colsch.dly) := by
        have : (1 : Int) ≤ (k : Int) := by exact_mod_cast hk1
        nlinarith
      obtain ⟨hb1, hb2, hb3⟩ := DIV_CEIL_bounds _ _ hkw1 hC0
      refine ⟨_, _, by simp only [count_data, hns, hbl]; simpa using hcnt, hb1, by omega, ?_⟩
      intro rnd ri m p P pckcnt hp hr hlen
      obtain ⟨tail1, hset⟩ := set_sentinel_split H tail cols k hk
      obtain ⟨s, hsN⟩ := Int.eq_ofNat_of_zero_le (show 0 ≤ 101 - colsch.spd by omega)
      obtain ⟨d, hdN⟩ := Int.eq_ofNat_of_zero_le hd0
      have hne' : ∀ c ∈ cols.take k, c ≠ H.nocolor :=
        fun c hc => hne c (List.mem_of_mem_take hc)
      have hlen' : (cols.take k).length = k := by
        rw [List.length_take]; omega
      have hprod : ((k * (s + d) : Nat) : Int) = (k : Int) * (101 - colsch.spd + colsch.dly) := by
        push_cast; rw [hsN, hdN]
      have h8 : H.COLPAIR_PER_PCT *
          DIV_CEIL ((k : Int) * (101 - colsch.spd + colsch.dly)) H.COLPAIR_PER_PCT ≤
          8 * (P : Int) := by
        have h1 : H.COLPAIR_PER_PCT *
            DIV_CEIL ((k : Int) * (101 - colsch.spd + colsch.dly)) H.COLPAIR_PER_PCT ≤
            8 * DIV_CEIL ((k : Int) * (101 - colsch.spd + colsch.dly)) H.COLPAIR_PER_PCT :=
          mul_le_mul_of_nonneg_right hC1 (by omega)
        omega
      have hroom : p + 8 * ((cols.take k).length * (s + d)) ≤ m.length + 4 := by
        rw [hlen']; omega
      obtain ⟨m1, h1, hlen1, _⟩ := sequence_blink_loop_spec H hL colsch.br s d tail1 (cols.take k)
        m p (p : Int) rfl hne' (Or.inr hroom)
      refine ⟨m1, ri, ?_, hlen1⟩
      obtain ⟨c, cs, hccs⟩ := List.exists_cons_of_ne_nil h0
      have hcne : c ≠ H.nocolor := hne c (by rw [hccs]; simp)
      obtain ⟨k', hk'⟩ : ∃ k', k = k' + 1 := ⟨k - 1, by omega⟩
      have hhead : (cols.take k ++ H.nocolor :: tail1)[0]? = some c := by
        rw [hk', hccs]; simp
      have hsb : sequence_blink H { colsch with colors := cols.take k ++ H.nocolor :: tail1 }
          m (p : Int) pckcnt = some m1 := by
        unfold sequence_blink
        simp only [hsN, hdN]
        exact h1
      rw [hset]
      simp only [fill_data, hns, hbl, hhead, hcne, if_false, hsb]
      simp
  · -- cycle
    have hns : strequ colsch.mode "solid" = false := by rw [hm]; decide
    have hnb : strequ colsch.mode "blink" = false := by rw [hm]; decide
    have hcy : strequ colsch.mode "cycle" = true := by rw [hm]; decide
    obtain ⟨hn1, hfit⟩ := hcyc hm
    rw [hlive] at hn1 hfit
    obtain ⟨hcnt, hb1, hb2⟩ := count_cycle_data_eq H hK colsch cols tail hn1 hne harr hs0 hs1 hfit
    refine ⟨_, colsch, by simp [count_data, hns, hnb, hcy, hcnt], hb1, hb2, ?_⟩
    intro rnd ri m p P pckcnt _ _ _
    exact ⟨m, ri, by simp [fill_data, hns, hnb], rfl⟩

/-- The equalizer stays inside every block of `P` packets when both packet
counts lie between 1 and `P`. -/
theorem equalize_safe (H : Header) (hL : H.Layout) (m : Mem) (su sl P : Nat)
    (hsu1 : 1 ≤ su) (hsu : su ≤ P) (hsl1 : 1 ≤ sl) (hsl : sl ≤ P) (hP : P ≤ 4095)
    (hlen : m.length = 64 * P) :
    ∃ m1, equalize H (su : Int) (sl : Int) m = some m1 ∧ m1.length = m.length := by
  obtain ⟨cu, hcu, _, hcu2, _, _⟩ := count_color_commands_spec H hL m su 0 hsu1 (by omega) (by omega)
  obtain ⟨cl, hcl, _, hcl2, _, _⟩ := count_color_commands_spec H hL m sl 1 hsl1 (by omega) (by omega)
  obtain ⟨m1, he, hlen1, _⟩ := equalize_spec H hL m _ _ cu cl hcu hcl (by omega) (by omega)
  exact ⟨m1, he, hlen1⟩

/-- C8 (amended). Unsupported mode is the only error: for every pair of
supported schemes (mode solid, blink or cycle; brightness, speed and delay in
`[0,100]`; colour arrays terminated by `nocolor`; a cycle ring with at least
one colour and at most `MAX_COLPAIR_COUNT / MIN_CYCL_TR` colours) `count_data`
returns at least 1 for both rings, and `parse_colorscheme` does not exit: it
returns a packet array of `pck_cnt` packets, `pck_cnt` being the larger of the
two counts. -/
theorem C8_supported_modes (H : Header) (hL : H.Layout) (hK : H.Capacities) (rnd : Nat → Int)
    (cs : colschemes) (hu : supported_scheme H cs.upper) (hl : supported_scheme H cs.lower) :
    ∃ (su sl : Int) (up lo : colscheme) (data : Mem),
      count_data H cs.upper = some (su, up) ∧ count_data H cs.lower = some (sl, lo) ∧
      1 ≤ su ∧ 1 ≤ sl ∧
      parse_colorscheme H rnd cs = some (Outcome.ret data (max su sl)) ∧
      data.length = (H.DATA_PACKET_SIZE * max su sl).toNat := by
  obtain ⟨su, up, hcu, hsu1, hsu2, hfu⟩ := ring_ok H hL hK cs.upper hu
  obtain ⟨sl, lo, hcl, hsl1, hsl2, hfl⟩ := ring_ok H hL hK cs.lower hl
  obtain ⟨P, hP⟩ := Int.eq_ofNat_of_zero_le (show 0 ≤ max su sl from le_trans (by omega) (le_max_left su sl))
  have hsuP : su ≤ (P : Int) := hP ▸ le_max_left su sl
  have hslP : sl ≤ (P : Int) := hP ▸ le_max_right su sl
  have hP4 : P ≤ 4095 := by
    have : max su sl ≤ 4095 := max_le hsu2 hsl2
    omega
  obtain ⟨m1, ri1, hf1, hlen1⟩ := hfu rnd 0 (List.replicate (64 * P) 0) 0 P (max su sl)
    (by omega) hsuP (by simp)
  obtain ⟨m2, ri2, hf2, hlen2⟩ := hfl rnd ri1 m1 4 P (max su sl) (by omega) hslP
    (by rw [hlen1]; simp)
  obtain ⟨nsu, hnsu⟩ := Int.eq_ofNat_of_zero_le (show 0 ≤ su by omega)
  obtain ⟨nsl, hnsl⟩ := Int.eq_ofNat_of_zero_le (show 0 ≤ sl by omega)
  obtain ⟨m3, he, hlen3⟩ := equalize_safe H hL m2 nsu nsl P (by omega) (by omega) (by omega)
    (by omega) hP4 (by rw [hlen2, hlen1]; simp)
  have hpck : (if su ≥ sl then su else sl) = max su sl := by
    split
    · rename_i h; exact (max_eq_left h).symm
    · rename_i h; exact (max_eq_right (by omega)).symm
  have hsize : (H.DATA_PACKET_SIZE * max su sl).toNat = 64 * P := by
    rw [hL.2.1, hP]; omega
  have hcur : H.BYTE_STEP = ((4 : Nat) : Int) := by rw [hL.1]; rfl
  refine ⟨su, sl, up, lo, m3, hcu, hcl, hsu1, hsl1, ?_, ?_⟩
  · unfold parse_colorscheme
    rw [hcu, hcl]
    simp only []
    rw [if_neg (by omega), hpck, hsize]
    simp only [Nat.cast_zero] at hf1
    rw [hf1]
    simp only []
    rw [hcur, hf2]
    simp only []
    rw [hnsu, hnsl, he]
  · rw [hsize, hlen3, hlen2, hlen1]
    simp

/-- C8 (amended), at a concrete input: a random blink on the upper ring and a
cycle of three colours on the lower ring. -/
theorem C8_supported_modes_witness :
    ∃ (su sl : Int) (up lo : colscheme) (data : Mem),
      count_data quadcast
        (⟨⟨"blink", [-1], 100, 50, 50⟩, ⟨"cycle", [0xFF0000, 0x00FF00, 0x0000FF, -1], 80, 20, 0⟩⟩ :
          colschemes).upper = some (su, up) ∧
      count_data quadcast
        (⟨⟨"blink", [-1], 100, 50, 50⟩, ⟨"cycle", [0xFF0000, 0x00FF00, 0x0000FF, -1], 80, 20, 0⟩⟩ :
          colschemes).lower = some (sl, lo) ∧
      1 ≤ su ∧ 1 ≤ sl ∧
      parse_colorscheme quadcast (fun i => 0x010203 * ((i : Int) + 1))
        ⟨⟨"blink", [-1], 100, 50, 50⟩, ⟨"cycle", [0xFF0000, 0x00FF00, 0x0000FF, -1], 80, 20, 0⟩⟩ =
        some (Outcome.ret data (max su sl)) ∧
      data.length = (quadcast.DATA_PACKET_SIZE * max su sl).toNat :=
  C8_supported_modes quadcast (by decide) (by decide) (fun i => 0x010203 * ((i : Int) + 1))
    ⟨⟨"blink", [-1], 100, 50, 50⟩, ⟨"cycle", [0xFF0000, 0x00FF00, 0x0000FF, -1], 80, 20, 0⟩⟩
    (by decide) (by decide)

/-- C8 as stated fails: a cycle scheme without colours has a supported mode
and all fields in `[0,100]`, yet `count_data` returns 0 for it and
`parse_colorscheme` ends in `exit(254)`. -/
theorem C8_counterexample :
    count_data quadcast ⟨"cycle", [-1], 100, 50, 0⟩ =
      some (0, ⟨"cycle", [-1], 100, 50, 0⟩) ∧
    parse_colorscheme quadcast (fun _ => 1)
      ⟨⟨"cycle", [-1], 100, 50, 0⟩, ⟨"solid", [0x00FF00, -1], 100, 50, 0⟩⟩ =
      some (Outcome.exit 254) := by
  constructor
  · decide
  · decide

/-! ## Further properties of the equalizer and of the hex writer -/

/-- C12. Equalizer no-op: when the recounted command counts of the upper ring
(colour group 0, packet count `upper_size`) and of the lower ring (colour
group 1, packet count `lower_size`) are equal, `equalize` returns the packet
array as it is, every byte unchanged. -/
theorem C12_equalizer_noop (H : Header) (m : Mem) (upper_size lower_size c : Int)
    (hu : count_color_commands H m upper_size 0 = some c)
    (hl : count_color_commands H m lower_size 1 = some c) :
    equalize H upper_size lower_size m = some m := by
  unfold equalize
  rw [hu, hl]
  simp

/-- C12, at a concrete input: one packet with three commands on each ring. -/
theorem C12_equalizer_noop_witness :
    equalize quadcast 1 1
      ([129, 255, 0, 0, 129, 0, 0, 255, 129, 0, 0, 0, 129, 0, 0, 0, 129, 0, 0, 0, 129, 9, 9, 9] ++
        List.replicate 40 0) =
    some ([129, 255, 0, 0, 129, 0, 0, 255, 129, 0, 0, 0, 129, 0, 0, 0, 129, 0, 0, 0, 129, 9, 9, 9] ++
        List.replicate 40 0) :=
  C12_equalizer_noop quadcast
    ([129, 255, 0, 0, 129, 0, 0, 255, 129, 0, 0, 0, 129, 0, 0, 0, 129, 0, 0, 0, 129, 9, 9, 9] ++
        List.replicate 40 0) 1 1 3 (by decide) (by decide)

theorem land_255_range (x : Int) : 0 ≤ Int.land x 0xff ∧ Int.land x 0xff ≤ 255 := by
  cases x with
  | ofNat n =>
    have h := land_255_of_nonneg (Int.ofNat n) (Int.ofNat_nonneg n)
    rw [h]
    omega
  | negSucc n =>
    have hlt : Nat.ldiff 255 n < 2 ^ 8 := by
      apply Nat.lt_pow_two_of_testBit
      intro i hi
      rw [Nat.testBit_ldiff]
      have h255 : Nat.testBit 255 i = false :=
        Nat.testBit_lt_two_pow (lt_of_lt_of_le (by norm_num) (Nat.pow_le_pow_right (by norm_num) hi))
      rw [h255]
      rfl
    have hdef : Int.land (Int.negSucc n) 0xff = ((Nat.ldiff 255 n : Nat) : Int) := rfl
    rw [hdef]
    norm_num at hlt
    omega

/-- The scaled channel lies between 0 and the channel itself. -/
theorem hex_channel_range (c b : Int) (n : Nat) (hb0 : 0 ≤ b) (hb : b ≤ 100) :
    0 ≤ hex_channel c b n ∧ hex_channel c b n ≤ Int.land (c >>> n) 0xff ∧
    hex_channel c b n ≤ 255 := by
  obtain ⟨h0, h1⟩ := land_255_range (c >>> n)
  unfold hex_channel
  rw [Int.tdiv_eq_ediv (mul_nonneg h0 hb0) (by norm_num)]
  have hq0 : 0 ≤ Int.land (c >>> n) 0xff * b / 100 :=
    Int.ediv_nonneg (mul_nonneg h0 hb0) (by norm_num)
  have hq1 : Int.land (c >>> n) 0xff * b / 100 ≤ Int.land (c >>> n) 0xff := by
    apply Int.ediv_le_of_le_mul (by norm_num)
    nlinarith
  exact ⟨hq0, hq1, le_trans hq1 h1⟩

/-- The three bytes `write_hexcolor` stores at the natural offset `p`. -/
theorem write_hexcolor_get (c b : Int) (m : Mem) (p : Nat) (hp : p + 2 < m.length) :
    ∃ m1, write_hexcolor c b m (p : Int) = some m1 ∧ m1.length = m.length ∧
      m1[p]? = some (hex_byte c b 16) ∧ m1[p + 1]? = some (hex_byte c b 8) ∧
      m1[p + 2]? = some (hex_byte c b 0) ∧
      ∀ i : Nat, ¬ (p ≤ i ∧ i < p + 3) → m1[i]? = m[i]? := by
  refine ⟨((m.set p (hex_byte c b 16)).set (p + 1) (hex_byte c b 8)).set (p + 2) (hex_byte c b 0),
    ?_, by simp, ?_, ?_, ?_, ?_⟩
  · unfold write_hexcolor
    rw [writeByte_nat _ _ _ (by omega)]
    simp only []
    rw [writeByte_at _ _ (p + 1) _ (by push_cast; ring) (by simp; omega)]
    simp only []
    rw [writeByte_at _ _ (p + 2) _ (by push_cast; ring) (by simp; omega)]
    rfl
  · simp [List.getElem?_set]; omega
  · simp [List.getElem?_set]; omega
  · simp [List.getElem?_set]; omega
  · intro i hi
    simp only [List.getElem?_set, List.length_set]
    have e2 : ¬ p + 2 = i := by omega
    have e1 : ¬ p + 1 = i := by omega
    have e0 : ¬ p = i := by omega
    simp [e2, e1, e0]

/-- C19. Brightness scaling stays in byte range and never brightens: for
every colour `c` (any integer, the negative `int` values included), every
brightness `b` in `[0,100]` and every shift `n` (16, 8 and 0 among them), the
value `(((c >> n) & 0xff) * b) / 100` lies in `[0,255]` and is at most the
channel `(c >> n) & 0xff`, so the byte stored equals the value; `write_hexcolor`
stores these three values; at `b = 100` it stores the three channels
unchanged and at `b = 0` it stores `0,0,0`. -/
theorem C19_brightness_scaling (c b : Int) (hb0 : 0 ≤ b) (hb : b ≤ 100) (m : Mem) (p : Nat)
    (hp : p + 2 < m.length) :
    (∀ n : Nat, 0 ≤ hex_channel c b n ∧ hex_channel c b n ≤ 255 ∧
      hex_channel c b n ≤ Int.land (c >>> n) 0xff ∧ hex_channel c b n % 256 = hex_channel c b n) ∧
    (∃ m1, write_hexcolor c b m (p : Int) = some m1 ∧ m1[p]? = some (hex_channel c b 16) ∧
      m1[p + 1]? = some (hex_channel c b 8) ∧ m1[p + 2]? = some (hex_channel c b 0)) ∧
    (∃ m1, write_hexcolor c 100 m (p : Int) = some m1 ∧
      m1[p]? = some (Int.land (c >>> (16 : Nat)) 0xff) ∧ m1[p + 1]? = some (Int.land (c >>> (8 : Nat)) 0xff) ∧
      m1[p + 2]? = some (Int.land (c >>> (0 : Nat)) 0xff)) ∧
    (∃ m1, write_hexcolor c 0 m (p : Int) = some m1 ∧
      m1[p]? = some 0 ∧ m1[p + 1]? = some 0 ∧ m1[p + 2]? = some 0) := by
  have hbyte : ∀ (b' : Int), 0 ≤ b' → b' ≤ 100 → ∀ n : Nat,
      hex_byte c b' n = hex_channel c b' n := by
    intro b' h0 h1 n
    obtain ⟨r0, _, r2⟩ := hex_channel_range c b' n h0 h1
    unfold hex_byte
    omega
  have h100 : ∀ n : Nat, hex_channel c 100 n = Int.land (c >>> n) 0xff := by
    intro n
    obtain ⟨h0, _⟩ := land_255_range (c >>> n)
    unfold hex_channel
    rw [Int.tdiv_eq_ediv (mul_nonneg h0 (by norm_num)) (by norm_num)]
    omega
  have hzero : ∀ n : Nat, hex_channel c 0 n = 0 := by
    intro n
    unfold hex_channel
    simp
  refine ⟨?_, ?_, ?_, ?_⟩
  · intro n
    obtain ⟨r0, r1, r2⟩ := hex_channel_range c b n hb0 hb
    exact ⟨r0, r2, r1, by omega⟩
  · obtain ⟨m1, h1, _, g0, g1, g2, _⟩ := write_hexcolor_get c b m p hp
    refine ⟨m1, h1, ?_, ?_, ?_⟩
    · rw [g0, hbyte b hb0 hb]
    · rw [g1, hbyte b hb0 hb]
    · rw [g2, hbyte b hb0 hb]
  · obtain ⟨m1, h1, _, g0, g1, g2, _⟩ := write_hexcolor_get c 100 m p hp
    refine ⟨m1, h1, ?_, ?_, ?_⟩
    · rw [g0, hbyte 100 (by norm_num) le_rfl, h100]
    · rw [g1, hbyte 100 (by norm_num) le_rfl, h100]
    · rw [g2, hbyte 100 (by norm_num) le_rfl, h100]
  · obtain ⟨m1, h1, _, g0, g1, g2, _⟩ := write_hexcolor_get c 0 m p hp
    refine ⟨m1, h1, ?_, ?_, ?_⟩
    · rw [g0, hbyte 0 le_rfl (by norm_num), hzero]
    · rw [g1, hbyte 0 le_rfl (by norm_num), hzero]
    · rw [g2, hbyte 0 le_rfl (by norm_num), hzero]

/-- C19, at a concrete input: the negative colour `-2` (all channels but the
lowest bit set) at brightness 37. -/
theorem C19_brightness_scaling_witness :
    (∀ n : Nat, 0 ≤ hex_channel (-2) 37 n ∧ hex_channel (-2) 37 n ≤ 255 ∧
      hex_channel (-2) 37 n ≤ Int.land ((-2 : Int) >>> n) 0xff ∧
      hex_channel (-2) 37 n % 256 = hex_channel (-2) 37 n) ∧
    (∃ m1, write_hexcolor (-2) 37 [7, 7, 7, 7] ((1 : Nat) : Int) = some m1 ∧
      m1[1]? = some (hex_channel (-2) 37 16) ∧
      m1[1 + 1]? = some (hex_channel (-2) 37 8) ∧ m1[1 + 2]? = some (hex_channel (-2) 37 0)) ∧
    (∃ m1, write_hexcolor (-2) 100 [7, 7, 7, 7] ((1 : Nat) : Int) = some m1 ∧
      m1[1]? = some (Int.land ((-2 : Int) >>> (16 : Nat)) 0xff) ∧
      m1[1 + 1]? = some (Int.land ((-2 : Int) >>> (8 : Nat)) 0xff) ∧
      m1[1 + 2]? = some (Int.land ((-2 : Int) >>> (0 : Nat)) 0xff)) ∧
    (∃ m1, write_hexcolor (-2) 0 [7, 7, 7, 7] ((1 : Nat) : Int) = some m1 ∧
      m1[1]? = some 0 ∧ m1[1 + 1]? = some 0 ∧ m1[1 + 2]? = some 0) :=
  C19_brightness_scaling (-2) 37 (by decide) (by decide) [7, 7, 7, 7] 1 (by decide)

/-- C18. Truncation never empties a blink sequence: on an array holding
`n >= 1` colours followed by `nocolor`, with speed and delay in `[0,100]`,
`count_blink_data` returns a packet count of at least 1 and leaves `colors[0]`
as it was, a colour other than `nocolor`; so `fill_data`, on the scheme as the
counter leaves it, takes the explicit path: in the blink mode it is
`sequence_blink` alone, and no random colour is consumed.  One colour with its
delay is at most 201 colour pairs, which fit into `MAX_COLPAIR_COUNT`. -/
theorem C18_truncation_keeps_first (H : Header) (hM : 201 ≤ H.MAX_COLPAIR_COUNT)
    (hC : 0 < H.COLPAIR_PER_PCT) (colsch : colscheme) (cols tail : List Int)
    (hcols : cols ≠ []) (hne : ∀ c ∈ cols, c ≠ H.nocolor)
    (harr : colsch.colors = cols ++ H.nocolor :: tail)
    (hs0 : 0 ≤ colsch.spd) (hs : colsch.spd ≤ 100) (hd0 : 0 ≤ colsch.dly) (hd : colsch.dly ≤ 100) :
    ∃ (cnt : Int) (cols1 : List Int) (c : Int),
      count_blink_data H colsch = some (cnt, { colsch with colors := cols1 }) ∧
      colsch.colors[0]? = some c ∧ cols1[0]? = some c ∧ c ≠ H.nocolor ∧ 1 ≤ cnt ∧
      (colsch.mode = "blink" → ∀ (rnd : Nat → Int) (ri : Nat) (m : Mem) (da pckcnt : Int),
        fill_data H rnd ri { colsch with colors := cols1 } m da pckcnt =
          match sequence_blink H { colsch with colors := cols1 } m da pckcnt with
          | none => none
          | some m1 => some (m1, ri)) := by
  have hw : 1 ≤ 101 - colsch.spd + colsch.dly := by omega
  obtain ⟨hk, hfit, hstop⟩ := kept_facts H.MAX_COLPAIR_COUNT (101 - colsch.spd + colsch.dly)
    cols.length (by omega) hw
  have hq1 : 1 ≤ H.MAX_COLPAIR_COUNT / (101 - colsch.spd + colsch.dly) :=
    Int.le_ediv_of_mul_le (by omega) (by omega)
  have hn1 : 1 ≤ cols.length := List.length_pos.mpr hcols
  have hk1 : 1 ≤ min cols.length
      (H.MAX_COLPAIR_COUNT / (101 - colsch.spd + colsch.dly)).toNat := by
    apply le_min hn1
    omega
  have hcnt := count_blink_data_spec H colsch cols tail hcols hne harr hw _ hk hfit hstop
  generalize min cols.length
    (H.MAX_COLPAIR_COUNT / (101 - colsch.spd + colsch.dly)).toNat = k at hk hfit hk1 hcnt
  have hkw1 : 1 ≤ (k : Int) * (101 - colsch.spd + colsch.dly) := by
    have : (1 : Int) ≤ (k : Int) := by exact_mod_cast hk1
    nlinarith
  obtain ⟨hb1, _, _⟩ := DIV_CEIL_bounds _ _ hkw1 hC
  obtain ⟨c, cs, hccs⟩ := List.exists_cons_of_ne_nil hcols
  have hcne : c ≠ H.nocolor := hne c (by rw [hccs]; simp)
  obtain ⟨k', hk'⟩ : ∃ k', k = k' + 1 := ⟨k - 1, by omega⟩
  have hhead : ((cols ++ H.nocolor :: tail).set k H.nocolor)[0]? = some c := by
    rw [hk', hccs]; simp
  refine ⟨_, _, c, hcnt, by rw [harr, hccs]; simp, hhead, hcne, hb1, ?_⟩
  intro hm rnd ri m da pckcnt
  have hns : strequ colsch.mode "solid" = false := by rw [hm]; decide
  have hbl : strequ colsch.mode "blink" = true := by rw [hm]; decide
  simp only [fill_data, hns, hbl, hhead, hcne, if_false]
  generalize sequence_blink H _ m da pckcnt = r
  cases r <;> rfl

/-- C18, at a concrete input: ten colours at speed 0 and delay 100, of which
three survive the truncation. -/
theorem C18_truncation_keeps_first_witness :
    ∃ (cnt : Int) (cols1 : List Int) (c : Int),
      count_blink_data quadcast
        ⟨"blink", List.replicate 10 0x00FF00 ++ quadcast.nocolor :: [], 100, 0, 100⟩ =
        some (cnt, { (⟨"blink", List.replicate 10 0x00FF00 ++ quadcast.nocolor :: [], 100, 0, 100⟩ :
          colscheme) with colors := cols1 }) ∧
      (⟨"blink", List.replicate 10 0x00FF00 ++ quadcast.nocolor :: [], 100, 0, 100⟩ :
          colscheme).colors[0]? = some c ∧ cols1[0]? = some c ∧ c ≠ quadcast.nocolor ∧ 1 ≤ cnt ∧
      ((⟨"blink", List.replicate 10 0x00FF00 ++ quadcast.nocolor :: [], 100, 0, 100⟩ :
          colscheme).mode = "blink" →
        ∀ (rnd : Nat → Int) (ri : Nat) (m : Mem) (da pckcnt : Int),
        fill_data quadcast rnd ri
          { (⟨"blink", List.replicate 10 0x00FF00 ++ quadcast.nocolor :: [], 100, 0, 100⟩ :
            colscheme) with colors := cols1 } m da pckcnt =
          match sequence_blink quadcast
            { (⟨"blink", List.replicate 10 0x00FF00 ++ quadcast.nocolor :: [], 100, 0, 100⟩ :
              colscheme) with colors := cols1 } m da pckcnt with
          | none => none
          | some m1 => some (m1, ri)) :=
  C18_truncation_keeps_first quadcast (by decide) (by decide)
    ⟨"blink", List.replicate 10 0x00FF00 ++ quadcast.nocolor :: [], 100, 0, 100⟩
    (List.replicate 10 0x00FF00) [] (by decide) (by decide) rfl
    (by decide) (by decide) (by decide) (by decide)

/-! ## The command counter -/

theorem takeWhile_range_from_length (P : Nat → Bool) :
    ∀ (n s r : Nat), s ≤ r → r ≤ s + n → (∀ t, s ≤ t → t < r → P t = true) →
      (r < s + n → P r = false) → ((List.range' s n).takeWhile P).length = r - s := by
  intro n
  induction n with
  | zero =>
    intro s r h1 h2 _ _
    have : r = s := by omega
    subst this
    simp
  | succ n ih =>
    intro s r h1 h2 h3 h4
    rw [List.range'_succ, List.takeWhile_cons]
    by_cases hrs : r = s
    · subst hrs
      rw [h4 (by omega)]
      simp
    · rw [h3 s le_rfl (by omega)]
      simp only [if_true, List.length_cons]
      rw [ih (s + 1) r (by omega) (by omega) (fun t ht1 ht2 => h3 t (by omega) ht2) (fun h => h4 (by omega))]
      omega

/-- Under the layout of the packets, `marker_run` from byte `start` on is `r`
when the slots `0 .. r-1` from there carry the marker and slot `r`, if it is
one of the 8 slots, does not. -/
theorem marker_run_eq (H : Header) (hL : H.Layout) (m : Mem) (start r : Nat) (hr : r ≤ 8)
    (h1 : ∀ t : Nat, t < r → m[start + 8 * t]? = some H.RGB_CODE)
    (h2 : r < 8 → m[start + 8 * r]? ≠ some H.RGB_CODE) :
    marker_run H m start = r := by
  have hbs : H.BYTE_STEP.toNat = 4 := by rw [hL.1]; rfl
  have hn : (H.DATA_PACKET_SIZE / (2 * H.BYTE_STEP)).toNat = 8 := by
    rw [hL.1, hL.2.1]; rfl
  have he : ∀ t : Nat, start + 2 * H.BYTE_STEP.toNat * t = start + 8 * t := by
    intro t; rw [hbs]
  unfold marker_run
  simp only [hn, he]
  rw [List.range_eq_range', takeWhile_range_from_length _ 8 0 r (Nat.zero_le _) (by omega)]
  · omega
  · intro t _ ht
    simpa using h1 t ht
  · intro hlt
    simpa using h2 (by omega)

/-- The count of `count_color_commands` in terms of `marker_run`, for packet
counts within the range of the `short` counter. -/
theorem count_color_commands_run (H : Header) (hL : H.Layout) (m : Mem) (pck : Nat)
    (colgroup : Int) (hpck : 1 ≤ pck) (hmax : pck ≤ 4095) (hlen : 64 * pck ≤ m.length) :
    ∃ r : Nat, r ≤ 8 ∧
      marker_run H m (64 * (pck - 1) + (if colgroup ≠ 0 then 4 else 0)) = r ∧
      count_color_commands H m (pck : Int) colgroup = some (((pck : Int) - 1) * 8 + (r : Int)) ∧
      (∀ t : Nat, t < r →
        m[64 * (pck - 1) + (if colgroup ≠ 0 then 4 else 0) + 8 * t]? = some H.RGB_CODE) ∧
      (r < 8 →
        m[64 * (pck - 1) + (if colgroup ≠ 0 then 4 else 0) + 8 * r]? ≠ some H.RGB_CODE) := by
  obtain ⟨n, hn, h1, h2, h3, h4⟩ := count_color_commands_spec H hL m pck colgroup hpck hlen
    (by omega)
  have hm1 : ∀ t : Nat, t < n - 8 * (pck - 1) →
      m[64 * (pck - 1) + (if colgroup ≠ 0 then 4 else 0) + 8 * t]? = some H.RGB_CODE := by
    intro t ht
    have := h3 (8 * (pck - 1) + t) (by omega) (by omega)
    have e : (if colgroup ≠ 0 then 4 else 0) + 8 * (8 * (pck - 1) + t) =
        64 * (pck - 1) + (if colgroup ≠ 0 then 4 else 0) + 8 * t := by omega
    rw [e] at this
    exact this
  have hm2 : n - 8 * (pck - 1) < 8 →
      m[64 * (pck - 1) + (if colgroup ≠ 0 then 4 else 0) + 8 * (n - 8 * (pck - 1))]? ≠
        some H.RGB_CODE := by
    intro hlt
    have := h4 (by omega)
    have e : (if colgroup ≠ 0 then 4 else 0) + 8 * n =
        64 * (pck - 1) + (if colgroup ≠ 0 then 4 else 0) + 8 * (n - 8 * (pck - 1)) := by omega
    rw [e] at this
    exact this
  refine ⟨n - 8 * (pck - 1), by omega, marker_run_eq H hL m _ _ (by omega) hm1 hm2, ?_, hm1, hm2⟩
  rw [hn]
  congr 1
  omega

/-- C11 (amended). Command counting: for every packet array of at least
`pck_cnt` packets, every `pck_cnt` with `1 <= pck_cnt <= 4095` and either
ring, `count_color_commands` returns `(pck_cnt-1)*8 + r`, where `r` is the
number of consecutive slots of the final packet (stride `2*BYTE_STEP`, starting
at offset 0 for the upper ring and `BYTE_STEP` for the lower ring) whose marker
byte equals `RGB_CODE` before the first one that does not; `0 <= r <= 8`; and
two arrays that agree on the marker bytes of that ring in the final packet
get the same count. -/
theorem C11_command_counting (H : Header) (hL : H.Layout) (m : Mem) (pck : Nat) (colgroup : Int)
    (hpck : 1 ≤ pck) (hmax : pck ≤ 4095) (hlen : H.DATA_PACKET_SIZE.toNat * pck ≤ m.length) :
    marker_run H m (H.DATA_PACKET_SIZE.toNat * (pck - 1) +
      (if colgroup ≠ 0 then H.BYTE_STEP.toNat else 0)) ≤ 8 ∧
    count_color_commands H m (pck : Int) colgroup =
      some (((pck : Int) - 1) * 8 + ((marker_run H m (H.DATA_PACKET_SIZE.toNat * (pck - 1) +
        (if colgroup ≠ 0 then H.BYTE_STEP.toNat else 0)) : Nat) : Int)) ∧
    ∀ m1 : Mem, H.DATA_PACKET_SIZE.toNat * pck ≤ m1.length →
      (∀ t : Nat, t < 8 →
        m1[H.DATA_PACKET_SIZE.toNat * (pck - 1) +
            (if colgroup ≠ 0 then H.BYTE_STEP.toNat else 0) + 2 * H.BYTE_STEP.toNat * t]? =
          m[H.DATA_PACKET_SIZE.toNat * (pck - 1) +
            (if colgroup ≠ 0 then H.BYTE_STEP.toNat else 0) + 2 * H.BYTE_STEP.toNat * t]?) →
      count_color_commands H m1 (pck : Int) colgroup =
        count_color_commands H m (pck : Int) colgroup := by
  have hbs : H.BYTE_STEP.toNat = 4 := by rw [hL.1]; rfl
  have hds : H.DATA_PACKET_SIZE.toNat = 64 := by rw [hL.2.1]; rfl
  rw [hds] at hlen
  simp only [hbs, hds]
  obtain ⟨r, hr, hrun, hcnt, h1, h2⟩ := count_color_commands_run H hL m pck colgroup hpck hmax hlen
  refine ⟨by rw [hrun]; exact hr, by rw [hrun]; exact hcnt, ?_⟩
  intro m1 hlen1 hagree
  obtain ⟨r1, hr1, _, hcnt1, g1, g2⟩ := count_color_commands_run H hL m1 pck colgroup hpck hmax
    hlen1
  have hag : ∀ t : Nat, t < 8 →
      m1[64 * (pck - 1) + (if colgroup ≠ 0 then 4 else 0) + 8 * t]? =
        m[64 * (pck - 1) + (if colgroup ≠ 0 then 4 else 0) + 8 * t]? := by
    intro t ht
    have := hagree t ht
    have e : 64 * (pck - 1) + (if colgroup ≠ 0 then 4 else 0) + 2 * 4 * t =
        64 * (pck - 1) + (if colgroup ≠ 0 then 4 else 0) + 8 * t := by omega
    rw [e] at this
    exact this
  have hrr : r1 = r := by
    rcases Nat.lt_trichotomy r1 r with h | h | h
    · exact absurd ((hag r1 (by omega)).trans (h1 r1 h)) (g2 (by omega))
    · exact h
    · exact absurd ((hag r (by omega)).symm.trans (g1 r h)) (h2 (by omega))
  rw [hcnt1, hcnt, hrr]

/-- C11 (amended), at a concrete input: two packets, the lower ring with three
commands in the final packet. -/
theorem C11_command_counting_witness :
    marker_run quadcast
      (List.replicate 64 0 ++ [0, 0, 0, 0, 129, 1, 1, 1, 0, 0, 0, 0, 129, 2, 2, 2,
        0, 0, 0, 0, 129, 3, 3, 3] ++ List.replicate 40 0)
      (quadcast.DATA_PACKET_SIZE.toNat * (2 - 1) +
        (if (1 : Int) ≠ 0 then quadcast.BYTE_STEP.toNat else 0)) ≤ 8 ∧
    count_color_commands quadcast
      (List.replicate 64 0 ++ [0, 0, 0, 0, 129, 1, 1, 1, 0, 0, 0, 0, 129, 2, 2, 2,
        0, 0, 0, 0, 129, 3, 3, 3] ++ List.replicate 40 0) ((2 : Nat) : Int) 1 =
      some ((((2 : Nat) : Int) - 1) * 8 + ((marker_run quadcast
        (List.replicate 64 0 ++ [0, 0, 0, 0, 129, 1, 1, 1, 0, 0, 0, 0, 129, 2, 2, 2,
          0, 0, 0, 0, 129, 3, 3, 3] ++ List.replicate 40 0)
        (quadcast.DATA_PACKET_SIZE.toNat * (2 - 1) +
          (if (1 : Int) ≠ 0 then quadcast.BYTE_STEP.toNat else 0)) : Nat) : Int)) ∧
    ∀ m1 : Mem, quadcast.DATA_PACKET_SIZE.toNat * 2 ≤ m1.length →
      (∀ t : Nat, t < 8 →
        m1[quadcast.DATA_PACKET_SIZE.toNat * (2 - 1) +
            (if (1 : Int) ≠ 0 then quadcast.BYTE_STEP.toNat else 0) +
            2 * quadcast.BYTE_STEP.toNat * t]? =
          (List.replicate 64 0 ++ [0, 0, 0, 0, 129, 1, 1, 1, 0, 0, 0, 0, 129, 2, 2, 2,
            0, 0, 0, 0, 129, 3, 3, 3] ++ List.replicate 40 0)[quadcast.DATA_PACKET_SIZE.toNat *
            (2 - 1) + (if (1 : Int) ≠ 0 then quadcast.BYTE_STEP.toNat else 0) +
            2 * quadcast.BYTE_STEP.toNat * t]?) →
      count_color_commands quadcast m1 ((2 : Nat) : Int) 1 =
        count_color_commands quadcast
          (List.replicate 64 0 ++ [0, 0, 0, 0, 129, 1, 1, 1, 0, 0, 0, 0, 129, 2, 2, 2,
            0, 0, 0, 0, 129, 3, 3, 3] ++ List.replicate 40 0) ((2 : Nat) : Int) 1 :=
  C11_command_counting quadcast (by decide)
    (List.replicate 64 0 ++ [0, 0, 0, 0, 129, 1, 1, 1, 0, 0, 0, 0, 129, 2, 2, 2,
      0, 0, 0, 0, 129, 3, 3, 3] ++ List.replicate 40 0) 2 1 (by decide) (by decide) (by decide)

theorem getElem?_replicate_zero (n i : Nat) (h : i < n) :
    (List.replicate n (0 : Int))[i]? = some 0 := by
  rw [List.getElem?_replicate]
  simp [h]

/-- C11 as stated fails for large packet counts: on a zeroed array of 4097
packets the final packet holds no marker, so the claim gives
`(4097-1)*8 + 0 = 32768`; the `short` counter of `count_color_commands`
cannot hold that value and the function returns `-32768`. -/
theorem C11_counterexample :
    (1 : Int) ≤ 4097 ∧
    (List.replicate (64 * 4097) (0 : Int)).length = 64 * 4097 ∧
    marker_run quadcast (List.replicate (64 * 4097) 0) (64 * (4097 - 1)) = 0 ∧
    count_color_commands quadcast (List.replicate (64 * 4097) 0) 4097 0 = some (-32768) ∧
    (-32768 : Int) ≠ (4097 - 1) * 8 + 0 := by
  have hbyte : (List.replicate (64 * 4097) (0 : Int))[262144]? = some 0 :=
    getElem?_replicate_zero _ _ (by norm_num)
  refine ⟨by decide, List.length_replicate _ _, ?_, ?_, by decide⟩
  · apply marker_run_eq quadcast (by decide) _ _ 0 (by omega)
    · intro t ht; omega
    · intro _
      have e : 64 * (4097 - 1) + 8 * 0 = 262144 := by norm_num
      rw [e, hbyte]
      decide
  · have hcnt : toShort ((4097 - 1) * 8) = -32768 := by decide
    have hb : ((4097 : Int) - 1) * quadcast.DATA_PACKET_SIZE = 262144 := by decide
    have hfuel : quadcast.DATA_PACKET_SIZE.toNat = 63 + 1 := by decide
    have hrd : readByte (List.replicate (64 * 4097) (0 : Int)) ((262144 : Int) + 0) = some 0 := by
      rw [readByte_nat _ _ 262144 (by norm_num)]
      exact hbyte
    unfold count_color_commands
    simp only [hcnt, hb, hfuel, ne_eq, not_true_eq_false, if_false]
    rw [count_scan]
    have hlt : (262144 : Int) < 262144 + quadcast.DATA_PACKET_SIZE := by decide
    rw [if_pos hlt, hrd]
    simp only []
    rw [if_pos (by decide)]

/-- C16. Equalizer frame: on a packet array whose recounted command counts are
`n_u` for the upper ring and `n_l` for the lower ring, both inside the array,
`equalize` returns an array of the same length, and every byte that differs
afterwards lies in one of the `BYTE_STEP`-byte command slots
`min(n_u,n_l) .. max(n_u,n_l)-1` of the shorter ring (the upper ring, at offset
0, when `n_u < n_l`; the lower ring, at offset `BYTE_STEP`, otherwise).  So no
byte of the longer ring and no byte of the first `min(n_u,n_l)` commands of
the shorter ring changes. -/
theorem C16_equalizer_frame (H : Header) (hL : H.Layout) (m : Mem) (upper_size lower_size : Int)
    (nu nl : Nat)
    (hcu : count_color_commands H m upper_size 0 = some (nu : Int))
    (hcl : count_color_commands H m lower_size 1 = some (nl : Int))
    (hru : 2 * H.BYTE_STEP.toNat * nu ≤ m.length) (hrl : 2 * H.BYTE_STEP.toNat * nl ≤ m.length) :
    ∃ m1, equalize H upper_size lower_size m = some m1 ∧ m1.length = m.length ∧
      ∀ x : Nat, m1[x]? ≠ m[x]? →
        ∃ j : Nat, min nu nl ≤ j ∧ j < max nu nl ∧
          (if nu < nl then 0 else H.BYTE_STEP.toNat) + 2 * H.BYTE_STEP.toNat * j ≤ x ∧
          x < (if nu < nl then 0 else H.BYTE_STEP.toNat) + 2 * H.BYTE_STEP.toNat * j +
            H.BYTE_STEP.toNat := by
  have hbs : H.BYTE_STEP.toNat = 4 := by rw [hL.1]; rfl
  rw [hbs] at hru hrl
  simp only [hbs]
  obtain ⟨m1, he, hlen, hlt, hgt, heq⟩ := equalize_spec H hL m upper_size lower_size nu nl hcu hcl
    (by omega) (by omega)
  refine ⟨m1, he, hlen, ?_⟩
  intro x hx
  rcases Nat.lt_trichotomy nu nl with h | h | h
  · obtain ⟨hframe, _⟩ := hlt h
    have hin : in_slots 0 nl x ∧ nu ≤ x / 8 := by
      by_contra hcon
      exact hx (hframe x hcon)
    unfold in_slots at hin
    rw [if_pos h, max_eq_right h.le, min_eq_left h.le]
    exact ⟨x / 8, by omega, by omega, by omega, by omega⟩
  · exact absurd (by rw [heq h]) hx
  · obtain ⟨hframe, _⟩ := hgt h
    have hin : in_slots 4 nu x ∧ nl ≤ (x - 4) / 8 := by
      by_contra hcon
      exact hx (hframe x hcon)
    unfold in_slots at hin
    rw [if_neg (by omega), max_eq_left h.le, min_eq_right h.le]
    exact ⟨(x - 4) / 8, by omega, by omega, by omega, by omega⟩

/-- C16, at a concrete input: one packet with five commands on the upper ring
and two on the lower ring. -/
theorem C16_equalizer_frame_witness :
    ∃ m1, equalize quadcast 1 1
        [129, 1, 1, 1, 129, 6, 6, 6, 129, 2, 2, 2, 129, 7, 7, 7, 129, 3, 3, 3, 0, 0, 0, 0,
          129, 4, 4, 4, 0, 0, 0, 0, 129, 5, 5, 5, 0, 0, 0, 0, 0, 0, 0, 0, 0, 0, 0, 0,
          0, 0, 0, 0, 0, 0, 0, 0, 0, 0, 0, 0, 0, 0, 0, 0] = some m1 ∧
      m1.length = ([129, 1, 1, 1, 129, 6, 6, 6, 129, 2, 2, 2, 129, 7, 7, 7, 129, 3, 3, 3, 0, 0, 0, 0,
          129, 4, 4, 4, 0, 0, 0, 0, 129, 5, 5, 5, 0, 0, 0, 0, 0, 0, 0, 0, 0, 0, 0, 0,
          0, 0, 0, 0, 0, 0, 0, 0, 0, 0, 0, 0, 0, 0, 0, 0] : Mem).length ∧
      ∀ x : Nat, m1[x]? ≠
          ([129, 1, 1, 1, 129, 6, 6, 6, 129, 2, 2, 2, 129, 7, 7, 7, 129, 3, 3, 3, 0, 0, 0, 0,
          129, 4, 4, 4, 0, 0, 0, 0, 129, 5, 5, 5, 0, 0, 0, 0, 0, 0, 0, 0, 0, 0, 0, 0,
          0, 0, 0, 0, 0, 0, 0, 0, 0, 0, 0, 0, 0, 0, 0, 0] : Mem)[x]? →
        ∃ j : Nat, min 5 2 ≤ j ∧ j < max 5 2 ∧
          (if 5 < 2 then 0 else quadcast.BYTE_STEP.toNat) + 2 * quadcast.BYTE_STEP.toNat * j ≤ x ∧
          x < (if 5 < 2 then 0 else quadcast.BYTE_STEP.toNat) + 2 * quadcast.BYTE_STEP.toNat * j +
            quadcast.BYTE_STEP.toNat :=
  C16_equalizer_frame quadcast (by decide)
    [129, 1, 1, 1, 129, 6, 6, 6, 129, 2, 2, 2, 129, 7, 7, 7, 129, 3, 3, 3, 0, 0, 0, 0,
      129, 4, 4, 4, 0, 0, 0, 0, 129, 5, 5, 5, 0, 0, 0, 0, 0, 0, 0, 0, 0, 0, 0, 0,
      0, 0, 0, 0, 0, 0, 0, 0, 0, 0, 0, 0, 0, 0, 0, 0] 1 1 5 2
    (by decide) (by decide) (by decide) (by decide)

/-! ## Counter and generator -/

theorem DIV_CEIL_eight (n : Nat) : DIV_CEIL (n : Int) 8 = (((n + 7) / 8 : Nat) : Int) := by
  unfold DIV_CEIL
  rw [Int.tdiv_eq_ediv (by omega) (by norm_num), Int.tmod_eq_emod (by omega) (by norm_num)]
  split <;> omega

/-- A ring written into a zeroed block: when its slots below `n` carry the
marker and the first bytes of the later slots are still those of the zeroed
block, the ring holds exactly `n` commands. -/
theorem holds_of_zeroed (H : Header) (hL : H.Layout) (m1 : Mem) (N off n : Nat)
    (hmark : ∀ j : Nat, j < n → m1[off + 8 * j]? = some H.RGB_CODE)
    (hrest : ∀ j : Nat, n ≤ j → m1[off + 8 * j]? = (List.replicate N (0 : Int))[off + 8 * j]?) :
    holds_commands H m1 off n := by
  rw [holds_commands_iff H hL]
  refine ⟨hmark, ?_⟩
  intro j hj
  rw [hrest j hj, List.getElem?_replicate]
  have hR : (0 : Int) ≠ H.RGB_CODE := by
    have := hL.2.2.1
    omega
  split
  · intro h
    exact hR (Option.some.inj h)
  · simp

/-- C14. Counter and generator agree: for a scheme in the solid mode or in the
explicit blink mode, with speed and delay in `[0,100]` and a colour array
terminated by `nocolor`, let `seq` be the packet count of `count_data`.  For
every zeroed packet array of `P >= seq` packets and either ring, `fill_data` on
the scheme as the counter leaves it returns, and `count_color_commands` with
`pck_cnt = seq` on that ring then returns the number of commands written: 1 in
the solid mode, `k*((101-speed)+delay)` in the blink mode with `k` remaining
colours.  Here a packet holds `COLPAIR_PER_PCT = 8` colour pairs. -/
theorem C14_counter_generator_agree (H : Header) (hL : H.Layout) (hC : H.COLPAIR_PER_PCT = 8)
    (hM0 : 201 ≤ H.MAX_COLPAIR_COUNT) (hM1 : H.MAX_COLPAIR_COUNT ≤ 32760)
    (colsch : colscheme)
    (hmode : colsch.mode = "solid" ∨
      (colsch.mode = "blink" ∧ colsch.colors[0]? ≠ some H.nocolor))
    (hs0 : 0 ≤ colsch.spd) (hs : colsch.spd ≤ 100) (hd0 : 0 ≤ colsch.dly) (hd : colsch.dly ≤ 100)
    (hmem : H.nocolor ∈ colsch.colors) (rnd : Nat → Int) (ri : Nat) (lower : Bool) :
    ∃ (seq : Nat) (colsch1 : colscheme),
      count_data H colsch = some ((seq : Int), colsch1) ∧
      ∀ P : Nat, seq ≤ P →
        ∃ m1, fill_data H rnd ri colsch1 (List.replicate (H.DATA_PACKET_SIZE.toNat * P) 0)
            (if lower then H.BYTE_STEP else 0) (P : Int) = some (m1, ri) ∧
          count_color_commands H m1 (seq : Int) (if lower then 1 else 0) =
            some (if colsch.mode = "solid" then 1
              else ((live_colors H colsch1.colors).length : Int) *
                ((101 - colsch.spd) + colsch.dly)) := by
  have hds : H.DATA_PACKET_SIZE.toNat = 64 := by rw [hL.2.1]; rfl
  obtain ⟨cols, tail, harr, hne, _⟩ := split_at_sentinel H _ hmem
  -- the cursor of the ring as a natural offset, and its colour group
  obtain ⟨off, hoff, hcur, hgrp⟩ : ∃ off : Nat, off ≤ 4 ∧
      (if lower then H.BYTE_STEP else 0) = (off : Int) ∧
      (if (if lower then (1 : Int) else 0) ≠ 0 then 4 else 0) = off := by
    cases lower
    · exact ⟨0, by omega, by simp, by simp⟩
    · exact ⟨4, le_rfl, by simp [hL.1], by simp⟩
  rw [hcur, hds]
  rcases hmode with hm | ⟨hm, hexp⟩
  · -- solid
    have hso : strequ colsch.mode "solid" = true := by rw [hm]; decide
    refine ⟨1, colsch, by simp only [count_data, hso, if_true]; rfl, ?_⟩
    intro P hP
    obtain ⟨c, hc⟩ : ∃ c, colsch.colors[0]? = some c := by
      rw [harr]; cases cols <;> simp
    obtain ⟨m1, hw, hlen1, hget⟩ := write_command_get H hL c colsch.br
      (List.replicate (64 * P) 0) off (by rw [List.length_replicate]; omega)
    have hsol : sequence_solid H colsch.colors colsch.br (List.replicate (64 * P) 0) (off : Int) =
        some m1 := by
      rw [← hw]
      unfold sequence_solid
      rw [hc]
    have hholds : holds_commands H m1 off 1 := by
      apply holds_of_zeroed H hL m1 (64 * P) off 1
      · intro j hj
        have hj0 : j = 0 := by omega
        subst hj0
        rw [hget, if_pos (by omega)]
        simp [cmd_byte]
      · intro j hj
        rw [hget, if_neg (by omega)]
    refine ⟨m1, by simp only [fill_data, hso, if_true, hsol], ?_⟩
    rw [if_pos hm]
    have := count_of_holds H hL m1 (if lower then 1 else 0) 1 1 le_rfl (by norm_num)
      (by rw [hlen1, List.length_replicate]; omega) (by norm_num) (by rw [hgrp]; exact hholds)
    simpa using this
  · -- explicit blink
    have hns : strequ colsch.mode "solid" = false := by rw [hm]; decide
    have hbl : strequ colsch.mode "blink" = true := by rw [hm]; decide
    have hnsol : ¬ colsch.mode = "solid" := by rw [hm]; decide
    have h0 : cols ≠ [] := by
      intro hnil
      apply hexp
      rw [harr, hnil]; simp
    have hw : 1 ≤ 101 - colsch.spd + colsch.dly := by omega
    obtain ⟨hk, hfit, hstop⟩ := kept_facts H.MAX_COLPAIR_COUNT (101 - colsch.spd + colsch.dly)
      cols.length (by omega) hw
    have hq1 : 1 ≤ H.MAX_COLPAIR_COUNT / (101 - colsch.spd + colsch.dly) :=
      Int.le_ediv_of_mul_le (by omega) (by omega)
    have hn1 : 1 ≤ cols.length := List.length_pos.mpr h0
    have hk1 : 1 ≤ min cols.length
        (H.MAX_COLPAIR_COUNT / (101 - colsch.spd + colsch.dly)).toNat := by
      apply le_min hn1
      omega
    have hcnt := count_blink_data_spec H colsch cols tail h0 hne harr hw _ hk hfit hstop
    have hlive := live_colors_set H tail cols _ hne hk
    generalize min cols.length
      (H.MAX_COLPAIR_COUNT / (101 - colsch.spd + colsch.dly)).toNat = k at hk hfit hk1 hcnt hlive
    obtain ⟨s, hsN⟩ := Int.eq_ofNat_of_zero_le (show 0 ≤ 101 - colsch.spd by omega)
    obtain ⟨d, hdN⟩ := Int.eq_ofNat_of_zero_le hd0
    have hprod : (k : Int) * (101 - colsch.spd + colsch.dly) = ((k * (s + d) : Nat) : Int) := by
      push_cast; rw [hsN, hdN]
    have hsd : 1 ≤ s + d := by omega
    have hkw1 : 1 ≤ k * (s + d) := Nat.mul_pos hk1 hsd
    have hkwM : k * (s + d) ≤ 32760 := by
      have : ((k * (s + d) : Nat) : Int) ≤ 32760 := by rw [← hprod]; omega
      exact_mod_cast this
    rw [hprod, hC, DIV_CEIL_eight] at hcnt
    refine ⟨(k * (s + d) + 7) / 8, _, by simp only [count_data, hns, hbl]; exact hcnt, ?_⟩
    intro P hP
    obtain ⟨tail1, hset⟩ := set_sentinel_split H tail cols k hk
    have hne' : ∀ c ∈ cols.take k, c ≠ H.nocolor :=
      fun c hc => hne c (List.mem_of_mem_take hc)
    have hlen' : (cols.take k).length = k := by
      rw [List.length_take]; omega
    have hroom : off + 8 * ((cols.take k).length * (s + d)) ≤
        (List.replicate (64 * P) (0 : Int)).length + 4 := by
      rw [hlen', List.length_replicate]; omega
    obtain ⟨m1, h1, hlen1, hget⟩ := sequence_blink_loop_spec H hL colsch.br s d tail1
      (cols.take k) (List.replicate (64 * P) 0) off (off : Int) rfl hne' (Or.inr hroom)
    rw [hlen'] at hget
    obtain ⟨c, cs, hccs⟩ := List.exists_cons_of_ne_nil h0
    have hcne : c ≠ H.nocolor := hne c (by rw [hccs]; simp)
    obtain ⟨k', hk'⟩ : ∃ k', k = k' + 1 := ⟨k - 1, by omega⟩
    have hhead : (cols.take k ++ H.nocolor :: tail1)[0]? = some c := by
      rw [hk', hccs]; simp
    have hsb : sequence_blink H { colsch with colors := cols.take k ++ H.nocolor :: tail1 }
        (List.replicate (64 * P) 0) (off : Int) (P : Int) = some m1 := by
      unfold sequence_blink
      simp only [hsN, hdN]
      exact h1
    have hholds : holds_commands H m1 off (k * (s + d)) := by
      apply holds_of_zeroed H hL m1 (64 * P) off (k * (s + d))
      · intro j hj
        have hin : in_slots off (k * (s + d)) (off + 8 * j) := by unfold in_slots; omega
        have e2 : (off + 8 * j - off) % 8 = 0 := by omega
        rw [hget, if_pos hin, e2]
        simp [cmd_byte]
      · intro j hj
        have hin : ¬ in_slots off (k * (s + d)) (off + 8 * j) := by unfold in_slots; omega
        rw [hget, if_neg hin]
    refine ⟨m1, ?_, ?_⟩
    · rw [hset]
      simp only [fill_data, hns, hbl, hhead, hcne, if_false, hsb]
      simp
    · rw [if_neg hnsol]
      have hl : (live_colors H
          ({ colsch with colors := (cols ++ H.nocolor :: tail).set k H.nocolor } :
            colscheme).colors).length = k := by
        simp only [hlive, hlen']
      rw [hl]
      have e : (k : Int) * (101 - colsch.spd + colsch.dly) = ((k * (s + d) : Nat) : Int) := hprod
      rw [e]
      exact count_of_holds H hL m1 (if lower then 1 else 0) _ _ hkw1 rfl
        (by rw [hlen1, List.length_replicate]; omega) hkwM (by rw [hgrp]; exact hholds)

/-- C14, at a concrete input: two colours at speed 98 and delay 2 (ten
commands, two packets) on the lower ring. -/
theorem C14_counter_generator_agree_witness :
    ∃ (seq : Nat) (colsch1 : colscheme),
      count_data quadcast ⟨"blink", [0xFF0000, 0x00FF00, -1], 60, 98, 2⟩ =
        some ((seq : Int), colsch1) ∧
      ∀ P : Nat, seq ≤ P →
        ∃ m1, fill_data quadcast (fun _ => 7) 0 colsch1
            (List.replicate (quadcast.DATA_PACKET_SIZE.toNat * P) 0)
            (if true then quadcast.BYTE_STEP else 0) (P : Int) = some (m1, 0) ∧
          count_color_commands quadcast m1 (seq : Int) (if true then 1 else 0) =
            some (if (⟨"blink", [0xFF0000, 0x00FF00, -1], 60, 98, 2⟩ : colscheme).mode = "solid"
              then 1
              else ((live_colors quadcast colsch1.colors).length : Int) *
                ((101 - (⟨"blink", [0xFF0000, 0x00FF00, -1], 60, 98, 2⟩ : colscheme).spd) +
                  (⟨"blink", [0xFF0000, 0x00FF00, -1], 60, 98, 2⟩ : colscheme).dly)) :=
  C14_counter_generator_agree quadcast (by decide) (by decide) (by decide) (by decide)
    ⟨"blink", [0xFF0000, 0x00FF00, -1], 60, 98, 2⟩ (Or.inr (by decide))
    (by decide) (by decide) (by decide) (by decide) (by decide) (fun _ => 7) 0 true

/-! ## The cycle counter as a function of the speed -/

/-- The total of `count_cycle_data` without wrap-around, for a colour count
`n` with `n * MIN_CYCL_TR <= MAX_COLPAIR_COUNT`: the transition size is
`MIN_CYCL_TR + (MAX_CYCL_TR - MIN_CYCL_TR)*(100-spd)/100`, rescaled to
`MIN_CYCL_TR + (MAX_COLPAIR_COUNT/n - MIN_CYCL_TR)*(100-spd)/100` when the
total exceeds `MAX_COLPAIR_COUNT`. -/
theorem cycle_size_closed (H : Header) (hK : H.Capacities) (spd n : Int)
    (hs0 : 0 ≤ spd) (hs : spd ≤ 100) (hn : 1 ≤ n)
    (hfit : n * H.MIN_CYCL_TR ≤ H.MAX_COLPAIR_COUNT) :
    (cycle_rescales H spd n ↔ H.MAX_COLPAIR_COUNT <
      (H.MIN_CYCL_TR + (H.MAX_CYCL_TR - H.MIN_CYCL_TR) * (100 - spd) / 100) * n) ∧
    cycle_size H spd n =
      (if H.MAX_COLPAIR_COUNT <
          (H.MIN_CYCL_TR + (H.MAX_CYCL_TR - H.MIN_CYCL_TR) * (100 - spd) / 100) * n then
        (H.MIN_CYCL_TR + (H.MAX_COLPAIR_COUNT / n - H.MIN_CYCL_TR) * (100 - spd) / 100) * n
      else (H.MIN_CYCL_TR + (H.MAX_CYCL_TR - H.MIN_CYCL_TR) * (100 - spd) / 100) * n) := by
  obtain ⟨_, _, hM0, hM1, _, _, hmin, hmm, hmax, _⟩ := hK
  have hMu : u32 H.MAX_COLPAIR_COUNT = H.MAX_COLPAIR_COUNT := u32_of_range _ (by omega) (by omega)
  have htr : u32 (100 - spd) = 100 - spd := u32_of_range _ (by omega) (by omega)
  have hnM : n ≤ H.MAX_COLPAIR_COUNT := by nlinarith
  have hd0 : 0 ≤ (H.MAX_CYCL_TR - H.MIN_CYCL_TR) * (100 - spd) :=
    mul_nonneg (by omega) (by omega)
  have hd1 : (H.MAX_CYCL_TR - H.MIN_CYCL_TR) * (100 - spd) ≤
      (H.MAX_CYCL_TR - H.MIN_CYCL_TR) * 100 :=
    mul_le_mul_of_nonneg_left (by omega) (by omega)
  have hdu : u32 ((H.MAX_CYCL_TR - H.MIN_CYCL_TR) * (100 - spd)) =
      (H.MAX_CYCL_TR - H.MIN_CYCL_TR) * (100 - spd) := u32_of_range _ hd0 (by omega)
  have hq0 : 0 ≤ (H.MAX_CYCL_TR - H.MIN_CYCL_TR) * (100 - spd) / 100 :=
    Int.ediv_nonneg hd0 (by norm_num)
  have hq1 : (H.MAX_CYCL_TR - H.MIN_CYCL_TR) * (100 - spd) / 100 ≤
      H.MAX_CYCL_TR - H.MIN_CYCL_TR := by omega
  have hT : u32 (H.MIN_CYCL_TR + (H.MAX_CYCL_TR - H.MIN_CYCL_TR) * (100 - spd) / 100) =
      H.MIN_CYCL_TR + (H.MAX_CYCL_TR - H.MIN_CYCL_TR) * (100 - spd) / 100 :=
    u32_of_range _ (by omega) (by omega)
  have hTn0 : 1 ≤ (H.MIN_CYCL_TR + (H.MAX_CYCL_TR - H.MIN_CYCL_TR) * (100 - spd) / 100) * n := by
    nlinarith
  have hTn1 : (H.MIN_CYCL_TR + (H.MAX_CYCL_TR - H.MIN_CYCL_TR) * (100 - spd) / 100) * n ≤
      1000000 * 4095 := by
    have h1 : (H.MIN_CYCL_TR + (H.MAX_CYCL_TR - H.MIN_CYCL_TR) * (100 - spd) / 100) * n ≤
        1000000 * n := mul_le_mul_of_nonneg_right (by omega) (by omega)
    omega
  have hsz : u32 ((H.MIN_CYCL_TR + (H.MAX_CYCL_TR - H.MIN_CYCL_TR) * (100 - spd) / 100) * n) =
      (H.MIN_CYCL_TR + (H.MAX_CYCL_TR - H.MIN_CYCL_TR) * (100 - spd) / 100) * n :=
    u32_of_range _ (by omega) (by omega)
  have hn0 : 0 < n := by omega
  have hq : H.MIN_CYCL_TR ≤ H.MAX_COLPAIR_COUNT / n :=
    Int.le_ediv_of_mul_le hn0 (by rw [mul_comm]; exact hfit)
  have hqM : H.MAX_COLPAIR_COUNT / n ≤ H.MAX_COLPAIR_COUNT := Int.ediv_le_self _ (by omega)
  have hqn : H.MAX_COLPAIR_COUNT / n * n ≤ H.MAX_COLPAIR_COUNT := Int.ediv_mul_le _ hn0.ne'
  have he : u32 (H.MAX_COLPAIR_COUNT / n - H.MIN_CYCL_TR) =
      H.MAX_COLPAIR_COUNT / n - H.MIN_CYCL_TR := u32_of_range _ (by omega) (by omega)
  have het0 : 0 ≤ (H.MAX_COLPAIR_COUNT / n - H.MIN_CYCL_TR) * (100 - spd) :=
    mul_nonneg (by omega) (by omega)
  have het1 : (H.MAX_COLPAIR_COUNT / n - H.MIN_CYCL_TR) * (100 - spd) ≤
      (H.MAX_COLPAIR_COUNT / n - H.MIN_CYCL_TR) * 100 :=
    mul_le_mul_of_nonneg_left (by omega) (by omega)
  have het : u32 ((H.MAX_COLPAIR_COUNT / n - H.MIN_CYCL_TR) * (100 - spd)) =
      (H.MAX_COLPAIR_COUNT / n - H.MIN_CYCL_TR) * (100 - spd) :=
    u32_of_range _ het0 (by omega)
  have hf0 : 0 ≤ (H.MAX_COLPAIR_COUNT / n - H.MIN_CYCL_TR) * (100 - spd) / 100 :=
    Int.ediv_nonneg het0 (by norm_num)
  have hf1 : (H.MAX_COLPAIR_COUNT / n - H.MIN_CYCL_TR) * (100 - spd) / 100 ≤
      H.MAX_COLPAIR_COUNT / n - H.MIN_CYCL_TR := by omega
  have ht : u32 (H.MIN_CYCL_TR +
      (H.MAX_COLPAIR_COUNT / n - H.MIN_CYCL_TR) * (100 - spd) / 100) =
      H.MIN_CYCL_TR + (H.MAX_COLPAIR_COUNT / n - H.MIN_CYCL_TR) * (100 - spd) / 100 :=
    u32_of_range _ (by omega) (by omega)
  have hp0 : 0 ≤ (H.MIN_CYCL_TR +
      (H.MAX_COLPAIR_COUNT / n - H.MIN_CYCL_TR) * (100 - spd) / 100) * n :=
    mul_nonneg (by omega) (by omega)
  have hp1 : (H.MIN_CYCL_TR +
      (H.MAX_COLPAIR_COUNT / n - H.MIN_CYCL_TR) * (100 - spd) / 100) * n ≤
      H.MAX_COLPAIR_COUNT / n * n :=
    mul_le_mul_of_nonneg_right (by omega) (by omega)
  have hpu : u32 ((H.MIN_CYCL_TR +
      (H.MAX_COLPAIR_COUNT / n - H.MIN_CYCL_TR) * (100 - spd) / 100) * n) =
      (H.MIN_CYCL_TR + (H.MAX_COLPAIR_COUNT / n - H.MIN_CYCL_TR) * (100 - spd) / 100) * n :=
    u32_of_range _ hp0 (by omega)
  constructor
  · unfold cycle_rescales
    simp only [hMu, htr, hdu, hT, hsz]
  · unfold cycle_size
    simp only [hMu, htr, hdu, hT, hsz, he, het, ht, hpu]

theorem DIV_CEIL_mono (a b c : Int) (ha : 0 ≤ a) (hab : a ≤ b) (hc : 0 < c) :
    DIV_CEIL a c ≤ DIV_CEIL b c := by
  rw [DIV_CEIL_eq_ceil a c ha hc, DIV_CEIL_eq_ceil b c (le_trans ha hab) hc]
  apply Int.ceil_mono
  apply div_le_div_of_nonneg_right
  · exact_mod_cast hab
  · exact_mod_cast hc.le

/-- C17 (amended). Cycle capacity is monotone in speed on either side of the
rescaling boundary: for a colour array with `n >= 1` colours,
`n * MIN_CYCL_TR <= MAX_COLPAIR_COUNT`, and speeds `s1 <= s2` in `[0,100]` that
both take the rescaling branch of `count_cycle_data` or both do not, the packet
count at `s1` is at least the packet count at `s2`. -/
theorem C17_cycle_monotone (H : Header) (hK : H.Capacities) (colsch : colscheme)
    (cols tail : List Int) (hcols : 1 ≤ cols.length) (hne : ∀ c ∈ cols, c ≠ H.nocolor)
    (harr : colsch.colors = cols ++ H.nocolor :: tail)
    (hfit : (cols.length : Int) * H.MIN_CYCL_TR ≤ H.MAX_COLPAIR_COUNT)
    (s1 s2 : Int) (h0 : 0 ≤ s1) (h12 : s1 ≤ s2) (h2 : s2 ≤ 100)
    (hbranch : cycle_rescales H s1 (cols.length : Int) ↔ cycle_rescales H s2 (cols.length : Int)) :
    ∃ r1 r2 : Int, count_cycle_data H { colsch with spd := s1 } = some r1 ∧
      count_cycle_data H { colsch with spd := s2 } = some r2 ∧ r2 ≤ r1 := by
  have h1' : s1 ≤ 100 := by omega
  have h2' : 0 ≤ s2 := by omega
  obtain ⟨hc1, _, _⟩ := count_cycle_data_eq H hK { colsch with spd := s1 } cols tail hcols hne harr
    h0 h1' hfit
  obtain ⟨hc2, _, _⟩ := count_cycle_data_eq H hK { colsch with spd := s2 } cols tail hcols hne harr
    h2' h2 hfit
  refine ⟨_, _, hc1, hc2, ?_⟩
  simp only []
  have hpos2 := cycle_size_pos H hK s2 cols.length (by omega) h2 (by omega) hfit
  obtain ⟨hr1, hz1⟩ := cycle_size_closed H hK s1 cols.length h0 (by omega) (by omega) hfit
  obtain ⟨hr2, hz2⟩ := cycle_size_closed H hK s2 cols.length (by omega) h2 (by omega) hfit
  have hK' := hK
  obtain ⟨hC0, _, hM0, hM1, _, _, hmin, hmm, hmax, _⟩ := hK'
  have hn0 : (0 : Int) < cols.length := by omega
  have hq : H.MIN_CYCL_TR ≤ H.MAX_COLPAIR_COUNT / (cols.length : Int) :=
    Int.le_ediv_of_mul_le hn0 (by rw [mul_comm]; exact hfit)
  have hT : (H.MAX_CYCL_TR - H.MIN_CYCL_TR) * (100 - s2) / 100 ≤
      (H.MAX_CYCL_TR - H.MIN_CYCL_TR) * (100 - s1) / 100 :=
    Int.ediv_le_ediv (by norm_num) (mul_le_mul_of_nonneg_left (by omega) (by omega))
  have hR : (H.MAX_COLPAIR_COUNT / (cols.length : Int) - H.MIN_CYCL_TR) * (100 - s2) / 100 ≤
      (H.MAX_COLPAIR_COUNT / (cols.length : Int) - H.MIN_CYCL_TR) * (100 - s1) / 100 :=
    Int.ediv_le_ediv (by norm_num) (mul_le_mul_of_nonneg_left (by omega) (by omega))
  have hle : cycle_size H s2 (cols.length : Int) ≤ cycle_size H s1 (cols.length : Int) := by
    rw [hz1, hz2]
    by_cases hb : cycle_rescales H s1 (cols.length : Int)
    · rw [if_pos (hr1.mp hb), if_pos (hr2.mp (hbranch.mp hb))]
      exact mul_le_mul_of_nonneg_right (by omega) hn0.le
    · rw [if_neg (fun h => hb (hr1.mpr h)), if_neg (fun h => hb (hbranch.mpr (hr2.mpr h)))]
      exact mul_le_mul_of_nonneg_right (by omega) hn0.le
  exact DIV_CEIL_mono _ _ _ (by omega) hle hC0

/-- C17 (amended), at a concrete input: six colours at the speeds 40 and 70,
which both stay below the rescaling boundary. -/
theorem C17_cycle_monotone_witness :
    ∃ r1 r2 : Int,
      count_cycle_data quadcast
        { (⟨"cycle", List.replicate 6 0x00FFFF ++ quadcast.nocolor :: [], 100, 0, 0⟩ : colscheme)
          with spd := 40 } = some r1 ∧
      count_cycle_data quadcast
        { (⟨"cycle", List.replicate 6 0x00FFFF ++ quadcast.nocolor :: [], 100, 0, 0⟩ : colscheme)
          with spd := 70 } = some r2 ∧ r2 ≤ r1 :=
  C17_cycle_monotone quadcast (by decide)
    ⟨"cycle", List.replicate 6 0x00FFFF ++ quadcast.nocolor :: [], 100, 0, 0⟩
    (List.replicate 6 0x00FFFF) [] (by decide) (by decide) rfl (by decide) 40 70
    (by decide) (by decide) (by decide) (by decide)

/-- C17 as stated fails across the rescaling boundary: with six colours the
speed 6 takes the rescaling branch (total 678, 85 packets) and the faster
speed 7 does not (total 714, 90 packets).  It also fails inside the rescaling
branch once `n * MIN_CYCL_TR` exceeds `MAX_COLPAIR_COUNT`, where the unsigned
subtraction wraps: with 61 colours the speed 3 gives fewer packets than the
speed 4. -/
theorem C17_counterexample :
    (6 : Int) ≤ 7 ∧
    count_cycle_data quadcast ⟨"cycle", [1, 2, 3, 4, 5, 6, -1], 100, 6, 0⟩ = some 85 ∧
    count_cycle_data quadcast ⟨"cycle", [1, 2, 3, 4, 5, 6, -1], 100, 7, 0⟩ = some 90 ∧
    ¬ ((90 : Int) ≤ 85) ∧
    cycle_rescales quadcast 3 61 ∧ cycle_rescales quadcast 4 61 ∧
    cycle_size quadcast 3 61 < cycle_size quadcast 4 61 ∧
    DIV_CEIL (cycle_size quadcast 3 61) quadcast.COLPAIR_PER_PCT <
      DIV_CEIL (cycle_size quadcast 4 61) quadcast.COLPAIR_PER_PCT := by
  refine ⟨by decide, by decide, by decide, by decide, by decide, by decide, by decide, by decide⟩

/-! ## The random blink sequence, slot by slot -/

/-- A colour segment followed by a delay segment: the slots written carry the
marker, everything else is left alone. -/
theorem segment_marks (H : Header) (hL : H.Layout) (col b : Int) (s d : Nat)
    (m : Mem) (p : Nat) (hroom : s + d = 0 ∨ p + 8 * (s + d) ≤ m.length + 4) :
    ∃ m1, blink_segment_fill H col (s : Int) (d : Int) b m (p : Int) =
        some (m1, ((p + 8 * (s + d) : Nat) : Int)) ∧ m1.length = m.length ∧
      (∀ j : Nat, j < s + d → m1[p + 8 * j]? = some H.RGB_CODE) ∧
      (∀ i : Nat, ¬ in_slots p (s + d) i → m1[i]? = m[i]?) := by
  obtain ⟨m1, h1, hlen1, hget⟩ := blink_segment_fill_spec H hL col b s d m p (p : Int) rfl hroom
  refine ⟨m1, h1, hlen1, ?_, fun i hi => by rw [hget, if_neg hi]⟩
  intro j hj
  have hin : in_slots p (s + d) (p + 8 * j) := by unfold in_slots; omega
  have e2 : (p + 8 * j - p) % 8 = 0 := by omega
  rw [hget, if_pos hin, e2]
  simp [cmd_byte]

/-- A call of `blink_segment_fill` with a colour segment of negative length
`-k`, started `k` slots after byte `p`: the delay segment is written from `p`
on. -/
theorem segment_marks_neg (H : Header) (hL : H.Layout) (col b : Int) (k d : Nat)
    (m : Mem) (p : Nat) (hroom : d = 0 ∨ p + 8 * d ≤ m.length + 4) :
    ∃ m1, blink_segment_fill H col (-(k : Int)) (d : Int) b m ((p + 8 * k : Nat) : Int) =
        some (m1, ((p + 8 * d : Nat) : Int)) ∧ m1.length = m.length ∧
      (∀ j : Nat, j < d → m1[p + 8 * j]? = some H.RGB_CODE) ∧
      (∀ i : Nat, ¬ in_slots p d i → m1[i]? = m[i]?) := by
  have hda1 : ((p + 8 * k : Nat) : Int) + 2 * H.BYTE_STEP * (-(k : Int)) = (p : Int) := by
    rw [hL.1]; push_cast; ring
  obtain ⟨m2, h2, hlen2, hget⟩ := blink_color_loop_spec H hL H.black b d m p
    (((p + 8 * k : Nat) : Int) + 2 * H.BYTE_STEP * (-(k : Int))) hda1 hroom
  have hda2 : ((p + 8 * k : Nat) : Int) + 2 * H.BYTE_STEP * (-(k : Int)) +
      2 * H.BYTE_STEP * (d : Int) = ((p + 8 * d : Nat) : Int) := by
    rw [hL.1]; push_cast; ring
  have hz : (-(k : Int)).toNat = 0 := by omega
  refine ⟨m2, ?_, hlen2, ?_, fun i hi => by rw [hget, if_neg hi]⟩
  · unfold blink_segment_fill blink_color_fill
    simp only [hz, blink_color_loop, Int.toNat_ofNat, h2, hda2]
  · intro j hj
    have hin : in_slots p d (p + 8 * j) := by unfold in_slots; omega
    have e2 : (p + 8 * j - p) % 8 = 0 := by omega
    rw [hget, if_pos hin, e2]
    simp [cmd_byte]

/-- The loop of `sequence_blink_random` from `c` colour pairs on, when the
slots below `c` already carry the marker: afterwards all `N` slots do, and no
byte outside them has changed. -/
theorem random_loop_marks (H : Header) (hL : H.Layout) (bright : Int) (rnd : Nat → Int)
    (N cs ds p : Nat) (hN : H.MAX_COLPAIR_COUNT = (N : Int)) (hseg : 1 ≤ cs + ds) (hds : ds ≤ N) :
    ∀ (fuel c ri : Nat) (m : Mem), c ≤ N → N - c ≤ fuel → p + 8 * N ≤ m.length + 4 →
      (∀ j : Nat, j < c → m[p + 8 * j]? = some H.RGB_CODE) →
      ∃ m1 ri1, sequence_blink_random_loop H bright (ds : Int) rnd fuel (c : Int) (cs : Int) ri m
          ((p + 8 * c : Nat) : Int) = some (m1, ((p + 8 * N : Nat) : Int), ri1) ∧
        m1.length = m.length ∧
        (∀ j : Nat, j < N → m1[p + 8 * j]? = some H.RGB_CODE) ∧
        (∀ i : Nat, ¬ in_slots p N i → m1[i]? = m[i]?) := by
  intro fuel
  induction fuel with
  | zero =>
    intro c ri m hc hfuel _ hmark
    have hcN : c = N := by omega
    subst hcN
    refine ⟨m, ri, ?_, rfl, hmark, fun _ _ => rfl⟩
    rw [sequence_blink_random_loop, hN, if_neg (lt_irrefl _)]
  | succ fuel ih =>
    intro c ri m hc hfuel hroom hmark
    rw [sequence_blink_random_loop, hN]
    by_cases hlt : c < N
    · have hlt' : (c : Int) < (N : Int) := by omega
      rw [if_pos hlt']
      simp only []
      by_cases hover : (c : Int) + ((cs : Int) + (ds : Int)) > (N : Int)
      · -- the last round: the colour segment is cut
        rw [if_pos hover]
        have hexit : ∀ (f : Nat) (cseg : Int) (r : Nat) (mm : Mem) (dd : Int),
            sequence_blink_random_loop H bright (ds : Int) rnd f
              ((c : Int) + ((cs : Int) + (ds : Int))) cseg r mm dd = some (mm, dd, r) := by
          intro f cseg r mm dd
          have hnot : ¬ ((c : Int) + ((cs : Int) + (ds : Int)) < (N : Int)) := by omega
          cases f with
          | zero => rw [sequence_blink_random_loop, hN, if_neg hnot]
          | succ f => rw [sequence_blink_random_loop, hN, if_neg hnot]
        by_cases hneg : N < c + ds
        · obtain ⟨k, hk⟩ : ∃ k : Nat, c + ds = N + k := ⟨c + ds - N, by omega⟩
          have hcseg : (cs : Int) - ((c : Int) + ((cs : Int) + (ds : Int)) - (N : Int)) =
              -(k : Int) := by omega
          have hcur : ((p + 8 * c : Nat) : Int) = ((p + 8 * (N - ds) + 8 * k : Nat) : Int) := by
            omega
          obtain ⟨m1, h1, hlen1, hm1, hf1⟩ := segment_marks_neg H hL (rnd ri) bright k ds m
            (p + 8 * (N - ds)) (by omega)
          have hend : ((p + 8 * (N - ds) + 8 * ds : Nat) : Int) = ((p + 8 * N : Nat) : Int) := by
            omega
          rw [hcseg, hcur, h1, hend]
          simp only []
          rw [hexit]
          refine ⟨m1, ri + 1, rfl, hlen1, ?_, ?_⟩
          · intro j hj
            by_cases hjd : N - ds ≤ j
            · have := hm1 (j - (N - ds)) (by omega)
              have e : p + 8 * (N - ds) + 8 * (j - (N - ds)) = p + 8 * j := by omega
              rw [e] at this
              exact this
            · rw [hf1 _ (by unfold in_slots; omega)]
              exact hmark j (by omega)
          · intro i hi
            exact hf1 i (by unfold in_slots at hi ⊢; omega)
        · obtain ⟨k, hk⟩ : ∃ k : Nat, c + k + ds = N := ⟨N - c - ds, by omega⟩
          have hcseg : (cs : Int) - ((c : Int) + ((cs : Int) + (ds : Int)) - (N : Int)) =
              (k : Int) := by omega
          obtain ⟨m1, h1, hlen1, hm1, hf1⟩ := segment_marks H hL (rnd ri) bright k ds m
            (p + 8 * c) (by omega)
          have hend : ((p + 8 * c + 8 * (k + ds) : Nat) : Int) = ((p + 8 * N : Nat) : Int) := by
            omega
          rw [hcseg, h1, hend]
          simp only []
          rw [hexit]
          refine ⟨m1, ri + 1, rfl, hlen1, ?_, ?_⟩
          · intro j hj
            by_cases hjc : c ≤ j
            · have := hm1 (j - c) (by omega)
              have e : p + 8 * c + 8 * (j - c) = p + 8 * j := by omega
              rw [e] at this
              exact this
            · rw [hf1 _ (by unfold in_slots; omega)]
              exact hmark j (by omega)
          · intro i hi
            exact hf1 i (by unfold in_slots at hi ⊢; omega)
      · rw [if_neg hover]
        obtain ⟨m1, h1, hlen1, hm1, hf1⟩ := segment_marks H hL (rnd ri) bright cs ds m
          (p + 8 * c) (by omega)
        have hend : ((p + 8 * c + 8 * (cs + ds) : Nat) : Int) =
            ((p + 8 * (c + cs + ds) : Nat) : Int) := by omega
        have hcp : (c : Int) + ((cs : Int) + (ds : Int)) = ((c + cs + ds : Nat) : Int) := by
          push_cast; ring
        rw [h1, hend, hcp]
        simp only []
        have hmark1 : ∀ j : Nat, j < c + cs + ds → m1[p + 8 * j]? = some H.RGB_CODE := by
          intro j hj
          by_cases hjc : c ≤ j
          · have := hm1 (j - c) (by omega)
            have e : p + 8 * c + 8 * (j - c) = p + 8 * j := by omega
            rw [e] at this
            exact this
          · rw [hf1 _ (by unfold in_slots; omega)]
            exact hmark j (by omega)
        obtain ⟨m2, ri2, h2, hlen2, hm2, hf2⟩ := ih (c + cs + ds) (ri + 1) m1 (by omega) (by omega)
          (by rw [hlen1]; exact hroom) hmark1
        refine ⟨m2, ri2, h2, by rw [hlen2, hlen1], hm2, ?_⟩
        intro i hi
        rw [hf2 i hi]
        exact hf1 i (by unfold in_slots at hi ⊢; omega)
    · have hcN : c = N := by omega
      subst hcN
      rw [if_neg (lt_irrefl _)]
      exact ⟨m, ri, rfl, rfl, hmark, fun _ _ => rfl⟩

/-- C13. Blink-random fill lands exactly on the limit: for every speed and
delay in `[0,100]`, every brightness and every sequence `rnd` of random
colours, `sequence_blink_random`, started at a ring cursor `p` with room for
`MAX_COLPAIR_COUNT` slots, returns with its cursor exactly `MAX_COLPAIR_COUNT`
slots past `p`; every slot `0 .. MAX_COLPAIR_COUNT-1` of the ring then carries
the marker `RGB_CODE`; no byte outside these slots has changed.  And in every
round of its loop the colour segment length either stays as it is, or it is
reduced and the loop ends with that round. -/
theorem C13_random_fill_exact (H : Header) (hL : H.Layout) (hK : H.Capacities)
    (rnd : Nat → Int) (ri : Nat) (bright speed delay : Int)
    (hs0 : 0 ≤ speed) (hs : speed ≤ 100) (hd0 : 0 ≤ delay) (hd : delay ≤ 100)
    (m : Mem) (p : Nat) (hroom : p + 8 * H.MAX_COLPAIR_COUNT.toNat ≤ m.length + 4) :
    (∃ m1 ri1, sequence_blink_random H rnd ri bright speed delay m (p : Int) =
        some (m1, (p : Int) + 2 * H.BYTE_STEP * H.MAX_COLPAIR_COUNT, ri1) ∧
      m1.length = m.length ∧
      (∀ j : Nat, j < H.MAX_COLPAIR_COUNT.toNat →
        m1[p + 2 * H.BYTE_STEP.toNat * j]? = some H.RGB_CODE) ∧
      (∀ i : Nat, ¬ in_slots p H.MAX_COLPAIR_COUNT.toNat i → m1[i]? = m[i]?)) ∧
    (∀ (fuel : Nat) (colpair col_seg dly_seg : Int) (r : Nat) (mm : Mem) (da : Int),
      colpair < H.MAX_COLPAIR_COUNT →
      (colpair + (col_seg + dly_seg) ≤ H.MAX_COLPAIR_COUNT ∧
        sequence_blink_random_loop H bright dly_seg rnd (fuel + 1) colpair col_seg r mm da =
          match blink_segment_fill H (rnd r) col_seg dly_seg bright mm da with
          | none => none
          | some (m1, da1) =>
            sequence_blink_random_loop H bright dly_seg rnd fuel (colpair + (col_seg + dly_seg))
              col_seg (r + 1) m1 da1) ∨
      (H.MAX_COLPAIR_COUNT < colpair + (col_seg + dly_seg) ∧
        col_seg - (colpair + (col_seg + dly_seg) - H.MAX_COLPAIR_COUNT) < col_seg ∧
        sequence_blink_random_loop H bright dly_seg rnd (fuel + 1) colpair col_seg r mm da =
          match blink_segment_fill H (rnd r)
            (col_seg - (colpair + (col_seg + dly_seg) - H.MAX_COLPAIR_COUNT)) dly_seg bright mm
            da with
          | none => none
          | some (m1, da1) => some (m1, da1, r + 1))) := by
  constructor
  · have hbs : H.BYTE_STEP.toNat = 4 := by rw [hL.1]; rfl
    obtain ⟨_, _, hM0, _, _, _, _, _, _, hSPD, hDLY, hc1, hc2, hd1, hd2, hd3, hd4⟩ := hK
    obtain ⟨hcs1, _⟩ := interp_bounds H.RAND_COL_SEG_MIN H.RAND_COL_SEG_MAX speed H.MAX_SPD hs0
      (by omega) (by omega)
    obtain ⟨hds1, hds2⟩ := interp_bounds H.RAND_DLY_SEG_MIN H.RAND_DLY_SEG_MAX delay H.MAX_DLY hd0
      (by omega) (by omega)
    have hcs : 1 ≤ H.RAND_COL_SEG_MIN +
        (speed * (H.RAND_COL_SEG_MAX - H.RAND_COL_SEG_MIN)).tdiv H.MAX_SPD :=
      le_trans (le_min hc1 hc2) hcs1
    have hds0 : 0 ≤ H.RAND_DLY_SEG_MIN +
        (delay * (H.RAND_DLY_SEG_MAX - H.RAND_DLY_SEG_MIN)).tdiv H.MAX_DLY :=
      le_trans (le_min hd1 hd2) hds1
    have hdsN : H.RAND_DLY_SEG_MIN +
        (delay * (H.RAND_DLY_SEG_MAX - H.RAND_DLY_SEG_MIN)).tdiv H.MAX_DLY ≤ H.MAX_COLPAIR_COUNT :=
      le_trans hds2 (max_le hd3 hd4)
    obtain ⟨cs, hcsN⟩ := Int.eq_ofNat_of_zero_le (le_trans (by norm_num) hcs)
    obtain ⟨ds, hdsNat⟩ := Int.eq_ofNat_of_zero_le hds0
    obtain ⟨N, hN⟩ := Int.eq_ofNat_of_zero_le (le_trans (by norm_num) hM0)
    have hNt : H.MAX_COLPAIR_COUNT.toNat = N := by omega
    rw [hNt] at hroom ⊢
    obtain ⟨m1, ri1, h1, hlen1, hmark, hframe⟩ := random_loop_marks H hL bright rnd N cs ds p hN
      (by omega) (by omega) (N + 1) 0 ri m (by omega) (by omega) hroom (fun j hj => by omega)
    have hcur : (p : Int) + 2 * H.BYTE_STEP * H.MAX_COLPAIR_COUNT = ((p + 8 * N : Nat) : Int) := by
      rw [hL.1, hN]; push_cast; ring
    refine ⟨m1, ri1, ?_, hlen1, ?_, hframe⟩
    · unfold sequence_blink_random
      simp only [hcsN, hdsNat, hNt, hcur]
      exact h1
    · intro j hj
      rw [hbs]
      have e : p + 2 * 4 * j = p + 8 * j := by omega
      rw [e]
      exact hmark j hj
  · intro fuel colpair col_seg dly_seg r mm da hlt
    by_cases hover : colpair + (col_seg + dly_seg) > H.MAX_COLPAIR_COUNT
    · right
      refine ⟨hover, by omega, ?_⟩
      rw [sequence_blink_random_loop, if_pos hlt]
      simp only [if_pos hover]
      cases hseg : blink_segment_fill H (rnd r)
          (col_seg - (colpair + (col_seg + dly_seg) - H.MAX_COLPAIR_COUNT)) dly_seg bright mm da with
      | none => rfl
      | some q =>
        obtain ⟨m1, da1⟩ := q
        simp only []
        have hnot : ¬ (colpair + (col_seg + dly_seg) < H.MAX_COLPAIR_COUNT) := by omega
        cases fuel with
        | zero => rw [sequence_blink_random_loop, if_neg hnot]
        | succ f => rw [sequence_blink_random_loop, if_neg hnot]
    · left
      refine ⟨by omega, ?_⟩
      rw [sequence_blink_random_loop, if_pos hlt]
      simp only [if_neg hover]

/-- C13, at a concrete input: speed 50 and delay 50 on the lower ring of a
zeroed array of 90 packets. -/
theorem C13_random_fill_exact_witness :
    (∃ m1 ri1, sequence_blink_random quadcast (fun i => 0x0A0B0C + (i : Int)) 0 80 50 50
        (List.replicate 5760 0) ((4 : Nat) : Int) =
        some (m1, ((4 : Nat) : Int) + 2 * quadcast.BYTE_STEP * quadcast.MAX_COLPAIR_COUNT, ri1) ∧
      m1.length = (List.replicate 5760 (0 : Int)).length ∧
      (∀ j : Nat, j < quadcast.MAX_COLPAIR_COUNT.toNat →
        m1[4 + 2 * quadcast.BYTE_STEP.toNat * j]? = some quadcast.RGB_CODE) ∧
      (∀ i : Nat, ¬ in_slots 4 quadcast.MAX_COLPAIR_COUNT.toNat i →
        m1[i]? = (List.replicate 5760 (0 : Int))[i]?)) ∧
    (∀ (fuel : Nat) (colpair col_seg dly_seg : Int) (r : Nat) (mm : Mem) (da : Int),
      colpair < quadcast.MAX_COLPAIR_COUNT →
      (colpair + (col_seg + dly_seg) ≤ quadcast.MAX_COLPAIR_COUNT ∧
        sequence_blink_random_loop quadcast 80 dly_seg (fun i => 0x0A0B0C + (i : Int)) (fuel + 1)
            colpair col_seg r mm da =
          match blink_segment_fill quadcast ((fun i => 0x0A0B0C + (i : Int)) r) col_seg dly_seg
            80 mm da with
          | none => none
          | some (m1, da1) =>
            sequence_blink_random_loop quadcast 80 dly_seg (fun i => 0x0A0B0C + (i : Int)) fuel
              (colpair + (col_seg + dly_seg)) col_seg (r + 1) m1 da1) ∨
      (quadcast.MAX_COLPAIR_COUNT < colpair + (col_seg + dly_seg) ∧
        col_seg - (colpair + (col_seg + dly_seg) - quadcast.MAX_COLPAIR_COUNT) < col_seg ∧
        sequence_blink_random_loop quadcast 80 dly_seg (fun i => 0x0A0B0C + (i : Int)) (fuel + 1)
            colpair col_seg r mm da =
          match blink_segment_fill quadcast ((fun i => 0x0A0B0C + (i : Int)) r)
            (col_seg - (colpair + (col_seg + dly_seg) - quadcast.MAX_COLPAIR_COUNT)) dly_seg 80 mm
            da with
          | none => none
          | some (m1, da1) => some (m1, da1, r + 1))) :=
  C13_random_fill_exact quadcast (by decide) (by decide) (fun i => 0x0A0B0C + (i : Int)) 0 80 50 50
    (by decide) (by decide) (by decide) (by decide) (List.replicate 5760 0) 4
    (by rw [List.length_replicate]; decide)

/-- C15. Writes stay inside the allocated array: for every pair of schemes in
the solid or the blink mode (explicit or random), with brightness, speed and
delay in `[0,100]` and colour arrays terminated by `nocolor`, every stage of
`parse_colorscheme` returns on the zeroed block of exactly
`pck_cnt * DATA_PACKET_SIZE` bytes, `pck_cnt` being the larger of the two
packet counts: the two calls of `fill_data` and the call of `equalize` (with
its `fillup_to` and `memcpy`) each yield a block of the same length.  In this
embedding a load or a store outside the block makes the function return
`none`, so no byte outside `[0, pck_cnt*DATA_PACKET_SIZE)` is read or
written. -/
theorem C15_writes_in_bounds (H : Header) (hL : H.Layout) (hK : H.Capacities) (rnd : Nat → Int)
    (cs : colschemes)
    (hmu : cs.upper.mode = "solid" ∨ cs.upper.mode = "blink")
    (hml : cs.lower.mode = "solid" ∨ cs.lower.mode = "blink")
    (hbu : 0 ≤ cs.upper.br ∧ cs.upper.br ≤ 100) (hsu : 0 ≤ cs.upper.spd ∧ cs.upper.spd ≤ 100)
    (hdu : 0 ≤ cs.upper.dly ∧ cs.upper.dly ≤ 100)
    (hbl : 0 ≤ cs.lower.br ∧ cs.lower.br ≤ 100) (hsl : 0 ≤ cs.lower.spd ∧ cs.lower.spd ≤ 100)
    (hdl : 0 ≤ cs.lower.dly ∧ cs.lower.dly ≤ 100)
    (hcu : H.nocolor ∈ cs.upper.colors) (hcl : H.nocolor ∈ cs.lower.colors) :
    ∃ (su sl : Int) (up lo : colscheme) (m1 m2 m3 : Mem) (ri1 ri2 : Nat),
      count_data H cs.upper = some (su, up) ∧ count_data H cs.lower = some (sl, lo) ∧
      fill_data H rnd 0 up (List.replicate (H.DATA_PACKET_SIZE * max su sl).toNat 0) 0
        (max su sl) = some (m1, ri1) ∧
      fill_data H rnd ri1 lo m1 H.BYTE_STEP (max su sl) = some (m2, ri2) ∧
      equalize H su sl m2 = some m3 ∧
      m1.length = (H.DATA_PACKET_SIZE * max su sl).toNat ∧
      m2.length = (H.DATA_PACKET_SIZE * max su sl).toNat ∧
      m3.length = (H.DATA_PACKET_SIZE * max su sl).toNat ∧
      parse_colorscheme H rnd cs = some (Outcome.ret m3 (max su sl)) := by
  have hSu : supported_scheme H cs.upper := by
    refine ⟨?_, hbu.1, hbu.2, hsu.1, hsu.2, hdu.1, hdu.2, hcu, ?_⟩
    · rcases hmu with h | h
      · exact Or.inl h
      · exact Or.inr (Or.inl h)
    · intro hc
      rcases hmu with h | h <;> rw [h] at hc <;> exact absurd hc (by decide)
  have hSl : supported_scheme H cs.lower := by
    refine ⟨?_, hbl.1, hbl.2, hsl.1, hsl.2, hdl.1, hdl.2, hcl, ?_⟩
    · rcases hml with h | h
      · exact Or.inl h
      · exact Or.inr (Or.inl h)
    · intro hc
      rcases hml with h | h <;> rw [h] at hc <;> exact absurd hc (by decide)
  obtain ⟨su, up, hcntu, hsu1, hsu2, hfu⟩ := ring_ok H hL hK cs.upper hSu
  obtain ⟨sl, lo, hcntl, hsl1, hsl2, hfl⟩ := ring_ok H hL hK cs.lower hSl
  obtain ⟨P, hP⟩ := Int.eq_ofNat_of_zero_le
    (show 0 ≤ max su sl from le_trans (by omega) (le_max_left su sl))
  have hsuP : su ≤ (P : Int) := hP ▸ le_max_left su sl
  have hslP : sl ≤ (P : Int) := hP ▸ le_max_right su sl
  have hP4 : P ≤ 4095 := by
    have : max su sl ≤ 4095 := max_le hsu2 hsl2
    omega
  have hzlen : (List.replicate (64 * P) (0 : Int)).length = 64 * P := List.length_replicate _ _
  obtain ⟨m1, ri1, hf1, hlen1⟩ := hfu rnd 0 (List.replicate (64 * P) 0) 0 P (max su sl)
    (by omega) hsuP hzlen
  obtain ⟨m2, ri2, hf2, hlen2⟩ := hfl rnd ri1 m1 4 P (max su sl) (by omega) hslP
    (by rw [hlen1, hzlen])
  obtain ⟨nsu, hnsu⟩ := Int.eq_ofNat_of_zero_le (show 0 ≤ su by omega)
  obtain ⟨nsl, hnsl⟩ := Int.eq_ofNat_of_zero_le (show 0 ≤ sl by omega)
  obtain ⟨m3, he, hlen3⟩ := equalize_safe H hL m2 nsu nsl P (by omega) (by omega) (by omega)
    (by omega) hP4 (by rw [hlen2, hlen1, hzlen])
  have hpck : (if su ≥ sl then su else sl) = max su sl := by
    split
    · rename_i h; exact (max_eq_left h).symm
    · rename_i h; exact (max_eq_right (by omega)).symm
  have hsize : (H.DATA_PACKET_SIZE * max su sl).toNat = 64 * P := by
    rw [hL.2.1, hP]; omega
  have hcur : H.BYTE_STEP = ((4 : Nat) : Int) := by rw [hL.1]; rfl
  simp only [Nat.cast_zero] at hf1
  rw [← hcur] at hf2
  rw [← hnsu, ← hnsl] at he
  refine ⟨su, sl, up, lo, m1, m2, m3, ri1, ri2, hcntu, hcntl, by rw [hsize]; exact hf1, hf2, he,
    by rw [hsize, hlen1, hzlen], by rw [hsize, hlen2, hlen1, hzlen],
    by rw [hsize, hlen3, hlen2, hlen1, hzlen], ?_⟩
  unfold parse_colorscheme
  rw [hcntu, hcntl]
  simp only []
  rw [if_neg (by omega), hpck, hsize, hf1]
  simp only []
  rw [hf2]
  simp only []
  rw [he]

/-- C15, at a concrete input: a random blink on the upper ring and a solid
colour on the lower ring. -/
theorem C15_writes_in_bounds_witness :
    ∃ (su sl : Int) (up lo : colscheme) (m1 m2 m3 : Mem) (ri1 ri2 : Nat),
      count_data quadcast
        (⟨⟨"blink", [-1], 70, 30, 90⟩, ⟨"solid", [0x336699, -1], 100, 0, 0⟩⟩ : colschemes).upper =
        some (su, up) ∧
      count_data quadcast
        (⟨⟨"blink", [-1], 70, 30, 90⟩, ⟨"solid", [0x336699, -1], 100, 0, 0⟩⟩ : colschemes).lower =
        some (sl, lo) ∧
      fill_data quadcast (fun i => 0x111111 + (i : Int)) 0 up
        (List.replicate (quadcast.DATA_PACKET_SIZE * max su sl).toNat 0) 0 (max su sl) =
        some (m1, ri1) ∧
      fill_data quadcast (fun i => 0x111111 + (i : Int)) ri1 lo m1 quadcast.BYTE_STEP (max su sl) =
        some (m2, ri2) ∧
      equalize quadcast su sl m2 = some m3 ∧
      m1.length = (quadcast.DATA_PACKET_SIZE * max su sl).toNat ∧
      m2.length = (quadcast.DATA_PACKET_SIZE * max su sl).toNat ∧
      m3.length = (quadcast.DATA_PACKET_SIZE * max su sl).toNat ∧
      parse_colorscheme quadcast (fun i => 0x111111 + (i : Int))
        ⟨⟨"blink", [-1], 70, 30, 90⟩, ⟨"solid", [0x336699, -1], 100, 0, 0⟩⟩ =
        some (Outcome.ret m3 (max su sl)) :=
  C15_writes_in_bounds quadcast (by decide) (by decide) (fun i => 0x111111 + (i : Int))
    ⟨⟨"blink", [-1], 70, 30, 90⟩, ⟨"solid", [0x336699, -1], 100, 0, 0⟩⟩
    (by decide) (by decide) (by decide) (by decide) (by decide) (by decide) (by decide)
    (by decide) (by decide) (by decide)

end QuadcastRGB
